import Mathlib

/-!
# boltbrowser: the in-memory mirror of a nested-bucket store

A shallow embedding of `bolt_model.go`.  The mirror (`BoltDB`, `BoltBucket`,
`BoltPair`) is a tree of Go slices; a pointer to a slice element is modelled by
the element's position together with the element as read through the pointer.
The process-wide variable `memBolt` is an explicit argument of every function
that reads it.
-/

namespace BoltBrowser

/-! ## Go library functions used by the model -/

/-- Go `strings.Join(elems, sep)`: the elements with `sep` between neighbours. -/
def stringsJoin : List String → String → String
  | [], _ => ""
  | [a], _ => a
  | a :: b :: rest, sep => a ++ sep ++ stringsJoin (b :: rest) sep

/-- Splitting a character list at every occurrence of `sep`; the result always
has one more piece than there are separators. -/
def splitChars (sep : Char) : List Char → List (List Char)
  | [] => [[]]
  | c :: cs =>
    if c = sep then [] :: splitChars sep cs
    else
      match splitChars sep cs with
      | [] => [[c]]
      | w :: ws => (c :: w) :: ws

/-- Go `strings.Split(s, sep)` for a one-character separator. -/
def stringsSplit (s : String) (sep : Char) : List String :=
  (splitChars sep s.data).map String.mk

/-! ## Data model -/

/-- A `*BoltBucket` held in a `parent` field, as far as `GetPath` follows it:
either nil, or a bucket with a name and a parent pointer of its own. -/
inductive BucketRef where
  | null
  | ref (name : String) (parent : BucketRef)
deriving DecidableEq, Repr

/-- The Go struct `BoltPair`. -/
structure BoltPair where
  parent : BucketRef
  key : String
  val : String
deriving DecidableEq, Repr

/-- The Go struct `BoltBucket`. -/
structure BoltBucket where
  name : String
  pairs : List BoltPair
  buckets : List BoltBucket
  parent : BucketRef
  expanded : Bool
  errorFlag : Bool

/-- The Go struct `BoltDB`. -/
structure BoltDB where
  buckets : List BoltBucket

/-- A `*BoltBucket` that points at an element of a `buckets` slice of the
current mirror: the indices leading to the element from the root slice, and the
element as read through the pointer when it was taken. -/
structure BucketPtr where
  addr : List Nat
  target : BoltBucket

/-- A `*BoltPair` that points at an element of a `pairs` slice. -/
structure PairPtr where
  owner : List Nat
  idx : Nat
  target : BoltPair

/-! ## Path resolution -/

/-- The loop `for i := range buckets { if buckets[i].name == k { return &buckets[i] } }`:
index and element of the first bucket named `k`. -/
def lookupBucket (k : String) : List BoltBucket → Option (Nat × BoltBucket)
  | [] => none
  | b :: bs =>
    if b.name = k then some (0, b)
    else (lookupBucket k bs).map fun r => (r.1 + 1, r.2)

/-- The loop `for i := range pairs { if pairs[i].key == k { return &pairs[i] } }`. -/
def lookupPair (k : String) : List BoltPair → Option (Nat × BoltPair)
  | [] => none
  | p :: ps =>
    if p.key = k then some (0, p)
    else (lookupPair k ps).map fun r => (r.1 + 1, r.2)

/-- `func (bd *BoltDB) getBucket(k string) (*BoltBucket, error)`. -/
def BoltDB.getBucket (bd : BoltDB) (k : String) : Except String BucketPtr :=
  match lookupBucket k bd.buckets with
  | some (i, b) => .ok ⟨[i], b⟩
  | none => .error "Bucket Not Found"

/-- `func (b *BoltBucket) getBucket(k string) (*BoltBucket, error)`. -/
def BucketPtr.getBucket (b : BucketPtr) (k : String) : Except String BucketPtr :=
  match lookupBucket k b.target.buckets with
  | some (i, c) => .ok ⟨b.addr ++ [i], c⟩
  | none => .error "Bucket Not Found"

/-- `func (b *BoltBucket) getPair(k string) (*BoltPair, error)`. -/
def BucketPtr.getPair (b : BucketPtr) (k : String) : Except String PairPtr :=
  match lookupPair k b.target.pairs with
  | some (i, p) => .ok ⟨b.addr, i, p⟩
  | none => .error "Pair Not Found"

/-- The loop `for p := 1; p < len(path); p++ { b, err = b.getBucket(path[p]) ... }`
of `getBucketFromPath`, over the segments after the first. -/
def walkBuckets : BucketPtr → List String → Except String BucketPtr
  | b, [] => .ok b
  | b, s :: rest =>
    match b.getBucket s with
    | .error e => .error e
    | .ok c => walkBuckets c rest

/-- `func (bd *BoltDB) getBucketFromPath(path []string) (*BoltBucket, error)`.
The root bucket is looked up in `memBolt`, not in the receiver. -/
def BoltDB.getBucketFromPath (_bd memBolt : BoltDB) (path : List String) :
    Except String BucketPtr :=
  match path with
  | p0 :: rest =>
    match memBolt.getBucket p0 with
    | .error e => .error e
    | .ok b => walkBuckets b rest
  | [] => .error "Invalid Path"

/-- `func (bd *BoltDB) getPairFromPath(path []string) (*BoltPair, error)`. -/
def BoltDB.getPairFromPath (bd memBolt : BoltDB) (path : List String) :
    Except String PairPtr :=
  match path.getLast? with
  | none => .error "No Path"
  | some last =>
    match bd.getBucketFromPath memBolt path.dropLast with
    | .error e => .error e
    | .ok b => b.getPair last

/-- `func (bd *BoltDB) getGenericFromPath(path []string) (*BoltBucket, *BoltPair, error)`. -/
def BoltDB.getGenericFromPath (bd memBolt : BoltDB) (path : List String) :
    Option BucketPtr × Option PairPtr × Option String :=
  match bd.getPairFromPath memBolt path with
  | .ok p => (none, some p, none)
  | .error _ =>
    match bd.getBucketFromPath memBolt path with
    | .ok b => (some b, none, none)
    | .error _ => (none, none, some "Invalid Path")

/-- `func (b *BoltBucket) GetPath() []string` on the bucket a parent pointer leads to. -/
def BucketRef.GetPath : BucketRef → List String
  | .null => []
  | .ref name .null => [name]
  | .ref name (.ref n p) => (BucketRef.ref n p).GetPath ++ [name]

/-- `func (b *BoltBucket) GetPath() []string`. -/
def BoltBucket.GetPath (b : BoltBucket) : List String :=
  match b.parent with
  | .null => [b.name]
  | .ref n p => (BucketRef.ref n p).GetPath ++ [b.name]

/-- `func (p *BoltPair) GetPath() []string`; a nil parent is a nil-pointer
dereference, returned as `none`. -/
def BoltPair.GetPath (p : BoltPair) : Option (List String) :=
  match p.parent with
  | .null => none
  | .ref n q => some ((BucketRef.ref n q).GetPath ++ [p.key])

/-! ## Visible order -/

/-- The assignment `b.buckets[i].errorFlag = true`. -/
def BoltBucket.setErrorFlag (b : BoltBucket) : BoltBucket :=
  { b with errorFlag := true }

mutual
/-- `func (b *BoltBucket) buildVisiblePathSlice(prefix []string) ([]string, error)`,
returning also the receiver as the call leaves it. -/
def BoltBucket.buildVisiblePathSlice :
    BoltBucket → List String → BoltBucket × List String × Option String
  | ⟨name, pairs, buckets, parent, expanded, errorFlag⟩, pre =>
    let pre := pre ++ [name]
    let retSlice := [stringsJoin pre "/"]
    if expanded then
      let r := visibleSubBuckets buckets pre retSlice
      let retSlice := pairs.foldl
        (fun acc p => acc ++ [stringsJoin pre "/" ++ "/" ++ p.key]) r.2
      (⟨name, pairs, r.1, parent, expanded, errorFlag⟩, retSlice, none)
    else
      (⟨name, pairs, buckets, parent, expanded, errorFlag⟩, retSlice, none)
/-- The loop `for i := range b.buckets` of `buildVisiblePathSlice`: the slice of
buckets as the loop leaves it, and the grown `retSlice`. -/
def visibleSubBuckets :
    List BoltBucket → List String → List String → List BoltBucket × List String
  | [], _, retSlice => ([], retSlice)
  | b :: bs, pre, retSlice =>
    match b.buildVisiblePathSlice pre with
    | (b1, bktS, none) =>
      let r := visibleSubBuckets bs pre (retSlice ++ bktS)
      (b1 :: r.1, r.2)
    | (b1, _, some _) =>
      let r := visibleSubBuckets bs pre retSlice
      (b1.setErrorFlag :: r.1, r.2)
end

/-- `func (bd *BoltDB) buildVisiblePathSlice() ([]string, error)`, returning
also the receiver as the call leaves it.  Its loop over `bd.buckets` is the loop
of the bucket method, started with the empty prefix and a nil `retSlice`. -/
def BoltDB.buildVisiblePathSlice (bd : BoltDB) : BoltDB × List String × Option String :=
  let r := visibleSubBuckets bd.buckets [] []
  (⟨r.1⟩, r.2, none)

mutual
/-- Visible order as the specification words it: a bucket at `parentPath`
contributes its own joined path and then, only when expanded, the visible order
of each child bucket followed by the joined path of each child pair. -/
def visibleOrder (parentPath : List String) : BoltBucket → List String
  | ⟨name, pairs, buckets, _, expanded, _⟩ =>
    stringsJoin (parentPath ++ [name]) "/" ::
      (if expanded then
        visibleOrderAll (parentPath ++ [name]) buckets ++
          pairs.map (fun p => stringsJoin (parentPath ++ [name] ++ [p.key]) "/")
      else [])
/-- Visible order of a list of sibling buckets, in order. -/
def visibleOrderAll (parentPath : List String) : List BoltBucket → List String
  | [] => []
  | b :: bs => visibleOrder parentPath b ++ visibleOrderAll parentPath bs
end

/-- The mirror of the specification's scenario: root `A` (expanded) holding the
pair `k1` and the sub-bucket `B` (expanded), which holds the pair `k2`. -/
def scenarioMirror : BoltDB :=
  ⟨[⟨"A", [⟨.ref "A" .null, "k1", "1"⟩],
      [⟨"B", [⟨.ref "B" (.ref "A" .null), "k2", "2"⟩], [], .ref "A" .null, true, false⟩],
      .null, true, false⟩]⟩

/-! ## Visible-item count -/

/-- The loops `for i := range buckets { n, err := bd.getVisibleItemCount(buckets[i].GetPath()); ... vis += n }`
of `getVisibleItemCount`; `count` is the recursive call, `none` when it does not return. -/
def countLoop (count : List String → Option (Except String Nat)) :
    List BoltBucket → Nat → Option (Except String Nat)
  | [], vis => some (.ok vis)
  | b :: bs, vis =>
    match count b.GetPath with
    | none => none
    | some (.error e) => some (.error e)
    | some (.ok n) => countLoop count bs (vis + n)

/-- `func (bd *BoltDB) getVisibleItemCount(path []string) (int, error)`.  The
recursion goes through `GetPath` and path resolution, so it is bounded by fuel:
`none` stands for a call that has not returned within `fuel` nested calls.  The
count is a natural number: it never exceeds the number of nodes of the mirror,
far below the range of Go's `int`. -/
def BoltDB.getVisibleItemCount (bd memBolt : BoltDB) :
    Nat → List String → Option (Except String Nat)
  | 0, _ => none
  | fuel + 1, path =>
    if path.length = 0 then
      countLoop (bd.getVisibleItemCount memBolt fuel) bd.buckets 0
    else
      match bd.getBucketFromPath memBolt path with
      | .error e => some (.error e)
      | .ok b =>
        if b.target.expanded then
          countLoop (bd.getVisibleItemCount memBolt fuel) b.target.buckets
            (0 + 1 + b.target.pairs.length)
        else some (.ok (0 + 1))

/-! ## Data-model invariants -/

mutual
/-- Bucket names are unique among the child buckets of every bucket below `b`. -/
def BoltBucket.namesUnique : BoltBucket → Bool
  | ⟨_, _, buckets, _, _, _⟩ => namesUniqueAll buckets
/-- The buckets of the list have pairwise different names, and so on below them. -/
def namesUniqueAll : List BoltBucket → Bool
  | [] => true
  | b :: bs => bs.all (fun c => decide (c.name ≠ b.name)) && b.namesUnique && namesUniqueAll bs
end

mutual
/-- Every child bucket and child pair below `b` has the bucket that contains it
as its parent reference. -/
def BoltBucket.parentsOk : BoltBucket → Bool
  | ⟨name, pairs, buckets, parent, _, _⟩ =>
    pairs.all (fun p => decide (p.parent = .ref name parent)) &&
      parentsOkAll (.ref name parent) buckets
/-- Every bucket of the list has parent reference `r`, and `parentsOk` holds below. -/
def parentsOkAll (r : BucketRef) : List BoltBucket → Bool
  | [] => true
  | b :: bs => decide (b.parent = r) && b.parentsOk && parentsOkAll r bs
end

/-- The data-model invariant on parent references: roots have no parent, and
every other node refers to the bucket that contains it. -/
def BoltDB.parentsOk (bd : BoltDB) : Bool := parentsOkAll .null bd.buckets

/-- The data-model invariant on names, for buckets: sibling buckets have
different names, at the root and below. -/
def BoltDB.namesUnique (bd : BoltDB) : Bool := namesUniqueAll bd.buckets

mutual
/-- Number of bucket levels at and below `b`. -/
def BoltBucket.depth : BoltBucket → Nat
  | ⟨_, _, buckets, _, _, _⟩ => depthAll buckets + 1
/-- The largest depth among the buckets of the list. -/
def depthAll : List BoltBucket → Nat
  | [] => 0
  | b :: bs => max b.depth (depthAll bs)
end

/-- Number of bucket levels of the mirror. -/
def BoltDB.depth (bd : BoltDB) : Nat := depthAll bd.buckets

/-! ## Navigation -/

/-- The loop `for i := range visPaths { if visPaths[i] == findPath && i > 0 { return strings.Split(visPaths[i-1], "/") } }`
of `getPrevVisiblePath`, at index `i` with the elements from `i` on still to visit. -/
def prevLoop (visPaths : List String) (findPath : String) :
    List String → Nat → Option (List String)
  | [], _ => none
  | v :: rest, i =>
    if v = findPath ∧ i > 0 then (visPaths[i - 1]?).map (fun s => stringsSplit s '/')
    else prevLoop visPaths findPath rest (i + 1)

/-- The loop `for i := range visPaths { if visPaths[i] == findPath && i < len(visPaths)-1 { return strings.Split(visPaths[i+1], "/") } }`
of `getNextVisiblePath`. -/
def nextLoop (visPaths : List String) (findPath : String) :
    List String → Nat → Option (List String)
  | [], _ => none
  | v :: rest, i =>
    if v = findPath ∧ i < visPaths.length - 1 then
      (visPaths[i + 1]?).map (fun s => stringsSplit s '/')
    else nextLoop visPaths findPath rest (i + 1)

/-- `func (bd *BoltDB) getPrevVisiblePath(path []string) []string`; a nil slice is `none`. -/
def BoltDB.getPrevVisiblePath (bd : BoltDB) (path : Option (List String)) :
    Option (List String) :=
  let r := bd.buildVisiblePathSlice
  let visPaths := r.2.1
  let err := r.2.2
  match path with
  | none =>
    if visPaths.length > 0 then
      (visPaths[visPaths.length - 1]?).map (fun s => stringsSplit s '/')
    else none
  | some path =>
    if err = none then prevLoop visPaths (stringsJoin path "/") visPaths 0
    else none

/-- `func (bd *BoltDB) getNextVisiblePath(path []string) []string`; a nil slice is `none`. -/
def BoltDB.getNextVisiblePath (bd : BoltDB) (path : Option (List String)) :
    Option (List String) :=
  let r := bd.buildVisiblePathSlice
  let visPaths := r.2.1
  let err := r.2.2
  match path with
  | none =>
    if visPaths.length > 0 then (visPaths[0]?).map (fun s => stringsSplit s '/')
    else none
  | some path =>
    if err = none then nextLoop visPaths (stringsJoin path "/") visPaths 0
    else none

/-- The visible sequence of a mirror: the list `buildVisiblePathSlice` returns. -/
def BoltDB.visiblePaths (bd : BoltDB) : List String := bd.buildVisiblePathSlice.2.1

/-- A mirror with the root buckets `A` (expanded, with the collapsed child
bucket `B`), `A/B` and `Z` (both collapsed): its visible sequence holds the
entry `A/B` twice. -/
def repeatMirror : BoltDB :=
  ⟨[⟨"A", [], [⟨"B", [], [], .ref "A" .null, false, false⟩], .null, true, false⟩,
    ⟨"A/B", [], [], .null, false, false⟩, ⟨"Z", [], [], .null, false, false⟩]⟩

/-- A mirror with three collapsed root buckets, the middle one named `A/B`. -/
def slashMirror : BoltDB :=
  ⟨[⟨"P", [], [], .null, false, false⟩, ⟨"A/B", [], [], .null, false, false⟩,
    ⟨"Q", [], [], .null, false, false⟩]⟩

/-- A mirror in which the bucket `A` holds both a pair and a child bucket
named `x`. -/
def clashMirror : BoltDB :=
  ⟨[⟨"A", [⟨.ref "A" .null, "x", "1"⟩], [⟨"x", [], [], .ref "A" .null, false, false⟩],
      .null, false, false⟩]⟩

/-! ## Expand and collapse -/

/-- Apply `f` to the element at index `n`, if there is one. -/
def modifyNth {α : Type} (f : α → α) : Nat → List α → List α
  | _, [] => []
  | 0, a :: l => f a :: l
  | n + 1, a :: l => a :: modifyNth f n l

/-- The bucket with its `expanded` field set to `v`. -/
def BoltBucket.setExpanded (b : BoltBucket) (v : Bool) : BoltBucket :=
  { b with expanded := v }

/-- The bucket with its `buckets` slice replaced. -/
def BoltBucket.setBuckets (b : BoltBucket) (bs : List BoltBucket) : BoltBucket :=
  { b with buckets := bs }

/-- The assignment `b.expanded = v` through a pointer with address `addr`: the
root slice after the write. -/
def writeExpanded (v : Bool) : List Nat → List BoltBucket → List BoltBucket
  | [], bs => bs
  | [i], bs => modifyNth (fun b => b.setExpanded v) i bs
  | i :: j :: rest, bs =>
    modifyNth (fun b => b.setBuckets (writeExpanded v (j :: rest) b.buckets)) i bs

/-- The bucket stored at an address of the root slice `bs`. -/
def bucketAt : List Nat → List BoltBucket → Option BoltBucket
  | [], _ => none
  | [i], bs => bs[i]?
  | i :: j :: rest, bs =>
    match bs[i]? with
    | none => none
    | some b => bucketAt (j :: rest) b.buckets

/-- `func (bd *BoltDB) toggleOpenBucket(path []string) error`: the current
mirror as the call leaves it, and the error. -/
def BoltDB.toggleOpenBucket (bd memBolt : BoltDB) (path : List String) :
    BoltDB × Option String :=
  match bd.getBucketFromPath memBolt path with
  | .ok b => (⟨writeExpanded (!b.target.expanded) b.addr memBolt.buckets⟩, none)
  | .error e => (memBolt, some e)

/-- `func (bd *BoltDB) closeBucket(path []string) error`: the current mirror as
the call leaves it, and the error. -/
def BoltDB.closeBucket (bd memBolt : BoltDB) (path : List String) :
    BoltDB × Option String :=
  match bd.getBucketFromPath memBolt path with
  | .ok b => (⟨writeExpanded false b.addr memBolt.buckets⟩, none)
  | .error e => (memBolt, some e)

/-- `func (bd *BoltDB) openBucket(path []string) error`: the current mirror as
the call leaves it, and the error. -/
def BoltDB.openBucket (bd memBolt : BoltDB) (path : List String) :
    BoltDB × Option String :=
  match bd.getBucketFromPath memBolt path with
  | .ok b => (⟨writeExpanded true b.addr memBolt.buckets⟩, none)
  | .error e => (memBolt, some e)

/-- Everything a bucket holds itself apart from its `expanded` flag: name, pairs,
parent reference, error flag, and the number of its child buckets. -/
def BoltBucket.label (b : BoltBucket) : String × List BoltPair × BucketRef × Bool × Nat :=
  (b.name, b.pairs, b.parent, b.errorFlag, b.buckets.length)

/-- Mirror `m1` is mirror `m` except that the bucket at address `a` has
`expanded = v`: the same buckets stand at the same addresses with the same name,
pairs, parent reference, error flag and number of children, and every bucket
other than the one at `a` has its `expanded` flag as in `m`. -/
def expandedChangedOnlyAt (m m1 : BoltDB) (a : List Nat) (v : Bool) : Prop :=
  m1.buckets.length = m.buckets.length ∧
  ∀ q : List Nat,
    (bucketAt q m1.buckets).map BoltBucket.label = (bucketAt q m.buckets).map BoltBucket.label ∧
    (bucketAt q m1.buckets).map (fun b => b.expanded)
      = (bucketAt q m.buckets).map (fun b => if q = a then v else b.expanded)

/-- The two root slices hold buckets of the same names at the same addresses. -/
def SameNames (bs bs1 : List BoltBucket) : Prop :=
  ∀ q, (bucketAt q bs1).map BoltBucket.name = (bucketAt q bs).map BoltBucket.name

/-! ## Carrying the expanded state over a reload -/

mutual
/-- `func (b *BoltBucket) syncOpenBuckets(shadow *BoltBucket)`: the receiver as
the call leaves it. -/
def BoltBucket.syncOpenBuckets : BoltBucket → BoltBucket → BoltBucket
  | b, ⟨_, _, shadowBuckets, _, shadowExpanded, _⟩ =>
    (b.setExpanded shadowExpanded).setBuckets
      (b.buckets.map (fun c => syncWithEach c shadowBuckets))
/-- The inner loop `for j := range shadow.buckets { if b.buckets[i].name == shadow.buckets[j].name { b.buckets[i].syncOpenBuckets(&shadow.buckets[j]) } }`
for one bucket `c = b.buckets[i]`: `c` as the loop leaves it. -/
def syncWithEach : BoltBucket → List BoltBucket → BoltBucket
  | c, [] => c
  | c, s :: rest => syncWithEach (if c.name = s.name then c.syncOpenBuckets s else c) rest
end

/-- `func (bd *BoltDB) syncOpenBuckets(shadow *BoltDB)`: the receiver as the
call leaves it. -/
def BoltDB.syncOpenBuckets (bd shadow : BoltDB) : BoltDB :=
  ⟨bd.buckets.map (fun c => syncWithEach c shadow.buckets)⟩

mutual
/-- The bucket and every bucket below it is collapsed. -/
def BoltBucket.allCollapsed : BoltBucket → Bool
  | ⟨_, _, buckets, _, expanded, _⟩ => !expanded && allCollapsedAll buckets
/-- Every bucket of the list, and every bucket below them, is collapsed. -/
def allCollapsedAll : List BoltBucket → Bool
  | [] => true
  | b :: bs => b.allCollapsed && allCollapsedAll bs
end

/-- A freshly built mirror: every bucket is collapsed. -/
def BoltDB.allCollapsed (bd : BoltDB) : Bool := allCollapsedAll bd.buckets

/-- The names of the buckets passed on the way to an address of the root slice
`bs`, the bucket at the address included. -/
def namePathAt : List Nat → List BoltBucket → Option (List String)
  | [], _ => none
  | [i], bs => (bs[i]?).map (fun b => [b.name])
  | i :: j :: rest, bs =>
    match bs[i]? with
    | none => none
    | some b => (namePathAt (j :: rest) b.buckets).map (fun p => b.name :: p)

/-- The shadow of the resync scenario: `A` expanded, its child `B` collapsed. -/
def shadowMirror : BoltDB :=
  ⟨[⟨"A", [], [⟨"B", [], [], .ref "A" .null, false, false⟩], .null, true, false⟩]⟩

/-- The freshly reloaded mirror of the resync scenario: `A` and `B`, its child,
both collapsed, and a new root bucket `C`. -/
def freshMirror : BoltDB :=
  ⟨[⟨"A", [], [⟨"B", [], [], .ref "A" .null, false, false⟩], .null, false, false⟩,
    ⟨"C", [], [], .null, false, false⟩]⟩

/-- The `expanded` flag the shadow holds for a name path: that of the bucket
the path resolves to in the shadow, `false` when it resolves to none. -/
def shadowExpanded (shadow : BoltDB) (path : List String) : Bool :=
  match shadow.getBucketFromPath shadow path with
  | .ok sp => sp.target.expanded
  | .error _ => false

/-! ## The persistent store -/

/-- Modelled from the spec: an entry of a bucket of the persistent key-value
store (section 6; the store is the bolt library, which is not part of this
repository, and the operations below follow its documented behaviour): a key
with a value, or a key with a nested bucket.  A bucket's contents are its
entries in key order; the root of the store holds buckets only. -/
inductive Item where
  | pair (key : String) (value : String)
  | bucket (name : String) (items : List Item)

/-- The key of an entry. -/
def Item.key : Item → String
  | .pair k _ => k
  | .bucket n _ => n

/-- The state of the store `db`: the contents of its root bucket. -/
abbrev Store := List Item

/-- Byte order on keys, on the characters of the two strings. -/
def charsLt : List Char → List Char → Bool
  | _, [] => false
  | [], _ :: _ => true
  | a :: as, b :: bs => decide (a.toNat < b.toNat) || (decide (a = b) && charsLt as bs)

/-- Byte order on keys. -/
def keyLt (a b : String) : Bool := charsLt a.data b.data

/-- Modelled from the spec: placing a new entry in key order. -/
def insertItem (it : Item) : List Item → List Item
  | [] => [it]
  | x :: xs => if keyLt it.key x.key then it :: x :: xs else x :: insertItem it xs

/-- Modelled from the spec: the entry with key `k`, if the bucket has one. -/
def findItem (k : String) : List Item → Option Item
  | [] => none
  | x :: xs => if x.key = k then some x else findItem k xs

/-- Modelled from the spec: the contents without the entry with key `k`. -/
def removeItem (k : String) : List Item → List Item
  | [] => []
  | x :: xs => if x.key = k then xs else x :: removeItem k xs

/-- Modelled from the spec: the contents with the entry of key `k` replaced. -/
def replaceItem (k : String) (it : Item) : List Item → List Item
  | [] => []
  | x :: xs => if x.key = k then it :: xs else x :: replaceItem k it xs

/-- Modelled from the spec: `Bucket.Bucket(name)`, the nested bucket of that
name, nil when the key is missing or holds a value. -/
def subBucket (k : String) (items : List Item) : Option (List Item) :=
  match findItem k items with
  | some (.bucket _ sub) => some sub
  | _ => none

/-- Modelled from the spec: `Bucket.CreateBucket(name)`; it fails on a blank
name and on a key already in use. -/
def createBucket (k : String) (items : List Item) : Except String (List Item) :=
  if k = "" then .error "bucket name required"
  else
    match findItem k items with
    | some (.bucket _ _) => .error "bucket already exists"
    | some (.pair _ _) => .error "incompatible value"
    | none => .ok (insertItem (.bucket k []) items)

/-- Modelled from the spec: `Bucket.DeleteBucket(name)`. -/
def deleteBucket (k : String) (items : List Item) : Except String (List Item) :=
  match findItem k items with
  | some (.bucket _ _) => .ok (removeItem k items)
  | some (.pair _ _) => .error "incompatible value"
  | none => .error "bucket not found"

/-- Modelled from the spec: `Bucket.Delete(key)`; a missing key is no error, a
key that holds a bucket is one. -/
def deletePair (k : String) (items : List Item) : Except String (List Item) :=
  match findItem k items with
  | some (.bucket _ _) => .error "incompatible value"
  | _ => .ok (removeItem k items)

/-- Modelled from the spec: `Bucket.Put(key, value)`; it fails on a blank key,
on a key or value over the size limit, and on a key that holds a bucket. -/
def putPair (k v : String) (items : List Item) : Except String (List Item) :=
  if k = "" then .error "key required"
  else if k.utf8ByteSize > 32768 then .error "key too large"
  else if v.utf8ByteSize > 2147483646 then .error "value too large"
  else
    match findItem k items with
    | some (.bucket _ _) => .error "incompatible value"
    | some (.pair _ _) => .ok (replaceItem k (.pair k v) items)
    | none => .ok (insertItem (.pair k v) items)

/-- The bucket handle reached from the root by a list of bucket names: its
contents, `none` when some name on the way is no bucket. -/
def contentsAt : List Item → List String → Option (List Item)
  | items, [] => some items
  | items, n :: rest =>
    match subBucket n items with
    | none => none
    | some sub => contentsAt sub rest

/-- Apply `f` to the contents of the nested bucket `n`. -/
def modifySub (n : String) (f : List Item → Except String (List Item)) :
    List Item → Except String (List Item)
  | [] => .error "bucket not found"
  | .pair k v :: xs =>
    if k = n then .error "incompatible value"
    else
      match modifySub n f xs with
      | .error e => .error e
      | .ok ys => .ok (.pair k v :: ys)
  | .bucket m sub :: xs =>
    if m = n then
      match f sub with
      | .error e => .error e
      | .ok sub1 => .ok (.bucket m sub1 :: xs)
    else
      match modifySub n f xs with
      | .error e => .error e
      | .ok ys => .ok (.bucket m sub :: ys)

/-- A write through a bucket handle: apply `f` to the contents of the bucket
the names lead to, inside the root contents. -/
def modifyAt (f : List Item → Except String (List Item)) :
    List String → List Item → Except String (List Item)
  | [], items => f items
  | n :: rest, items => modifySub n (modifyAt f rest) items

/-- `db.Update(fn)`: the store after the transaction and the error it returns;
when `fn` returns an error the transaction is rolled back. -/
def dbUpdate (db : Store) (fn : List Item → Except String (List Item)) :
    Store × Option String :=
  match fn db with
  | .ok root => (root, none)
  | .error e => (db, some e)

/-- What a call leaves behind: it returned, with the store and the error value,
or it aborted (a Go panic), which rolls an open transaction back. -/
inductive Ret where
  | returned (db : Store) (err : Option String)
  | panicked (db : Store)

/-! ## Mutation operations -/

/-- The loop `for len(path) > 0 { tstBucket, path = path[0], path[1:]; nB := b.Bucket(tstBucket); ... }`
of `insertBucket`: `b` is the handle reached so far (the bucket names from the
root), the result the handle the loop ends on. -/
def insertBucketWalk (root : List Item) : List String → List String → Except String (List String)
  | b, [] => .ok b
  | b, tstBucket :: path =>
    match (contentsAt root b).bind (subBucket tstBucket) with
    | none =>
      if path.length ≠ 0 then .error "insertBucket: Invalid Path 1"
      else insertBucketWalk root b path
    | some _ => insertBucketWalk root (b ++ [tstBucket]) path

/-- `func insertBucket(path []string, n string) error`: the store after the
call and the error. -/
def insertBucket (db : Store) (path : List String) (n : String) : Store × Option String :=
  dbUpdate db fun root =>
    match path with
    | [] =>
      match createBucket n root with
      | .error e => .error ("insertBucket: " ++ e)
      | .ok root1 => .ok root1
    | rootBucket :: path =>
      match subBucket rootBucket root with
      | some _ =>
        match insertBucketWalk root [rootBucket] path with
        | .error e => .error e
        | .ok b => modifyAt (createBucket n) b root
      | none => .error ("insertBucket: Invalid Path " ++ rootBucket)

/-- The loop `for i := 1; i < len(path); i++ { b = b.Bucket(path[i]); if b == nil { return ... } }`
of `insertPair`, and the like loops of `deleteKey` and `renameBucket`: the
handle the loop ends on, `none` when a segment names no bucket. -/
def walkHandles (root : List Item) : List String → List String → Option (List String)
  | b, [] => some b
  | b, s :: rest =>
    match (contentsAt root b).bind (subBucket s) with
    | none => none
    | some _ => walkHandles root (b ++ [s]) rest

/-- `func insertPair(path []string, k string, v string) error`: the store after
the call and the error. -/
def insertPair (db : Store) (path : List String) (k v : String) : Store × Option String :=
  dbUpdate db fun root =>
    match path with
    | [] => .error "insertPair: Cannot insert pair at root"
    | p0 :: rest =>
      match subBucket p0 root with
      | some _ =>
        match walkHandles root [p0] rest with
        | none => .error "insertPair: %!s(<nil>)"
        | some b =>
          match modifyAt (putPair k v) b root with
          | .error e => .error ("insertPair: " ++ e)
          | .ok root1 => .ok root1
      | none => .ok root

/-- `func deleteKey(path []string) error`; the empty path aborts at `path[0]`. -/
def deleteKey (db : Store) (path : List String) : Ret :=
  match path with
  | [] => .panicked db
  | [p0] =>
    let r := dbUpdate db (deleteBucket p0)
    .returned r.1 r.2
  | p0 :: p1 :: rest =>
    let r := dbUpdate db fun root =>
      match subBucket p0 root with
      | some _ =>
        match walkHandles root [p0] (p1 :: rest).dropLast with
        | none => .error "deleteKey: Invalid Path"
        | some b =>
          let last := (p1 :: rest).getLast (by simp)
          match (contentsAt root b).bind (subBucket last) with
          | none => modifyAt (deletePair last) b root
          | some _ => modifyAt (deleteBucket last) b root
      | none => .error "deleteKey: Invalid Path"
    .returned r.1 r.2

mutual
/-- The callback `func(k, v []byte) error` that `readBucket` passes to
`b.ForEach`, on one entry: the pair or the bucket it appends to `bb`.  For a
nested bucket it holds the call `readBucket(b.Bucket(k))`, whose result gets
`parent = bb` and `name = k`.  `self` stands for the pointer `bb` as the
`parent` fields of the children hold it: the name and parent the caller gives
the bucket `readBucket` returns. -/
def readItem (self : BucketRef) : Item → BoltPair ⊕ BoltBucket
  | .pair k v => .inl ⟨self, k, v⟩
  | .bucket k sub =>
    let t := readItems (.ref k self) sub
    .inr ⟨k, t.1, t.2, self, false, false⟩
/-- The `b.ForEach` loop of `readBucket`: the pairs and the buckets appended to `bb`. -/
def readItems (self : BucketRef) : List Item → List BoltPair × List BoltBucket
  | [] => ([], [])
  | it :: rest =>
    let r := readItems self rest
    match readItem self it with
    | .inl tp => (tp :: r.1, r.2)
    | .inr tb => (r.1, tb :: r.2)
end

/-- `func readBucket(b *bolt.Bucket) (*BoltBucket, error)` on the contents of
`b`; the error is always nil. -/
def readBucket (self : BucketRef) (items : List Item) : BoltBucket :=
  let r := readItems self items
  ⟨"", r.1, r.2, .null, false, false⟩

/-- The `tx.ForEach` loop of `refreshDatabase`; a value at the root of the store
would make `readBucket` dereference a nil bucket (`none`). -/
def refreshBuckets : List Item → Option (List BoltBucket)
  | [] => some []
  | .pair _ _ :: _ => none
  | .bucket nm sub :: rest =>
    match refreshBuckets rest with
    | none => none
    | some bs =>
      let bb := readBucket (.ref nm .null) sub
      some ({ bb with name := nm, expanded := false } :: bs)

/-- `func (bd *BoltDB) refreshDatabase() *BoltDB`: the new value of `memBolt`. -/
def refreshDatabase (db : Store) : Option BoltDB :=
  (refreshBuckets db).map BoltDB.mk

/-- The loop `for i := range bb.pairs { if err = insertPair(bucketPath, ...); err != nil { return err } }`
of `addBucketFromBoltBucket`. -/
def insertPairs (db : Store) (bucketPath : List String) : List BoltPair → Store × Option String
  | [] => (db, none)
  | p :: ps =>
    match insertPair db bucketPath p.key p.val with
    | (db1, some e) => (db1, some e)
    | (db1, none) => insertPairs db1 bucketPath ps

mutual
/-- `func addBucketFromBoltBucket(path []string, bb *BoltBucket) error`: the
store after the call and the error.  An error of `insertBucket` is not
returned. -/
def addBucketFromBoltBucket (db : Store) (path : List String) :
    BoltBucket → Store × Option String
  | ⟨name, pairs, buckets, _, _, _⟩ =>
    match insertBucket db path name with
    | (db1, none) =>
      match insertPairs db1 (path ++ [name]) pairs with
      | (db2, some e) => (db2, some e)
      | (db2, none) => addSubBuckets db2 (path ++ [name]) buckets
    | (db1, some _) => (db1, none)
/-- The loop `for i := range bb.buckets { if err = addBucketFromBoltBucket(bucketPath, &bb.buckets[i]); err != nil { return err } }`. -/
def addSubBuckets (db : Store) (bucketPath : List String) :
    List BoltBucket → Store × Option String
  | [] => (db, none)
  | b :: bs =>
    match addBucketFromBoltBucket db bucketPath b with
    | (db1, some e) => (db1, some e)
    | (db1, none) => addSubBuckets db1 bucketPath bs
end

/-- `func renameBucket(path []string, name string) error`; the empty path
aborts at `path[len(path)-1]`.  `view` is the `db.View` transaction, which
leaves `bb` non-nil whenever it returns no error. -/
def renameBucket (db : Store) (path : List String) (name : String) : Ret :=
  match path with
  | [] => .panicked db
  | p0 :: rest =>
    if name = (p0 :: rest).getLast (by simp) then .returned db none
    else
      let view : Except String BoltBucket :=
        match subBucket p0 db with
        | some _ =>
          match walkHandles db [p0] rest with
          | none => .error "renameBucket: Invalid Path"
          | some b =>
            match contentsAt db b with
            | none => .error "renameBucket: Invalid Path"
            | some items => .ok (readBucket (.ref name .null) items)
        | none => .error "renameBucket: Invalid Bucket"
      match view with
      | .error e => .returned db (some e)
      | .ok bb =>
        match deleteKey db (p0 :: rest) with
        | .panicked db1 => .panicked db1
        | .returned db1 (some e) => .returned db1 (some e)
        | .returned db1 none =>
          let bb := { bb with name := name }
          let parentPath := (p0 :: rest).dropLast
          match addBucketFromBoltBucket db1 parentPath bb with
          | (db2, some e) => .returned db2 (some e)
          | (db2, none) => .returned db2 none

/-- The store of the rename scenario: bucket `A` with the pair `x` → `1` and
the sub-bucket `B`. -/
def scenarioStore : Store := [.bucket "A" [.bucket "B" [], .pair "x" "1"]]

/-- Modelled from the spec: `Bucket.Get(key)`, the value stored under the key,
nil when the key is missing or holds a bucket. -/
def getValue (k : String) (items : List Item) : Option String :=
  match findItem k items with
  | some (.pair _ v) => some v
  | _ => none

/-- `db.Update(fn)` for a function that may abort (`none`, a Go panic): the
transaction is rolled back and the panic goes on to the caller. -/
def dbUpdateAbort (db : Store) (fn : List Item → Option (Except String (List Item))) : Ret :=
  match fn db with
  | none => .panicked db
  | some (.ok root) => .returned root none
  | some (.error e) => .returned db (some e)

/-- `func updatePairKey(path []string, k string) error`.  The empty path aborts
at `path[0]`; a one-segment path that names a root bucket aborts at the slice
expression `path[1 : len(path)-1]`, whose bounds are then 1 and 0.  A nil value
read by `Get` is written back as the empty value. -/
def updatePairKey (db : Store) (path : List String) (k : String) : Ret :=
  dbUpdateAbort db fun root =>
    match path with
    | [] => none
    | p0 :: rest =>
      match subBucket p0 root with
      | some _ =>
        match rest with
        | [] => none
        | p1 :: rest1 =>
          match walkHandles root [p0] (p1 :: rest1).dropLast with
          | none => some (.error "updatePairValue: Invalid Path")
          | some b =>
            let bk := (p1 :: rest1).getLast (by simp)
            let v := ((contentsAt root b).bind (getValue bk)).getD ""
            match modifyAt (deletePair bk) b root with
            | .error e => some (.error e)
            | .ok root1 => some (modifyAt (putPair k v) b root1)
      | none => some (.error "updatePairValue: Invalid Path")

/-- `func updatePairValue(path []string, v string) error`; it aborts on the
same paths as `updatePairKey`. -/
def updatePairValue (db : Store) (path : List String) (v : String) : Ret :=
  dbUpdateAbort db fun root =>
    match path with
    | [] => none
    | p0 :: rest =>
      match subBucket p0 root with
      | some _ =>
        match rest with
        | [] => none
        | p1 :: rest1 =>
          match walkHandles root [p0] (p1 :: rest1).dropLast with
          | none => some (.error "updatePairValue: Invalid Path")
          | some b => some (modifyAt (putPair ((p1 :: rest1).getLast (by simp)) v) b root)
      | none => some (.error "updatePairValue: Invalid Path")

/-- What an entry holds: its value, `none` for a bucket. -/
def entryKind : Item → Option String
  | .pair _ v => some v
  | .bucket _ _ => none

/-- What the store holds at a path: `none` when the path names no entry,
`some none` for a bucket, `some (some v)` for a pair with value `v`. -/
def lookupAt : List Item → List String → Option (Option String)
  | _, [] => none
  | items, [k] => (findItem k items).map entryKind
  | items, k :: k2 :: rest =>
    match subBucket k items with
    | none => none
    | some sub => lookupAt sub (k2 :: rest)

mutual
/-- The keys of every bucket at or below the entry are pairwise different. -/
def Item.keysUnique : Item → Bool
  | .pair _ _ => true
  | .bucket _ sub => keysUniqueAll sub
/-- The keys of the entries are pairwise different, and so on below them: what
the store guarantees of the contents of a bucket. -/
def keysUniqueAll : List Item → Bool
  | [] => true
  | x :: xs => xs.all (fun y => decide (y.key ≠ x.key)) && x.keysUnique && keysUniqueAll xs
end

/-- A store with the bucket `A` of the rename scenario and a second root
bucket `S`. -/
def collisionStore : Store := [.bucket "A" [.bucket "B" [], .pair "x" "1"], .bucket "S" []]

/-- The root contents with the contents of the bucket at a handle replaced by
`new`; used to state what a write through a handle leaves behind. -/
def writeAt : List String → List Item → List Item → List Item
  | [], new, _ => new
  | n :: rest, new, root =>
    match subBucket n root with
    | none => root
    | some sub => replaceItem n (.bucket n (writeAt rest new sub)) root

/-- A key of 32769 bytes, one more than the store accepts. -/
def longKey : String := String.mk (List.replicate 32769 'a')

/-! ## Names of siblings -/

mutual
/-- At `b` and at every bucket below it, the names of the child buckets and the
keys of the child pairs are pairwise different, across buckets and pairs, and
neither they nor the name of `b` hold a `/`. -/
def BoltBucket.namesDistinct : BoltBucket → Bool
  | ⟨name, pairs, buckets, _, _, _⟩ =>
    decide ('/' ∉ name.data) && pairs.all (fun p => decide ('/' ∉ p.key.data)) &&
      decide ((buckets.map BoltBucket.name ++ pairs.map BoltPair.key).Nodup) &&
      namesDistinctAll buckets
/-- Every bucket of the list satisfies `namesDistinct`. -/
def namesDistinctAll : List BoltBucket → Bool
  | [] => true
  | b :: bs => b.namesDistinct && namesDistinctAll bs
end

/-- Sibling names of the mirror are unique across buckets and pairs and hold no
`/`: the root buckets have pairwise different names, and `namesDistinct` holds
for each of them. -/
def BoltDB.namesDistinct (bd : BoltDB) : Bool :=
  decide ((bd.buckets.map BoltBucket.name).Nodup) && namesDistinctAll bd.buckets

mutual
/-- The visible order as paths not yet joined: the segments of each entry of
`visibleOrder`. -/
def visibleSegs (parentPath : List String) : BoltBucket → List (List String)
  | ⟨name, pairs, buckets, _, expanded, _⟩ =>
    (parentPath ++ [name]) ::
      (if expanded then
        visibleSegsAll (parentPath ++ [name]) buckets ++
          pairs.map (fun p => parentPath ++ [name] ++ [p.key])
      else [])
/-- The segments of each entry of `visibleOrderAll`. -/
def visibleSegsAll (parentPath : List String) : List BoltBucket → List (List String)
  | [] => []
  | b :: bs => visibleSegs parentPath b ++ visibleSegsAll parentPath bs
end

/-- The path `X` is resolved by `getGenericFromPath` to a node whose `GetPath`
is `X`: to a bucket and no pair, or to a pair and no bucket, without error. -/
def ResolvesTo (m : BoltDB) (X : List String) : Prop :=
  (∃ b, m.getGenericFromPath m X = (some b, none, none) ∧ b.target.GetPath = X) ∨
  (∃ p, m.getGenericFromPath m X = (none, some p, none) ∧ p.target.GetPath = some X)

/-! # Theorems -/

/-! ## Lemmas on strings -/

theorem stringsJoin_snoc (pre : List String) (k sep : String) (h : pre ≠ []) :
    stringsJoin (pre ++ [k]) sep = stringsJoin pre sep ++ sep ++ k := by
  induction pre with
  | nil => exact absurd rfl h
  | cons a rest ih =>
    cases rest with
    | nil => simp [stringsJoin]
    | cons b rest2 =>
      have h2 := ih (by simp)
      simp only [List.cons_append] at h2 ⊢
      simp only [stringsJoin]
      rw [h2]
      simp [String.append_assoc]

theorem foldl_append_singleton {α : Type} (f : α → String) (ps : List α) (acc : List String) :
    ps.foldl (fun acc p => acc ++ [f p]) acc = acc ++ ps.map f := by
  induction ps generalizing acc with
  | nil => simp
  | cons p ps ih => simp [ih]

/-! ## Visible order: the code computes the specified walk -/

mutual
theorem bucket_buildVisiblePathSlice (b : BoltBucket) (pre : List String) :
    b.buildVisiblePathSlice pre = (b, visibleOrder pre b, none) := by
  match b with
  | ⟨name, pairs, buckets, parent, expanded, errorFlag⟩ =>
    cases expanded with
    | false => simp [BoltBucket.buildVisiblePathSlice, visibleOrder]
    | true =>
      simp only [BoltBucket.buildVisiblePathSlice, visibleOrder, if_true,
        visibleSubBuckets_eq buckets (pre ++ [name]), foldl_append_singleton]
      have hj : ∀ p : BoltPair, stringsJoin (pre ++ [name] ++ [p.key]) "/"
          = stringsJoin (pre ++ [name]) "/" ++ "/" ++ p.key :=
        fun p => stringsJoin_snoc _ _ _ (by simp)
      simp [← hj]
theorem visibleSubBuckets_eq (bs : List BoltBucket) (pre acc : List String) :
    visibleSubBuckets bs pre acc = (bs, acc ++ visibleOrderAll pre bs) := by
  match bs with
  | [] => simp [visibleSubBuckets, visibleOrderAll]
  | b :: rest =>
    simp [visibleSubBuckets, visibleOrderAll, bucket_buildVisiblePathSlice b pre,
      visibleSubBuckets_eq rest pre]
end

/-- C1: `buildVisiblePathSlice` returns exactly the collapse-respecting
pre-order walk (each root bucket in order: its joined path, then, only when it
is expanded, the visible order of each child bucket followed by the path of each
child pair), it reports no error and leaves the mirror as it was; a collapsed
bucket contributes exactly one entry; and the scenario mirror yields
`["A", "A/B", "A/B/k2", "A/k1"]`. -/
theorem buildVisiblePathSlice_preorder_walk :
    (∀ bd : BoltDB, bd.buildVisiblePathSlice = (bd, visibleOrderAll [] bd.buckets, none)) ∧
    (∀ (b : BoltBucket) (pre : List String),
      b.buildVisiblePathSlice pre = (b, visibleOrder pre b, none)) ∧
    (∀ (name : String) (pairs : List BoltPair) (buckets : List BoltBucket)
        (parent : BucketRef) (errorFlag : Bool) (pre : List String),
      ((BoltBucket.mk name pairs buckets parent false errorFlag).buildVisiblePathSlice pre).2.1
        = [stringsJoin (pre ++ [name]) "/"]) ∧
    scenarioMirror.buildVisiblePathSlice.2.1 = ["A", "A/B", "A/B/k2", "A/k1"] := by
  refine ⟨?_, bucket_buildVisiblePathSlice, ?_, by decide⟩
  · intro bd
    simp [BoltDB.buildVisiblePathSlice, visibleSubBuckets_eq]
  · intro name pairs buckets parent errorFlag pre
    simp [BoltBucket.buildVisiblePathSlice]

/-! ## Invariants of subtrees -/

theorem namesUniqueAll_mem {bs : List BoltBucket} (h : namesUniqueAll bs = true)
    {c : BoltBucket} (hc : c ∈ bs) : c.namesUnique = true := by
  induction bs with
  | nil => cases hc
  | cons b rest ih =>
    simp only [namesUniqueAll, Bool.and_eq_true] at h
    rcases List.mem_cons.1 hc with rfl | hc
    · exact h.1.2
    · exact ih h.2 hc

theorem namesUnique_buckets {b : BoltBucket} (h : b.namesUnique = true) :
    namesUniqueAll b.buckets = true := by
  cases b; simpa [BoltBucket.namesUnique] using h

theorem parentsOkAll_mem {r : BucketRef} {bs : List BoltBucket} (h : parentsOkAll r bs = true)
    {c : BoltBucket} (hc : c ∈ bs) : c.parent = r ∧ c.parentsOk = true := by
  induction bs with
  | nil => cases hc
  | cons b rest ih =>
    simp only [parentsOkAll, Bool.and_eq_true, decide_eq_true_eq] at h
    rcases List.mem_cons.1 hc with rfl | hc
    · exact ⟨h.1.1, h.1.2⟩
    · exact ih h.2 hc

theorem parentsOk_buckets {b : BoltBucket} (h : b.parentsOk = true) :
    parentsOkAll (.ref b.name b.parent) b.buckets = true := by
  cases b
  simp only [BoltBucket.parentsOk, Bool.and_eq_true] at h
  exact h.2

theorem depth_le_depthAll {bs : List BoltBucket} {c : BoltBucket} (hc : c ∈ bs) :
    c.depth ≤ depthAll bs := by
  induction bs with
  | nil => cases hc
  | cons b rest ih =>
    simp only [depthAll]
    rcases List.mem_cons.1 hc with rfl | hc
    · exact le_max_left _ _
    · exact le_trans (ih hc) (le_max_right _ _)

theorem depth_eq (b : BoltBucket) : b.depth = depthAll b.buckets + 1 := by
  cases b; simp [BoltBucket.depth]

/-! ## Resolution and `GetPath` -/

theorem BucketRef.GetPath_ref (n : String) (p : BucketRef) :
    (BucketRef.ref n p).GetPath = p.GetPath ++ [n] := by
  cases p <;> simp [BucketRef.GetPath]

theorem BoltBucket.GetPath_eq (b : BoltBucket) : b.GetPath = b.parent.GetPath ++ [b.name] := by
  unfold BoltBucket.GetPath
  cases h : b.parent <;> simp [BucketRef.GetPath]

theorem lookupBucket_of_mem {bs : List BoltBucket} (h : namesUniqueAll bs = true)
    {c : BoltBucket} (hc : c ∈ bs) : ∃ i, lookupBucket c.name bs = some (i, c) := by
  induction bs with
  | nil => cases hc
  | cons b rest ih =>
    simp only [namesUniqueAll, Bool.and_eq_true, List.all_eq_true, decide_eq_true_eq] at h
    rcases List.mem_cons.1 hc with rfl | hc
    · exact ⟨0, by simp [lookupBucket]⟩
    · obtain ⟨i, hi⟩ := ih h.2 hc
      refine ⟨i + 1, ?_⟩
      have hne : ¬ b.name = c.name := fun e => h.1.1 c hc e.symm
      simp [lookupBucket, hne, hi]

theorem lookupBucket_some {k : String} {bs : List BoltBucket} {i : Nat} {c : BoltBucket}
    (h : lookupBucket k bs = some (i, c)) : c ∈ bs ∧ c.name = k ∧ bs[i]? = some c := by
  induction bs generalizing i with
  | nil => simp [lookupBucket] at h
  | cons b rest ih =>
    simp only [lookupBucket] at h
    split at h
    · next hk =>
      simp only [Option.some.injEq, Prod.mk.injEq] at h
      obtain ⟨rfl, rfl⟩ := h
      simp [hk]
    · next hk =>
      cases hr : lookupBucket k rest with
      | none => simp [hr] at h
      | some r =>
        obtain ⟨j, d⟩ := r
        simp only [hr, Option.map_some', Option.some.injEq, Prod.mk.injEq] at h
        obtain ⟨rfl, rfl⟩ := h
        obtain ⟨h1, h2, h3⟩ := ih hr
        exact ⟨List.mem_cons_of_mem _ h1, h2, by simpa using h3⟩

theorem walkBuckets_append (b : BucketPtr) (p q : List String) :
    walkBuckets b (p ++ q) =
      match walkBuckets b p with
      | .error e => .error e
      | .ok c => walkBuckets c q := by
  induction p generalizing b with
  | nil => simp [walkBuckets]
  | cons s rest ih =>
    simp only [List.cons_append, walkBuckets]
    cases b.getBucket s with
    | error e => simp
    | ok c => simpa using ih c

theorem getBucketFromPath_snoc (bd m : BoltDB) (p : List String) (s : String) (hp : p ≠ []) :
    bd.getBucketFromPath m (p ++ [s]) =
      match bd.getBucketFromPath m p with
      | .error e => .error e
      | .ok b => b.getBucket s := by
  cases p with
  | nil => exact absurd rfl hp
  | cons p0 rest =>
    simp only [List.cons_append, BoltDB.getBucketFromPath]
    cases m.getBucket p0 with
    | error e => simp
    | ok b =>
      simp only [walkBuckets_append]
      cases walkBuckets b rest with
      | error e => simp
      | ok c =>
        simp only [walkBuckets]
        cases c.getBucket s <;> simp

/-- A child of a resolved bucket resolves under the extended path. -/
theorem resolve_child {bd m : BoltDB} {p : List String} {a : List Nat} {b c : BoltBucket}
    (hp : p ≠ []) (hr : bd.getBucketFromPath m p = .ok ⟨a, b⟩)
    (hu : namesUniqueAll b.buckets = true) (hc : c ∈ b.buckets) :
    ∃ i, bd.getBucketFromPath m (p ++ [c.name]) = .ok ⟨a ++ [i], c⟩ := by
  obtain ⟨i, hi⟩ := lookupBucket_of_mem hu hc
  refine ⟨i, ?_⟩
  rw [getBucketFromPath_snoc bd m p c.name hp, hr]
  simp [BucketPtr.getBucket, hi]

theorem resolve_root {bd m : BoltDB} {c : BoltBucket}
    (hu : namesUniqueAll m.buckets = true) (hc : c ∈ m.buckets) :
    ∃ i, bd.getBucketFromPath m [c.name] = .ok ⟨[i], c⟩ := by
  obtain ⟨i, hi⟩ := lookupBucket_of_mem hu hc
  exact ⟨i, by simp [BoltDB.getBucketFromPath, BoltDB.getBucket, hi, walkBuckets]⟩

/-! ## Visible-item count agrees with the visible sequence -/

theorem visibleOrder_length (pre : List String) (b : BoltBucket) :
    (visibleOrder pre b).length =
      if b.expanded then 1 + b.pairs.length + (visibleOrderAll (pre ++ [b.name]) b.buckets).length
      else 1 := by
  cases b with
  | mk name pairs buckets parent expanded errorFlag =>
    cases expanded <;> simp [visibleOrder]
    omega

mutual
theorem visibleOrder_length_pre (p q : List String) (b : BoltBucket) :
    (visibleOrder p b).length = (visibleOrder q b).length := by
  match b with
  | ⟨name, pairs, buckets, parent, expanded, errorFlag⟩ =>
    cases expanded
    · simp [visibleOrder]
    · simp [visibleOrder, visibleOrderAll_length_pre (p ++ [name]) (q ++ [name]) buckets]
theorem visibleOrderAll_length_pre (p q : List String) (bs : List BoltBucket) :
    (visibleOrderAll p bs).length = (visibleOrderAll q bs).length := by
  match bs with
  | [] => simp [visibleOrderAll]
  | b :: rest =>
    simp [visibleOrderAll, visibleOrder_length_pre p q b, visibleOrderAll_length_pre p q rest]
end

theorem countLoop_eq (count : List String → Option (Except String Nat)) (pre : List String)
    (bs : List BoltBucket) (vis : Nat)
    (h : ∀ c ∈ bs, count c.GetPath = some (.ok (visibleOrder pre c).length)) :
    countLoop count bs vis = some (.ok (vis + (visibleOrderAll pre bs).length)) := by
  induction bs generalizing vis with
  | nil => simp [countLoop, visibleOrderAll]
  | cons b rest ih =>
    simp only [countLoop, h b (List.mem_cons_self _ _), visibleOrderAll, List.length_append]
    rw [ih _ (fun c hc => h c (List.mem_cons_of_mem _ hc))]
    simp [Nat.add_assoc]

theorem getVisibleItemCount_bucket (m : BoltDB) (fuel : Nat) :
    ∀ (b : BoltBucket) (a : List Nat) (pre : List String),
      b.depth ≤ fuel → b.namesUnique = true → b.parentsOk = true →
      m.getBucketFromPath m b.GetPath = .ok ⟨a, b⟩ →
      m.getVisibleItemCount m fuel b.GetPath = some (.ok (visibleOrder pre b).length) := by
  induction fuel with
  | zero =>
    intro b a pre hd
    rw [depth_eq] at hd
    omega
  | succ fuel ih =>
    intro b a pre hd hu hp hr
    have hne : b.GetPath ≠ [] := by rw [BoltBucket.GetPath_eq]; simp
    have hlen : ¬ b.GetPath.length = 0 := by
      intro h; exact hne (List.length_eq_zero.1 h)
    simp only [BoltDB.getVisibleItemCount, hlen, if_false, hr]
    rw [visibleOrder_length]
    cases hexp : b.expanded with
    | false => simp
    | true =>
      simp only [if_true]
      rw [countLoop_eq _ (pre ++ [b.name])]
      intro c hc
      have hcp := parentsOkAll_mem (parentsOk_buckets hp) hc
      have hcu := namesUniqueAll_mem (namesUnique_buckets hu) hc
      have hpath : c.GetPath = b.GetPath ++ [c.name] := by
        rw [BoltBucket.GetPath_eq c, hcp.1, BucketRef.GetPath_ref, ← BoltBucket.GetPath_eq]
      obtain ⟨i, hi⟩ := resolve_child hne hr (namesUnique_buckets hu) hc
      rw [← hpath] at hi
      have hdc : c.depth ≤ fuel := by
        have := depth_le_depthAll hc
        rw [depth_eq] at hd
        omega
      exact ih c _ _ hdc hcu hcp.2 hi

/-- C2: on a mirror that satisfies the data-model invariants (sibling bucket
names unique, every child refers to its containing bucket, roots have no
parent), `getVisibleItemCount` with the empty path returns, given more fuel than
the mirror has bucket levels, without error, and the count equals the length of
the list `buildVisiblePathSlice` returns. -/
theorem getVisibleItemCount_eq_length (m : BoltDB) (fuel : Nat)
    (hu : m.namesUnique = true) (hp : m.parentsOk = true) (hf : m.depth < fuel) :
    m.getVisibleItemCount m fuel [] = some (.ok m.buildVisiblePathSlice.2.1.length) := by
  obtain ⟨n, rfl⟩ : ∃ n, fuel = n + 1 := ⟨fuel - 1, by omega⟩
  have hv : m.buildVisiblePathSlice.2.1 = visibleOrderAll [] m.buckets := by
    simp [BoltDB.buildVisiblePathSlice, visibleSubBuckets_eq]
  simp only [BoltDB.getVisibleItemCount, List.length_nil, if_true, hv]
  rw [countLoop_eq _ []]
  · simp
  · intro c hc
    have hcp := parentsOkAll_mem hp hc
    have hcu := namesUniqueAll_mem hu hc
    have hpath : c.GetPath = [c.name] := by
      rw [BoltBucket.GetPath_eq c, hcp.1]; simp [BucketRef.GetPath]
    obtain ⟨i, hi⟩ := @resolve_root m m c hu hc
    rw [← hpath] at hi
    have hdc : c.depth ≤ n := by
      have := depth_le_depthAll hc
      unfold BoltDB.depth at hf
      omega
    exact getVisibleItemCount_bucket m n c _ _ hdc hcu hcp.2 hi

/-- Witness for C2: the scenario mirror, with fuel 3. -/
theorem getVisibleItemCount_eq_length_witness :
    scenarioMirror.getVisibleItemCount scenarioMirror 3 []
      = some (.ok scenarioMirror.buildVisiblePathSlice.2.1.length) :=
  getVisibleItemCount_eq_length scenarioMirror 3 (by decide) (by decide) (by decide)

/-! ## Join and split -/

theorem splitChars_ne_nil (sep : Char) (cs : List Char) : splitChars sep cs ≠ [] := by
  cases cs with
  | nil => simp [splitChars]
  | cons c cs =>
    simp only [splitChars]
    split
    · simp
    · split <;> simp

theorem stringsJoin_cons_cons (a b : String) (rest : List String) (sep : String) :
    stringsJoin (a :: b :: rest) sep = a ++ sep ++ stringsJoin (b :: rest) sep := by
  simp [stringsJoin]

theorem stringsJoin_mk_cons (c : Char) (w : List Char) (rest : List String) (sep : String) :
    stringsJoin (String.mk (c :: w) :: rest) sep
      = String.mk [c] ++ stringsJoin (String.mk w :: rest) sep := by
  cases rest with
  | nil => simp only [stringsJoin]; apply String.ext; simp
  | cons b rest =>
    simp only [stringsJoin_cons_cons]
    apply String.ext; simp

theorem stringsJoin_splitChars (cs : List Char) :
    stringsJoin ((splitChars '/' cs).map String.mk) "/" = String.mk cs := by
  induction cs with
  | nil => simp [splitChars, stringsJoin]
  | cons c cs ih =>
    simp only [splitChars]
    split
    · next hc =>
      subst hc
      cases hs : splitChars '/' cs with
      | nil => exact absurd hs (splitChars_ne_nil _ _)
      | cons w ws =>
        rw [hs] at ih
        simp only [List.map_cons, stringsJoin_cons_cons] at ih ⊢
        rw [ih]
        apply String.ext; simp
    · cases hs : splitChars '/' cs with
      | nil => exact absurd hs (splitChars_ne_nil _ _)
      | cons w ws =>
        rw [hs] at ih
        simp only [List.map_cons] at ih ⊢
        rw [stringsJoin_mk_cons, ih]
        apply String.ext; simp

/-- Joining what `strings.Split` returned gives the string back. -/
theorem stringsJoin_stringsSplit (s : String) :
    stringsJoin (stringsSplit s '/') "/" = s := by
  simp [stringsSplit, stringsJoin_splitChars]

theorem splitChars_of_not_mem (sep : Char) (w : List Char) (h : sep ∉ w) :
    splitChars sep w = [w] := by
  induction w with
  | nil => simp [splitChars]
  | cons c w ih =>
    have hc : ¬ c = sep := fun e => h (by simp [e])
    have hw : sep ∉ w := fun e => h (List.mem_cons_of_mem _ e)
    simp [splitChars, hc, ih hw]

theorem splitChars_append_sep (sep : Char) (w cs : List Char) (h : sep ∉ w) :
    splitChars sep (w ++ sep :: cs) = w :: splitChars sep cs := by
  induction w with
  | nil => simp [splitChars]
  | cons c w ih =>
    have hc : ¬ c = sep := fun e => h (by simp [e])
    have hw : sep ∉ w := fun e => h (List.mem_cons_of_mem _ e)
    simp [splitChars, hc, ih hw]

/-- Splitting the join of segments that hold no `/` gives the segments back. -/
theorem stringsSplit_stringsJoin (X : List String) (hne : X ≠ [])
    (hs : ∀ s ∈ X, '/' ∉ s.data) : stringsSplit (stringsJoin X "/") '/' = X := by
  induction X with
  | nil => exact absurd rfl hne
  | cons a rest ih =>
    cases rest with
    | nil =>
      simp [stringsJoin, stringsSplit, splitChars_of_not_mem '/' a.data (hs a (by simp))]
    | cons b rest2 =>
      have h2 := ih (by simp) (fun s h => hs s (List.mem_cons_of_mem _ h))
      simp only [stringsSplit] at h2 ⊢
      have hd : (stringsJoin (a :: b :: rest2) "/").data
          = a.data ++ '/' :: (stringsJoin (b :: rest2) "/").data := by
        simp [stringsJoin_cons_cons]
      rw [hd, splitChars_append_sep '/' _ _ (hs a (by simp)), List.map_cons, h2]

/-! ## Navigation loops -/

theorem prevLoop_none (vis : List String) (fp : String) (rest : List String) (i : Nat)
    (h : ∀ v ∈ rest, v ≠ fp) : prevLoop vis fp rest i = none := by
  induction rest generalizing i with
  | nil => simp [prevLoop]
  | cons v rest ih =>
    have hv : ¬ v = fp := h v (by simp)
    simp only [prevLoop, hv, false_and, if_false]
    exact ih _ (fun w hw => h w (List.mem_cons_of_mem _ hw))

theorem nextLoop_none (vis : List String) (fp : String) (rest : List String) (i : Nat)
    (h : ∀ v ∈ rest, v ≠ fp) : nextLoop vis fp rest i = none := by
  induction rest generalizing i with
  | nil => simp [nextLoop]
  | cons v rest ih =>
    have hv : ¬ v = fp := h v (by simp)
    simp only [nextLoop, hv, false_and, if_false]
    exact ih _ (fun w hw => h w (List.mem_cons_of_mem _ hw))

/-- The loop of `getPrevVisiblePath` on a duplicate-free remainder that holds
`fp` at offset `j`. -/
theorem prevLoop_at (vis : List String) (fp : String) (rest : List String) (i j : Nat)
    (hnd : rest.Nodup) (hj : rest[j]? = some fp) :
    prevLoop vis fp rest i =
      if i + j > 0 then (vis[i + j - 1]?).map (fun s => stringsSplit s '/') else none := by
  induction rest generalizing i j with
  | nil => simp at hj
  | cons v rest ih =>
    have hnd2 := List.nodup_cons.1 hnd
    cases j with
    | zero =>
      simp only [List.getElem?_cons_zero, Option.some.injEq] at hj
      subst hj
      simp only [prevLoop, true_and, Nat.add_zero]
      split
      · rfl
      · exact prevLoop_none _ _ _ _ (fun w hw e => hnd2.1 (e ▸ hw))
    | succ j =>
      simp only [List.getElem?_cons_succ] at hj
      have hmem : fp ∈ rest := List.getElem?_mem hj
      have hv : ¬ v = fp := fun e => hnd2.1 (e ▸ hmem)
      simp only [prevLoop, hv, false_and, if_false]
      rw [ih (i + 1) j hnd2.2 hj]
      have e : i + 1 + j = i + (j + 1) := by omega
      rw [e]

/-- The loop of `getNextVisiblePath` on a duplicate-free remainder that holds
`fp` at offset `j`. -/
theorem nextLoop_at (vis : List String) (fp : String) (rest : List String) (i j : Nat)
    (hnd : rest.Nodup) (hj : rest[j]? = some fp) :
    nextLoop vis fp rest i =
      if i + j < vis.length - 1 then (vis[i + j + 1]?).map (fun s => stringsSplit s '/')
      else none := by
  induction rest generalizing i j with
  | nil => simp at hj
  | cons v rest ih =>
    have hnd2 := List.nodup_cons.1 hnd
    cases j with
    | zero =>
      simp only [List.getElem?_cons_zero, Option.some.injEq] at hj
      subst hj
      simp only [nextLoop, true_and, Nat.add_zero]
      split
      · rfl
      · exact nextLoop_none _ _ _ _ (fun w hw e => hnd2.1 (e ▸ hw))
    | succ j =>
      simp only [List.getElem?_cons_succ] at hj
      have hmem : fp ∈ rest := List.getElem?_mem hj
      have hv : ¬ v = fp := fun e => hnd2.1 (e ▸ hmem)
      simp only [nextLoop, hv, false_and, if_false]
      rw [ih (i + 1) j hnd2.2 hj]
      have e : i + 1 + j = i + (j + 1) := by omega
      rw [e]

theorem visiblePaths_err (bd : BoltDB) : bd.buildVisiblePathSlice.2.2 = none := by
  simp [BoltDB.buildVisiblePathSlice]

/-- On a duplicate-free visible sequence, `getPrevVisiblePath` of the path
joined at position `j` is the split of the entry before it, nil at position 0. -/
theorem getPrevVisiblePath_at (bd : BoltDB) (X : List String) (j : Nat)
    (hnd : bd.visiblePaths.Nodup) (hj : bd.visiblePaths[j]? = some (stringsJoin X "/")) :
    bd.getPrevVisiblePath (some X) =
      if j > 0 then (bd.visiblePaths[j - 1]?).map (fun s => stringsSplit s '/') else none := by
  have h := prevLoop_at bd.visiblePaths _ bd.visiblePaths 0 j hnd hj
  simp only [Nat.zero_add] at h
  simp only [BoltDB.getPrevVisiblePath, visiblePaths_err, if_true]
  exact h

/-- On a duplicate-free visible sequence, `getNextVisiblePath` of the path
joined at position `j` is the split of the entry after it, nil at the last position. -/
theorem getNextVisiblePath_at (bd : BoltDB) (X : List String) (j : Nat)
    (hnd : bd.visiblePaths.Nodup) (hj : bd.visiblePaths[j]? = some (stringsJoin X "/")) :
    bd.getNextVisiblePath (some X) =
      if j < bd.visiblePaths.length - 1 then
        (bd.visiblePaths[j + 1]?).map (fun s => stringsSplit s '/')
      else none := by
  have h := nextLoop_at bd.visiblePaths _ bd.visiblePaths 0 j hnd hj
  simp only [Nat.zero_add] at h
  simp only [BoltDB.getNextVisiblePath, visiblePaths_err, if_true]
  exact h

/-- C3, as stated, fails, in mirrors with unique sibling names and parent
references in order.  With the root buckets `A` (expanded, child `B`), `A/B` and
`Z` the visible sequence is `["A", "A/B", "A/B", "Z"]`; the path `["A", "B"]` of
the bucket `B` is strictly interior, `getNextVisiblePath` of it is `["A", "B"]`
again and `getPrevVisiblePath (getNextVisiblePath ["A", "B"])` is `["A"]`.  With
the collapsed root buckets `P`, `A/B`, `Q` the path `["A/B"]` is strictly
interior to `["P", "A/B", "Q"]`, and
`getNextVisiblePath (getPrevVisiblePath ["A/B"])` is `["A", "B"]`. -/
theorem next_prev_not_inverse_with_slash_names :
    (repeatMirror.namesUnique = true ∧ repeatMirror.parentsOk = true ∧
      repeatMirror.visiblePaths = ["A", "A/B", "A/B", "Z"] ∧
      repeatMirror.visiblePaths[1]? = some (stringsJoin ["A", "B"] "/") ∧
      repeatMirror.getNextVisiblePath (some ["A", "B"]) = some ["A", "B"] ∧
      repeatMirror.getPrevVisiblePath (repeatMirror.getNextVisiblePath (some ["A", "B"]))
        = some ["A"] ∧
      repeatMirror.getPrevVisiblePath (repeatMirror.getNextVisiblePath (some ["A", "B"]))
        ≠ some ["A", "B"]) ∧
    (slashMirror.namesUnique = true ∧ slashMirror.parentsOk = true ∧
      slashMirror.visiblePaths = ["P", "A/B", "Q"] ∧
      slashMirror.visiblePaths[1]? = some (stringsJoin ["A/B"] "/") ∧
      slashMirror.getPrevVisiblePath (some ["A/B"]) = some ["P"] ∧
      slashMirror.getNextVisiblePath (slashMirror.getPrevVisiblePath (some ["A/B"]))
        = some ["A", "B"] ∧
      slashMirror.getNextVisiblePath (slashMirror.getPrevVisiblePath (some ["A/B"]))
        ≠ some ["A/B"]) := by
  decide

/-- C3, amended: when the visible sequence has no repeated entry, then for every
non-empty path `X` whose segments hold no `/` and whose join stands at a strictly
interior position of the sequence, `getNextVisiblePath (getPrevVisiblePath X) = X`
and `getPrevVisiblePath (getNextVisiblePath X) = X`; for every path joined to the
first entry `getPrevVisiblePath` is nil, and for every path joined to the last
entry `getNextVisiblePath` is nil. -/
theorem nav_roundtrip (bd : BoltDB) (hnd : bd.visiblePaths.Nodup) :
    (∀ (X : List String) (j : Nat), X ≠ [] → (∀ s ∈ X, '/' ∉ s.data) →
      bd.visiblePaths[j]? = some (stringsJoin X "/") → 0 < j →
      j + 1 < bd.visiblePaths.length →
      bd.getNextVisiblePath (bd.getPrevVisiblePath (some X)) = some X ∧
      bd.getPrevVisiblePath (bd.getNextVisiblePath (some X)) = some X) ∧
    (∀ X : List String, bd.visiblePaths[0]? = some (stringsJoin X "/") →
      bd.getPrevVisiblePath (some X) = none) ∧
    (∀ X : List String,
      bd.visiblePaths[bd.visiblePaths.length - 1]? = some (stringsJoin X "/") →
      bd.getNextVisiblePath (some X) = none) := by
  refine ⟨?_, ?_, ?_⟩
  · intro X j hne hs hj hlo hhi
    have hsplit := stringsSplit_stringsJoin X hne hs
    have hjlt : j < bd.visiblePaths.length := by omega
    constructor
    · rw [getPrevVisiblePath_at bd X j hnd hj, if_pos hlo]
      have hprev : bd.visiblePaths[j - 1]? = some (bd.visiblePaths[j - 1]) :=
        List.getElem?_eq_getElem (by omega)
      rw [hprev, Option.map_some']
      have hjoin : bd.visiblePaths[j - 1]?
          = some (stringsJoin (stringsSplit (bd.visiblePaths[j - 1]) '/') "/") := by
        rw [stringsJoin_stringsSplit]; exact hprev
      rw [getNextVisiblePath_at bd _ (j - 1) hnd hjoin, if_pos (by omega)]
      have e : j - 1 + 1 = j := by omega
      rw [e, hj, Option.map_some', hsplit]
    · rw [getNextVisiblePath_at bd X j hnd hj, if_pos (by omega)]
      have hnext : bd.visiblePaths[j + 1]? = some (bd.visiblePaths[j + 1]) :=
        List.getElem?_eq_getElem (by omega)
      rw [hnext, Option.map_some']
      have hjoin : bd.visiblePaths[j + 1]?
          = some (stringsJoin (stringsSplit (bd.visiblePaths[j + 1]) '/') "/") := by
        rw [stringsJoin_stringsSplit]; exact hnext
      rw [getPrevVisiblePath_at bd _ (j + 1) hnd hjoin, if_pos (by omega)]
      have e : j + 1 - 1 = j := by omega
      rw [e, hj, Option.map_some', hsplit]
  · intro X h0
    rw [getPrevVisiblePath_at bd X 0 hnd h0]
    simp
  · intro X hl
    rw [getNextVisiblePath_at bd X _ hnd hl]
    simp

/-- Witness for C3 (amended): the scenario mirror, whose visible sequence is
`["A", "A/B", "A/B/k2", "A/k1"]`, at the interior path `["A", "B"]`, the first
path `["A"]` and the last path `["A", "k1"]`. -/
theorem nav_roundtrip_witness :
    scenarioMirror.visiblePaths.Nodup ∧
    (scenarioMirror.getNextVisiblePath (scenarioMirror.getPrevVisiblePath (some ["A", "B"]))
        = some ["A", "B"] ∧
      scenarioMirror.getPrevVisiblePath (scenarioMirror.getNextVisiblePath (some ["A", "B"]))
        = some ["A", "B"]) ∧
    scenarioMirror.getPrevVisiblePath (some ["A"]) = none ∧
    scenarioMirror.getNextVisiblePath (some ["A", "k1"]) = none :=
  ⟨by decide,
    (nav_roundtrip scenarioMirror (by decide)).1 ["A", "B"] 1 (by decide) (by decide)
      (by decide) (by decide) (by decide),
    (nav_roundtrip scenarioMirror (by decide)).2.1 ["A"] (by decide),
    (nav_roundtrip scenarioMirror (by decide)).2.2 ["A", "k1"] (by decide)⟩

/-! ## Round trip of path resolution and `GetPath` -/

theorem parentsOk_child {b c : BoltBucket} (hp : b.parentsOk = true) (hc : c ∈ b.buckets) :
    c.GetPath = b.GetPath ++ [c.name] ∧ c.parentsOk = true := by
  have hcp := parentsOkAll_mem (parentsOk_buckets hp) hc
  refine ⟨?_, hcp.2⟩
  rw [BoltBucket.GetPath_eq c, hcp.1, BucketRef.GetPath_ref, ← BoltBucket.GetPath_eq]

theorem getBucket_GetPath {b c : BucketPtr} {s : String} (hp : b.target.parentsOk = true)
    (h : b.getBucket s = .ok c) :
    c.target.GetPath = b.target.GetPath ++ [s] ∧ c.target.parentsOk = true := by
  unfold BucketPtr.getBucket at h
  cases hl : lookupBucket s b.target.buckets with
  | none => simp [hl] at h
  | some r =>
    obtain ⟨i, d⟩ := r
    simp only [hl, Except.ok.injEq] at h
    subst h
    obtain ⟨hmem, hname, _⟩ := lookupBucket_some hl
    have := parentsOk_child hp hmem
    rw [hname] at this
    exact this

theorem walkBuckets_GetPath {b r : BucketPtr} {rest : List String}
    (hp : b.target.parentsOk = true) (h : walkBuckets b rest = .ok r) :
    r.target.GetPath = b.target.GetPath ++ rest ∧ r.target.parentsOk = true := by
  induction rest generalizing b with
  | nil =>
    simp only [walkBuckets, Except.ok.injEq] at h
    subst h
    simp [hp]
  | cons s rest ih =>
    simp only [walkBuckets] at h
    cases hg : b.getBucket s with
    | error e => simp [hg] at h
    | ok c =>
      simp only [hg] at h
      obtain ⟨h1, h2⟩ := getBucket_GetPath hp hg
      obtain ⟨h3, h4⟩ := ih h2 h
      exact ⟨by rw [h3, h1]; simp, h4⟩

theorem resolved_bucket_GetPath {bd m : BoltDB} {path : List String} {b : BucketPtr}
    (hp : m.parentsOk = true) (hr : bd.getBucketFromPath m path = .ok b) :
    b.target.GetPath = path ∧ b.target.parentsOk = true := by
  cases path with
  | nil => simp [BoltDB.getBucketFromPath] at hr
  | cons p0 rest =>
    simp only [BoltDB.getBucketFromPath] at hr
    cases hg : m.getBucket p0 with
    | error e => simp [hg] at hr
    | ok c =>
      simp only [hg] at hr
      unfold BoltDB.getBucket at hg
      cases hl : lookupBucket p0 m.buckets with
      | none => simp [hl] at hg
      | some r =>
        obtain ⟨i, d⟩ := r
        simp only [hl, Except.ok.injEq] at hg
        subst hg
        obtain ⟨hmem, hname, _⟩ := lookupBucket_some hl
        have hd := parentsOkAll_mem hp hmem
        have hpath : d.GetPath = [p0] := by
          rw [BoltBucket.GetPath_eq d, hd.1, hname]; simp [BucketRef.GetPath]
        obtain ⟨h3, h4⟩ := walkBuckets_GetPath (b := ⟨[i], d⟩) hd.2 hr
        exact ⟨by rw [h3]; simp [hpath], h4⟩

/-- C4: in a mirror whose parent references are in order (roots have none,
every other node refers to its containing bucket, as `readBucket` sets them),
whenever `getBucketFromPath` resolves a path `P` to a bucket, `GetPath` of that
bucket is `P` exactly. -/
theorem getBucketFromPath_GetPath (bd memBolt : BoltDB) (path : List String) (b : BucketPtr)
    (hp : memBolt.parentsOk = true) (hr : bd.getBucketFromPath memBolt path = .ok b) :
    b.target.GetPath = path :=
  (resolved_bucket_GetPath hp hr).1

/-- Witness for C4: in the scenario mirror `["A", "B"]` resolves to the bucket
`B`, whose `GetPath` is `["A", "B"]`. -/
theorem getBucketFromPath_GetPath_witness :
    scenarioMirror.getBucketFromPath scenarioMirror ["A", "B"]
        = .ok ⟨[0, 0], ⟨"B", [⟨.ref "B" (.ref "A" .null), "k2", "2"⟩], [], .ref "A" .null,
            true, false⟩⟩ ∧
      (BoltBucket.mk "B" [⟨.ref "B" (.ref "A" .null), "k2", "2"⟩] [] (.ref "A" .null)
        true false).GetPath = ["A", "B"] :=
  ⟨rfl, getBucketFromPath_GetPath scenarioMirror scenarioMirror ["A", "B"] _ (by decide) rfl⟩

/-! ## Pair before bucket -/

theorem dropLast_snoc (pre : List String) (last : String) :
    (pre ++ [last]).dropLast = pre := by simp

theorem getLast?_snoc (pre : List String) (last : String) :
    (pre ++ [last]).getLast? = some last := by simp

theorem getPairFromPath_snoc (bd m : BoltDB) (pre : List String) (last : String) :
    bd.getPairFromPath m (pre ++ [last]) =
      match bd.getBucketFromPath m pre with
      | .error e => .error e
      | .ok b => b.getPair last := by
  simp only [BoltDB.getPairFromPath, getLast?_snoc, dropLast_snoc]

theorem getBucketFromPath_append (bd m : BoltDB) (p q : List String) (hp : p ≠ []) :
    bd.getBucketFromPath m (p ++ q) =
      match bd.getBucketFromPath m p with
      | .error e => .error e
      | .ok b => walkBuckets b q := by
  cases p with
  | nil => exact absurd rfl hp
  | cons p0 rest =>
    simp only [List.cons_append, BoltDB.getBucketFromPath]
    cases m.getBucket p0 with
    | error e => simp
    | ok b => simp only [walkBuckets_append]

theorem lookupBucket_none {k : String} {bs : List BoltBucket} (h : ∀ b ∈ bs, b.name ≠ k) :
    lookupBucket k bs = none := by
  induction bs with
  | nil => simp [lookupBucket]
  | cons b rest ih =>
    have hb : ¬ b.name = k := h b (by simp)
    simp [lookupBucket, hb, ih (fun c hc => h c (List.mem_cons_of_mem _ hc))]

theorem getGenericFromPath_of_pair {bd m : BoltDB} {path : List String} {p : PairPtr}
    (h : bd.getPairFromPath m path = .ok p) :
    bd.getGenericFromPath m path = (none, some p, none) := by
  simp [BoltDB.getGenericFromPath, h]

theorem getGenericFromPath_of_errors {bd m : BoltDB} {path : List String} {e1 e2 : String}
    (h1 : bd.getPairFromPath m path = .error e1) (h2 : bd.getBucketFromPath m path = .error e2) :
    bd.getGenericFromPath m path = (none, none, some "Invalid Path") := by
  simp [BoltDB.getGenericFromPath, h1, h2]

/-- C5: `getGenericFromPath` tries the pair before the bucket.  When the path
without its last segment resolves to a bucket that has a pair keyed by the last
segment, the result is that pair and no bucket; the result is a bucket exactly
when the pair lookup fails and the full path resolves through buckets, and then
it is that bucket and no pair.  In a bucket `A` that holds both a pair and a
child bucket named `x`, the path `["A", "x"]` yields the pair. -/
theorem getGenericFromPath_pair_before_bucket :
    (∀ (bd m : BoltDB) (pre : List String) (last : String) (b : BucketPtr) (p : PairPtr),
      bd.getBucketFromPath m pre = .ok b → b.getPair last = .ok p →
      bd.getGenericFromPath m (pre ++ [last]) = (none, some p, none)) ∧
    (∀ (bd m : BoltDB) (path : List String) (b : BucketPtr) (r : Option PairPtr × Option String),
      bd.getGenericFromPath m path = (some b, r) ↔
        ((∃ e, bd.getPairFromPath m path = .error e) ∧
          bd.getBucketFromPath m path = .ok b ∧ r = (none, none))) ∧
    (clashMirror.getBucketFromPath clashMirror ["A", "x"]
        = .ok ⟨[0, 0], ⟨"x", [], [], .ref "A" .null, false, false⟩⟩ ∧
      clashMirror.getGenericFromPath clashMirror ["A", "x"]
        = (none, some ⟨[0], 0, ⟨.ref "A" .null, "x", "1"⟩⟩, none)) := by
  refine ⟨?_, ?_, rfl, rfl⟩
  · intro bd m pre last b p hb hp
    apply getGenericFromPath_of_pair
    rw [getPairFromPath_snoc, hb]
    exact hp
  · intro bd m path b r
    unfold BoltDB.getGenericFromPath
    cases hpair : bd.getPairFromPath m path with
    | ok p => simp
    | error e =>
      cases hb : bd.getBucketFromPath m path with
      | error e2 => simp
      | ok c =>
        simp only [Prod.mk.injEq, Option.some.injEq, Except.ok.injEq, Except.error.injEq,
          exists_eq', true_and]
        constructor
        · rintro ⟨h1, h2⟩
          exact ⟨h1, h2.symm⟩
        · rintro ⟨h1, h2⟩
          exact ⟨h1, h2.symm⟩

/-- C6: `getGenericFromPath` and `getBucketFromPath` report not-found, with
neither a bucket nor a pair, for the empty path, for a path whose first segment
names no root bucket, and for a path with a non-final segment that names no
child bucket of the bucket resolved so far. -/
theorem getGenericFromPath_not_found :
    (∀ bd m : BoltDB,
      bd.getBucketFromPath m [] = .error "Invalid Path" ∧
      bd.getGenericFromPath m [] = (none, none, some "Invalid Path")) ∧
    (∀ (bd m : BoltDB) (p0 : String) (rest : List String),
      (∀ b ∈ m.buckets, b.name ≠ p0) →
      bd.getBucketFromPath m (p0 :: rest) = .error "Bucket Not Found" ∧
      bd.getGenericFromPath m (p0 :: rest) = (none, none, some "Invalid Path")) ∧
    (∀ (bd m : BoltDB) (pre : List String) (s : String) (post : List String) (b : BucketPtr),
      bd.getBucketFromPath m pre = .ok b → (∀ c ∈ b.target.buckets, c.name ≠ s) →
      post ≠ [] →
      bd.getBucketFromPath m (pre ++ s :: post) = .error "Bucket Not Found" ∧
      bd.getGenericFromPath m (pre ++ s :: post) = (none, none, some "Invalid Path")) := by
  refine ⟨?_, ?_, ?_⟩
  · intro bd m
    simp [BoltDB.getBucketFromPath, BoltDB.getGenericFromPath, BoltDB.getPairFromPath]
  · intro bd m p0 rest h
    have hroot : ∀ q : List String,
        bd.getBucketFromPath m (p0 :: q) = .error "Bucket Not Found" := by
      intro q
      simp [BoltDB.getBucketFromPath, BoltDB.getBucket, lookupBucket_none h]
    refine ⟨hroot rest, ?_⟩
    have hpair : ∃ e, bd.getPairFromPath m (p0 :: rest) = .error e := by
      rcases List.eq_nil_or_concat rest with rfl | ⟨q, l, rfl⟩
      · exact ⟨"Invalid Path", by simp [BoltDB.getPairFromPath, BoltDB.getBucketFromPath]⟩
      · refine ⟨"Bucket Not Found", ?_⟩
        simp only [List.concat_eq_append]
        have e : p0 :: (q ++ [l]) = (p0 :: q) ++ [l] := by simp
        rw [e, getPairFromPath_snoc, hroot q]
    obtain ⟨e, he⟩ := hpair
    exact getGenericFromPath_of_errors he (hroot rest)
  · intro bd m pre s post b hb hs hpost
    have hpre : pre ≠ [] := by
      rintro rfl
      simp [BoltDB.getBucketFromPath] at hb
    have hstep : ∀ q : List String,
        bd.getBucketFromPath m (pre ++ s :: q) = .error "Bucket Not Found" := by
      intro q
      rw [getBucketFromPath_append bd m pre (s :: q) hpre, hb]
      simp [walkBuckets, BucketPtr.getBucket, lookupBucket_none hs]
    refine ⟨hstep post, ?_⟩
    rcases List.eq_nil_or_concat post with rfl | ⟨q, l, rfl⟩
    · exact absurd rfl hpost
    · simp only [List.concat_eq_append]
      have e : pre ++ s :: (q ++ [l]) = (pre ++ s :: q) ++ [l] := by simp
      have hpair : bd.getPairFromPath m (pre ++ s :: (q ++ [l])) = .error "Bucket Not Found" := by
        rw [e, getPairFromPath_snoc, hstep q]
      exact getGenericFromPath_of_errors hpair (hstep _)

/-! ## Writes through a bucket pointer -/

theorem length_modifyNth {α : Type} (f : α → α) (n : Nat) (l : List α) :
    (modifyNth f n l).length = l.length := by
  induction l generalizing n with
  | nil => simp [modifyNth]
  | cons a l ih => cases n <;> simp [modifyNth, ih]

theorem getElem?_modifyNth {α : Type} (f : α → α) (n : Nat) (l : List α) (k : Nat) :
    (modifyNth f n l)[k]? = if k = n then (l[k]?).map f else l[k]? := by
  induction l generalizing n k with
  | nil => simp [modifyNth]
  | cons a l ih =>
    cases n with
    | zero => cases k <;> simp [modifyNth]
    | succ n => cases k <;> simp [modifyNth, ih]

theorem writeExpanded_length (v : Bool) (a : List Nat) (bs : List BoltBucket) :
    (writeExpanded v a bs).length = bs.length := by
  match a with
  | [] => simp [writeExpanded]
  | [i] => simp [writeExpanded, length_modifyNth]
  | i :: j :: rest => simp [writeExpanded, length_modifyNth]

theorem bucketAt_writeExpanded (v : Bool) (a : List Nat) (bs : List BoltBucket) (q : List Nat) :
    (bucketAt q (writeExpanded v a bs)).map BoltBucket.label
        = (bucketAt q bs).map BoltBucket.label ∧
      (bucketAt q (writeExpanded v a bs)).map (fun b => b.expanded)
        = (bucketAt q bs).map (fun b => if q = a then v else b.expanded) := by
  match a, q with
  | [], [] => simp [writeExpanded, bucketAt]
  | [], k :: qs => simp [writeExpanded]
  | [i], [] => simp [bucketAt]
  | [i], [k] =>
    simp only [writeExpanded, bucketAt, getElem?_modifyNth]
    by_cases h : k = i
    · subst h
      cases bs[k]? <;> simp [BoltBucket.label, BoltBucket.setExpanded]
    · simp [h]
  | [i], k :: k2 :: qs =>
    simp only [writeExpanded, bucketAt, getElem?_modifyNth]
    by_cases h : k = i
    · subst h
      cases bs[k]? <;> simp [BoltBucket.setExpanded]
    · simp [h]
  | i :: j :: rest, [] => simp [bucketAt]
  | i :: j :: rest, [k] =>
    simp only [writeExpanded, bucketAt, getElem?_modifyNth]
    by_cases h : k = i
    · subst h
      cases bs[k]? <;> simp [BoltBucket.label, BoltBucket.setBuckets, writeExpanded_length]
    · simp [h]
  | i :: j :: rest, k :: k2 :: qs =>
    simp only [writeExpanded, bucketAt, getElem?_modifyNth]
    by_cases h : k = i
    · subst h
      cases hb : bs[k]? with
      | none => simp
      | some b =>
        have ih := bucketAt_writeExpanded v (j :: rest) b.buckets (k2 :: qs)
        simp only [if_true, Option.map_some', BoltBucket.setBuckets]
        refine ⟨ih.1, ?_⟩
        rw [ih.2]
        simp
    · simp only [h, if_false]
      cases hb : bs[k]? with
      | none => simp
      | some b => simp [h]

theorem bucketAt_writeExpanded_self (v : Bool) (a : List Nat) (bs : List BoltBucket) :
    bucketAt a (writeExpanded v a bs) = (bucketAt a bs).map (fun b => b.setExpanded v) := by
  match a with
  | [] => simp [bucketAt]
  | [i] => simp [writeExpanded, bucketAt, getElem?_modifyNth]
  | i :: j :: rest =>
    simp only [writeExpanded, bucketAt, getElem?_modifyNth, if_true]
    cases hb : bs[i]? with
    | none => simp
    | some b =>
      simp only [Option.map_some', BoltBucket.setBuckets]
      exact bucketAt_writeExpanded_self v (j :: rest) b.buckets

theorem modifyNth_modifyNth {α : Type} (f g : α → α) (n : Nat) (l : List α) :
    modifyNth f n (modifyNth g n l) = modifyNth (fun x => f (g x)) n l := by
  induction l generalizing n with
  | nil => simp [modifyNth]
  | cons a l ih => cases n <;> simp [modifyNth, ih]

theorem modifyNth_congr {α : Type} (f g : α → α) (n : Nat) (l : List α)
    (h : ∀ x, l[n]? = some x → f x = g x) : modifyNth f n l = modifyNth g n l := by
  induction l generalizing n with
  | nil => simp [modifyNth]
  | cons a l ih =>
    cases n with
    | zero => simp [modifyNth, h a (by simp)]
    | succ n =>
      simp only [modifyNth, List.cons.injEq, true_and]
      exact ih n (fun x hx => h x (by simpa using hx))

theorem modifyNth_id {α : Type} (f : α → α) (n : Nat) (l : List α)
    (h : ∀ x, l[n]? = some x → f x = x) : modifyNth f n l = l := by
  induction l generalizing n with
  | nil => simp [modifyNth]
  | cons a l ih =>
    cases n with
    | zero => simp [modifyNth, h a (by simp)]
    | succ n =>
      simp only [modifyNth, List.cons.injEq, true_and]
      exact ih n (fun x hx => h x (by simpa using hx))

/-- Writing twice through the same pointer leaves the second value. -/
theorem writeExpanded_writeExpanded (v w : Bool) (a : List Nat) (bs : List BoltBucket) :
    writeExpanded v a (writeExpanded w a bs) = writeExpanded v a bs := by
  match a with
  | [] => simp [writeExpanded]
  | [i] =>
    simp only [writeExpanded, modifyNth_modifyNth]
    apply modifyNth_congr
    intro x _
    simp [BoltBucket.setExpanded]
  | i :: j :: rest =>
    simp only [writeExpanded, modifyNth_modifyNth]
    apply modifyNth_congr
    intro x _
    simp only [BoltBucket.setBuckets]
    rw [writeExpanded_writeExpanded v w (j :: rest) x.buckets]

/-- Writing the value a bucket already has changes nothing. -/
theorem writeExpanded_same (a : List Nat) (bs : List BoltBucket) (b : BoltBucket)
    (h : bucketAt a bs = some b) : writeExpanded b.expanded a bs = bs := by
  match a with
  | [] => simp [writeExpanded]
  | [i] =>
    simp only [bucketAt] at h
    simp only [writeExpanded]
    apply modifyNth_id
    intro x hx
    rw [h] at hx
    cases hx
    cases b
    rfl
  | i :: j :: rest =>
    simp only [bucketAt] at h
    simp only [writeExpanded]
    apply modifyNth_id
    intro x hx
    rw [hx] at h
    simp only [BoltBucket.setBuckets]
    rw [writeExpanded_same (j :: rest) x.buckets b h]
    cases x
    rfl

/-! ## Pointers returned by path resolution -/

theorem bucketAt_snoc (a : List Nat) (i : Nat) (bs : List BoltBucket) (ha : a ≠ []) :
    bucketAt (a ++ [i]) bs =
      match bucketAt a bs with
      | none => none
      | some b => b.buckets[i]? := by
  match a with
  | [] => exact absurd rfl ha
  | [k] =>
    simp only [List.singleton_append, bucketAt]
  | k :: k2 :: rest =>
    simp only [List.cons_append, bucketAt]
    cases bs[k]? with
    | none => rfl
    | some b =>
      have := bucketAt_snoc (k2 :: rest) i b.buckets (by simp)
      simpa using this

theorem getBucket_valid {bs : List BoltBucket} {b c : BucketPtr} {s : String}
    (hv : bucketAt b.addr bs = some b.target) (hne : b.addr ≠ [])
    (h : b.getBucket s = .ok c) :
    bucketAt c.addr bs = some c.target ∧ c.addr ≠ [] := by
  unfold BucketPtr.getBucket at h
  cases hl : lookupBucket s b.target.buckets with
  | none => simp [hl] at h
  | some r =>
    obtain ⟨i, d⟩ := r
    simp only [hl, Except.ok.injEq] at h
    subst h
    obtain ⟨_, _, hi⟩ := lookupBucket_some hl
    simp only [bucketAt_snoc _ _ _ hne, hv]
    exact ⟨hi, by simp⟩

theorem walkBuckets_valid {bs : List BoltBucket} {b r : BucketPtr} {rest : List String}
    (hv : bucketAt b.addr bs = some b.target) (hne : b.addr ≠ [])
    (h : walkBuckets b rest = .ok r) :
    bucketAt r.addr bs = some r.target ∧ r.addr ≠ [] := by
  induction rest generalizing b with
  | nil =>
    simp only [walkBuckets, Except.ok.injEq] at h
    subst h
    exact ⟨hv, hne⟩
  | cons s rest ih =>
    simp only [walkBuckets] at h
    cases hg : b.getBucket s with
    | error e => simp [hg] at h
    | ok c =>
      simp only [hg] at h
      obtain ⟨h1, h2⟩ := getBucket_valid hv hne hg
      exact ih h1 h2 h

/-- The pointer `getBucketFromPath` returns points at a bucket of `memBolt`, and
what is read through it is that bucket. -/
theorem getBucketFromPath_valid {bd m : BoltDB} {path : List String} {p : BucketPtr}
    (h : bd.getBucketFromPath m path = .ok p) :
    bucketAt p.addr m.buckets = some p.target ∧ p.addr ≠ [] := by
  cases path with
  | nil => simp [BoltDB.getBucketFromPath] at h
  | cons p0 rest =>
    simp only [BoltDB.getBucketFromPath] at h
    cases hg : m.getBucket p0 with
    | error e => simp [hg] at h
    | ok c =>
      simp only [hg] at h
      unfold BoltDB.getBucket at hg
      cases hl : lookupBucket p0 m.buckets with
      | none => simp [hl] at hg
      | some r =>
        obtain ⟨i, d⟩ := r
        simp only [hl, Except.ok.injEq] at hg
        subst hg
        obtain ⟨_, _, hi⟩ := lookupBucket_some hl
        exact walkBuckets_valid (b := ⟨[i], d⟩) (by simpa [bucketAt] using hi) (by simp) h

/-- The index `lookupBucket` finds depends only on the names in the slice. -/
theorem lookupBucket_names (s : String) (bs bs1 : List BoltBucket)
    (h : ∀ k : Nat, (bs1[k]?).map BoltBucket.name = (bs[k]?).map BoltBucket.name) :
    (lookupBucket s bs1).map (fun r => r.1) = (lookupBucket s bs).map (fun r => r.1) := by
  induction bs generalizing bs1 with
  | nil =>
    cases bs1 with
    | nil => rfl
    | cons c cs => have := h 0; simp at this
  | cons b rest ih =>
    cases bs1 with
    | nil => have := h 0; simp at this
    | cons c cs =>
      have h0 : c.name = b.name := by simpa using h 0
      have ht := ih cs (fun k => by simpa using h (k + 1))
      simp only [lookupBucket, h0]
      split
      · rfl
      · cases h1 : lookupBucket s cs <;> cases h2 : lookupBucket s rest <;>
          simp [h1, h2] at ht ⊢
        exact ht

theorem lookupBucket_index {s : String} {bs bs1 : List BoltBucket} {i : Nat} {c : BoltBucket}
    (h : ∀ k : Nat, (bs1[k]?).map BoltBucket.name = (bs[k]?).map BoltBucket.name)
    (hl : lookupBucket s bs = some (i, c)) : ∃ c1, lookupBucket s bs1 = some (i, c1) := by
  have := lookupBucket_names s bs bs1 h
  rw [hl] at this
  cases h1 : lookupBucket s bs1 with
  | none => simp [h1] at this
  | some r =>
    obtain ⟨j, d⟩ := r
    simp only [h1, Option.map_some', Option.some.injEq] at this
    exact ⟨d, by rw [this]⟩

theorem getBucket_sameNames {bs bs1 : List BoltBucket} (hs : SameNames bs bs1)
    {b c : BucketPtr} {t1 : BoltBucket} {s : String}
    (hv : bucketAt b.addr bs = some b.target) (hv1 : bucketAt b.addr bs1 = some t1)
    (hne : b.addr ≠ []) (h : b.getBucket s = .ok c) :
    ∃ c1, (BucketPtr.mk b.addr t1).getBucket s = .ok ⟨c.addr, c1⟩ := by
  unfold BucketPtr.getBucket at h
  cases hl : lookupBucket s b.target.buckets with
  | none => simp [hl] at h
  | some r =>
    obtain ⟨i, d⟩ := r
    simp only [hl, Except.ok.injEq] at h
    subst h
    have hnames : ∀ k : Nat, (t1.buckets[k]?).map BoltBucket.name
        = (b.target.buckets[k]?).map BoltBucket.name := by
      intro k
      have := hs (b.addr ++ [k])
      simpa only [bucketAt_snoc _ _ _ hne, hv, hv1] using this
    obtain ⟨c1, hc1⟩ := lookupBucket_index hnames hl
    exact ⟨c1, by simp [BucketPtr.getBucket, hc1]⟩

theorem walkBuckets_sameNames {bs bs1 : List BoltBucket} (hs : SameNames bs bs1)
    {b r : BucketPtr} {t1 : BoltBucket} {rest : List String}
    (hv : bucketAt b.addr bs = some b.target) (hv1 : bucketAt b.addr bs1 = some t1)
    (hne : b.addr ≠ []) (h : walkBuckets b rest = .ok r) :
    ∃ r1, walkBuckets ⟨b.addr, t1⟩ rest = .ok ⟨r.addr, r1⟩ := by
  induction rest generalizing b t1 with
  | nil =>
    simp only [walkBuckets, Except.ok.injEq] at h
    subst h
    exact ⟨t1, rfl⟩
  | cons s rest ih =>
    simp only [walkBuckets] at h
    cases hg : b.getBucket s with
    | error e => simp [hg] at h
    | ok c =>
      simp only [hg] at h
      obtain ⟨c1, hc1⟩ := getBucket_sameNames hs hv hv1 hne hg
      obtain ⟨h1, h2⟩ := getBucket_valid hv hne hg
      obtain ⟨h3, _⟩ := @getBucket_valid bs1 ⟨b.addr, t1⟩ _ _ hv1 hne hc1
      obtain ⟨r1, hr1⟩ := @ih c c1 h1 h3 h2 h
      exact ⟨r1, by simp only [walkBuckets, hc1]; exact hr1⟩

/-- Resolution follows names only: in a mirror with the same names at the same
addresses a path resolves to the same address. -/
theorem getBucketFromPath_sameNames {bd bd1 m m1 : BoltDB} (hs : SameNames m.buckets m1.buckets)
    {path : List String} {p : BucketPtr} (h : bd.getBucketFromPath m path = .ok p) :
    ∃ t1, bd1.getBucketFromPath m1 path = .ok ⟨p.addr, t1⟩ := by
  cases path with
  | nil => simp [BoltDB.getBucketFromPath] at h
  | cons p0 rest =>
    simp only [BoltDB.getBucketFromPath] at h
    cases hg : m.getBucket p0 with
    | error e => simp [hg] at h
    | ok c =>
      simp only [hg] at h
      unfold BoltDB.getBucket at hg
      cases hl : lookupBucket p0 m.buckets with
      | none => simp [hl] at hg
      | some r =>
        obtain ⟨i, d⟩ := r
        simp only [hl, Except.ok.injEq] at hg
        subst hg
        have hnames : ∀ k : Nat, (m1.buckets[k]?).map BoltBucket.name
            = (m.buckets[k]?).map BoltBucket.name := by
          intro k
          simpa only [bucketAt] using hs [k]
        obtain ⟨c1, hc1⟩ := lookupBucket_index hnames hl
        obtain ⟨_, _, hi⟩ := lookupBucket_some hl
        obtain ⟨_, _, hi1⟩ := lookupBucket_some hc1
        obtain ⟨r1, hr1⟩ := @walkBuckets_sameNames _ _ hs ⟨[i], d⟩ _ c1 _
          (by simpa [bucketAt] using hi) (by simpa [bucketAt] using hi1) (by simp) h
        exact ⟨r1, by simp only [BoltDB.getBucketFromPath, BoltDB.getBucket, hc1]; exact hr1⟩

theorem sameNames_writeExpanded (v : Bool) (a : List Nat) (bs : List BoltBucket) :
    SameNames bs (writeExpanded v a bs) := by
  intro q
  have := congrArg (Option.map (fun l : String × List BoltPair × BucketRef × Bool × Nat => l.1))
    (bucketAt_writeExpanded v a bs q).1
  simpa only [Option.map_map, Function.comp_def, BoltBucket.label] using this

theorem expandedChangedOnlyAt_writeExpanded (m : BoltDB) (a : List Nat) (v : Bool) :
    expandedChangedOnlyAt m ⟨writeExpanded v a m.buckets⟩ a v :=
  ⟨writeExpanded_length v a m.buckets, fun q => bucketAt_writeExpanded v a m.buckets q⟩

/-- C7: when the path resolves to a bucket (the pointer returned points at a
bucket of the mirror), `openBucket`, `closeBucket` and `toggleOpenBucket` return
no error and leave the mirror as it was except that this one bucket has
`expanded` true, false, negated: at every address the same bucket stands with
the same name, pairs, parent reference, error flag and number of children, and
every other bucket keeps its `expanded` flag.  When the path does not resolve to
a bucket the three calls return the error and the mirror unchanged; this is so
for the empty path and for the path of the pair `k1` of the scenario mirror. -/
theorem expand_collapse_frame :
    (∀ (bd m : BoltDB) (path : List String) (p : BucketPtr),
      bd.getBucketFromPath m path = .ok p →
      bucketAt p.addr m.buckets = some p.target ∧
      (bd.openBucket m path).2 = none ∧
      expandedChangedOnlyAt m (bd.openBucket m path).1 p.addr true ∧
      (bd.closeBucket m path).2 = none ∧
      expandedChangedOnlyAt m (bd.closeBucket m path).1 p.addr false ∧
      (bd.toggleOpenBucket m path).2 = none ∧
      expandedChangedOnlyAt m (bd.toggleOpenBucket m path).1 p.addr (!p.target.expanded)) ∧
    (∀ (bd m : BoltDB) (path : List String) (e : String),
      bd.getBucketFromPath m path = .error e →
      bd.openBucket m path = (m, some e) ∧ bd.closeBucket m path = (m, some e) ∧
      bd.toggleOpenBucket m path = (m, some e)) ∧
    (scenarioMirror.openBucket scenarioMirror ["A", "k1"]
        = (scenarioMirror, some "Bucket Not Found") ∧
      scenarioMirror.openBucket scenarioMirror [] = (scenarioMirror, some "Invalid Path")) := by
  refine ⟨?_, ?_, rfl, rfl⟩
  · intro bd m path p h
    refine ⟨(getBucketFromPath_valid h).1, ?_, ?_, ?_, ?_, ?_, ?_⟩
    · simp [BoltDB.openBucket, h]
    · simpa [BoltDB.openBucket, h] using expandedChangedOnlyAt_writeExpanded m p.addr true
    · simp [BoltDB.closeBucket, h]
    · simpa [BoltDB.closeBucket, h] using expandedChangedOnlyAt_writeExpanded m p.addr false
    · simp [BoltDB.toggleOpenBucket, h]
    · simpa [BoltDB.toggleOpenBucket, h] using
        expandedChangedOnlyAt_writeExpanded m p.addr (!p.target.expanded)
  · intro bd m path e h
    simp [BoltDB.openBucket, BoltDB.closeBucket, BoltDB.toggleOpenBucket, h]

/-- C8: when the path resolves to a bucket `B`, `toggleOpenBucket` negates
`B.expanded`, and a second `toggleOpenBucket` on the same path returns no error
and leaves the mirror equal to the original one, `B.expanded` included. -/
theorem toggle_toggle (bd bd1 m : BoltDB) (path : List String) (p : BucketPtr)
    (h : bd.getBucketFromPath m path = .ok p) :
    (bd.toggleOpenBucket m path).2 = none ∧
    bucketAt p.addr (bd.toggleOpenBucket m path).1.buckets
      = some (p.target.setExpanded (!p.target.expanded)) ∧
    bd1.toggleOpenBucket (bd.toggleOpenBucket m path).1 path = (m, none) := by
  have hv := (getBucketFromPath_valid h).1
  have h1 : bd.toggleOpenBucket m path
      = (⟨writeExpanded (!p.target.expanded) p.addr m.buckets⟩, none) := by
    simp [BoltDB.toggleOpenBucket, h]
  have hat : bucketAt p.addr (writeExpanded (!p.target.expanded) p.addr m.buckets)
      = some (p.target.setExpanded (!p.target.expanded)) := by
    rw [bucketAt_writeExpanded_self, hv]; rfl
  rw [h1]
  refine ⟨rfl, hat, ?_⟩
  obtain ⟨t1, ht1⟩ := @getBucketFromPath_sameNames bd bd1 m
    ⟨writeExpanded (!p.target.expanded) p.addr m.buckets⟩
    (sameNames_writeExpanded (!p.target.expanded) p.addr m.buckets) path p h
  have hv1 := (getBucketFromPath_valid ht1).1
  simp only [hat, Option.some.injEq] at hv1
  subst hv1
  simp only [BoltDB.toggleOpenBucket, ht1, BoltBucket.setExpanded, Bool.not_not,
    writeExpanded_writeExpanded]
  rw [writeExpanded_same p.addr m.buckets p.target hv]

/-- Witness for C8: toggling the bucket `["A", "B"]` of the scenario mirror twice. -/
theorem toggle_toggle_witness :
    (scenarioMirror.toggleOpenBucket scenarioMirror ["A", "B"]).2 = none ∧
    bucketAt [0, 0] (scenarioMirror.toggleOpenBucket scenarioMirror ["A", "B"]).1.buckets
      = some ((BoltBucket.mk "B" [⟨.ref "B" (.ref "A" .null), "k2", "2"⟩] [] (.ref "A" .null)
          true false).setExpanded (!true)) ∧
    scenarioMirror.toggleOpenBucket
      (scenarioMirror.toggleOpenBucket scenarioMirror ["A", "B"]).1 ["A", "B"]
      = (scenarioMirror, none) :=
  toggle_toggle scenarioMirror scenarioMirror scenarioMirror ["A", "B"]
    ⟨[0, 0], ⟨"B", [⟨.ref "B" (.ref "A" .null), "k2", "2"⟩], [], .ref "A" .null, true, false⟩⟩
    rfl

/-! ## Resync of the expanded state -/

theorem syncOpenBuckets_name (c s : BoltBucket) : (c.syncOpenBuckets s).name = c.name := by
  cases s; simp [BoltBucket.syncOpenBuckets, BoltBucket.setExpanded, BoltBucket.setBuckets]

theorem syncOpenBuckets_label (c s : BoltBucket) : (c.syncOpenBuckets s).label = c.label := by
  cases s
  simp [BoltBucket.syncOpenBuckets, BoltBucket.setExpanded, BoltBucket.setBuckets,
    BoltBucket.label]

theorem syncOpenBuckets_expanded (c s : BoltBucket) :
    (c.syncOpenBuckets s).expanded = s.expanded := by
  cases s; simp [BoltBucket.syncOpenBuckets, BoltBucket.setExpanded, BoltBucket.setBuckets]

theorem syncOpenBuckets_buckets (c s : BoltBucket) :
    (c.syncOpenBuckets s).buckets = c.buckets.map (fun d => syncWithEach d s.buckets) := by
  cases s; simp [BoltBucket.syncOpenBuckets, BoltBucket.setExpanded, BoltBucket.setBuckets]

theorem syncWithEach_noMatch (c : BoltBucket) (ss : List BoltBucket)
    (h : ∀ s ∈ ss, s.name ≠ c.name) : syncWithEach c ss = c := by
  induction ss with
  | nil => simp [syncWithEach]
  | cons s rest ih =>
    have hs : ¬ c.name = s.name := fun e => h s (by simp) e.symm
    simp only [syncWithEach, hs, if_false]
    exact ih (fun t ht => h t (List.mem_cons_of_mem _ ht))

/-- With pairwise different names in the shadow slice, the inner loop syncs the
bucket with the one shadow bucket of its name, if there is one. -/
theorem syncWithEach_unique (c : BoltBucket) (ss : List BoltBucket)
    (hu : namesUniqueAll ss = true) :
    syncWithEach c ss =
      match lookupBucket c.name ss with
      | some r => c.syncOpenBuckets r.2
      | none => c := by
  induction ss with
  | nil => simp [syncWithEach, lookupBucket]
  | cons s rest ih =>
    simp only [namesUniqueAll, Bool.and_eq_true, List.all_eq_true, decide_eq_true_eq] at hu
    by_cases hs : c.name = s.name
    · have hrest : ∀ t ∈ rest, t.name ≠ (c.syncOpenBuckets s).name := by
        intro t ht
        rw [syncOpenBuckets_name, hs]
        exact hu.1.1 t ht
      simp only [syncWithEach, hs, if_true, lookupBucket]
      rw [syncWithEach_noMatch _ _ hrest]
    · have hs2 : ¬ s.name = c.name := fun e => hs e.symm
      simp only [syncWithEach, hs, if_false, lookupBucket, hs2]
      rw [ih hu.2]
      cases lookupBucket c.name rest <;> simp

theorem allCollapsedAll_getElem {bs : List BoltBucket} (h : allCollapsedAll bs = true)
    {i : Nat} {c : BoltBucket} (hc : bs[i]? = some c) :
    c.expanded = false ∧ allCollapsedAll c.buckets = true := by
  induction bs generalizing i with
  | nil => simp at hc
  | cons b rest ih =>
    simp only [allCollapsedAll, Bool.and_eq_true] at h
    cases i with
    | zero =>
      simp only [List.getElem?_cons_zero, Option.some.injEq] at hc
      subst hc
      cases b
      simpa [BoltBucket.allCollapsed] using h.1
    | succ i => exact ih h.2 (by simpa using hc)

theorem allCollapsedAll_bucketAt (q : List Nat) (bs : List BoltBucket)
    (h : allCollapsedAll bs = true) {b : BoltBucket} (hb : bucketAt q bs = some b) :
    b.expanded = false := by
  match q with
  | [] => simp [bucketAt] at hb
  | [i] => exact (allCollapsedAll_getElem h (by simpa [bucketAt] using hb)).1
  | i :: j :: rest =>
    simp only [bucketAt] at hb
    cases hc : bs[i]? with
    | none => simp [hc] at hb
    | some c =>
      simp only [hc] at hb
      exact allCollapsedAll_bucketAt (j :: rest) c.buckets (allCollapsedAll_getElem h hc).2 hb

theorem namesUniqueAll_of_lookup {s : String} {ss : List BoltBucket} {r : Nat × BoltBucket}
    (hu : namesUniqueAll ss = true) (hl : lookupBucket s ss = some r) :
    namesUniqueAll r.2.buckets = true :=
  namesUnique_buckets (namesUniqueAll_mem hu (lookupBucket_some (i := r.1) (c := r.2) hl).1)

theorem walkBuckets_expanded (a a1 : List Nat) (t : BoltBucket) (rest : List String) :
    (match walkBuckets ⟨a, t⟩ rest with
      | .ok sp => sp.target.expanded
      | .error _ => false) =
    (match walkBuckets ⟨a1, t⟩ rest with
      | .ok sp => sp.target.expanded
      | .error _ => false) := by
  induction rest generalizing a a1 t with
  | nil => simp [walkBuckets]
  | cons s rest ih =>
    simp only [walkBuckets, BucketPtr.getBucket]
    cases hl : lookupBucket s t.buckets with
    | none => simp
    | some r => exact ih _ _ _

theorem shadowExpanded_single (ss : List BoltBucket) (n : String) :
    shadowExpanded ⟨ss⟩ [n] =
      match lookupBucket n ss with
      | some r => r.2.expanded
      | none => false := by
  simp only [shadowExpanded, BoltDB.getBucketFromPath, BoltDB.getBucket]
  cases lookupBucket n ss <;> simp [walkBuckets]

theorem shadowExpanded_cons (ss : List BoltBucket) (n n2 : String) (rest : List String) :
    shadowExpanded ⟨ss⟩ (n :: n2 :: rest) =
      match lookupBucket n ss with
      | some r => shadowExpanded ⟨r.2.buckets⟩ (n2 :: rest)
      | none => false := by
  simp only [shadowExpanded, BoltDB.getBucketFromPath, BoltDB.getBucket]
  cases hl : lookupBucket n ss with
  | none => simp
  | some r =>
    simp only [walkBuckets, BucketPtr.getBucket]
    cases hl2 : lookupBucket n2 r.2.buckets with
    | none => simp
    | some r2 => exact walkBuckets_expanded _ _ _ _

/-- After the loops of `syncOpenBuckets` over a slice `bs` of collapsed buckets
against a shadow slice `ss` of pairwise differently named buckets, the bucket at
any address has the `expanded` flag the shadow holds for its name path, and
everything else it holds is as before. -/
theorem syncWithEach_at (q : List Nat) (bs ss : List BoltBucket)
    (hu : namesUniqueAll ss = true) (hc : allCollapsedAll bs = true) :
    (bucketAt q (bs.map (fun c => syncWithEach c ss))).map BoltBucket.label
        = (bucketAt q bs).map BoltBucket.label ∧
      ∀ (b : BoltBucket) (P : List String),
        bucketAt q (bs.map (fun c => syncWithEach c ss)) = some b →
        namePathAt q bs = some P → b.expanded = shadowExpanded ⟨ss⟩ P := by
  match q with
  | [] => simp [bucketAt]
  | [i] =>
    simp only [bucketAt, namePathAt, List.getElem?_map]
    cases hci : bs[i]? with
    | none => simp
    | some c =>
      have hcol := allCollapsedAll_getElem hc hci
      simp only [Option.map_some', Option.some.injEq]
      rw [syncWithEach_unique c ss hu]
      cases hl : lookupBucket c.name ss with
      | none =>
        refine ⟨rfl, ?_⟩
        rintro b P rfl rfl
        simp [shadowExpanded_single, hl, hcol.1]
      | some r =>
        refine ⟨syncOpenBuckets_label _ _, ?_⟩
        rintro b P rfl rfl
        simp [shadowExpanded_single, hl, syncOpenBuckets_expanded]
  | i :: j :: rest =>
    simp only [bucketAt, namePathAt, List.getElem?_map]
    cases hci : bs[i]? with
    | none => simp
    | some c =>
      have hcol := allCollapsedAll_getElem hc hci
      simp only [Option.map_some']
      rw [syncWithEach_unique c ss hu]
      cases hl : lookupBucket c.name ss with
      | none =>
        refine ⟨rfl, ?_⟩
        intro b P hb hP
        cases hP2 : namePathAt (j :: rest) c.buckets with
        | none => simp [hP2] at hP
        | some P2 =>
          simp only [hP2, Option.map_some', Option.some.injEq] at hP
          subst hP
          have hne : ∃ n2 r2, P2 = n2 :: r2 := by
            cases P2 with
            | nil =>
              exfalso
              revert hP2
              cases rest with
              | nil =>
                simp only [namePathAt]
                cases c.buckets[j]? <;> simp
              | cons k rest2 =>
                simp only [namePathAt]
                cases c.buckets[j]? with
                | none => simp
                | some d => cases namePathAt (k :: rest2) d.buckets <;> simp
            | cons n2 r2 => exact ⟨n2, r2, rfl⟩
          obtain ⟨n2, r2, rfl⟩ := hne
          rw [shadowExpanded_cons, hl]
          exact allCollapsedAll_bucketAt (j :: rest) c.buckets hcol.2 hb
      | some r =>
        have ih := syncWithEach_at (j :: rest) c.buckets r.2.buckets
          (namesUniqueAll_of_lookup hu hl) hcol.2
        simp only [syncOpenBuckets_buckets]
        refine ⟨ih.1, ?_⟩
        intro b P hb hP
        cases hP2 : namePathAt (j :: rest) c.buckets with
        | none => simp [hP2] at hP
        | some P2 =>
          simp only [hP2, Option.map_some', Option.some.injEq] at hP
          subst hP
          have h2 := ih.2 b P2 hb hP2
          have hne : ∃ n2 r2, P2 = n2 :: r2 := by
            cases P2 with
            | nil =>
              exfalso
              revert hP2
              cases rest with
              | nil =>
                simp only [namePathAt]
                cases c.buckets[j]? <;> simp
              | cons k rest2 =>
                simp only [namePathAt]
                cases c.buckets[j]? with
                | none => simp
                | some d => cases namePathAt (k :: rest2) d.buckets <;> simp
            | cons n2 r2 => exact ⟨n2, r2, rfl⟩
          obtain ⟨n2, r2, rfl⟩ := hne
          rw [shadowExpanded_cons, hl]
          exact h2

/-- C9: let the shadow have pairwise different names among sibling buckets and
let the fresh mirror be all collapsed.  After `fresh.syncOpenBuckets(shadow)`
every bucket of the fresh mirror still stands at its address with its name,
pairs, parent reference, error flag and number of children, and its `expanded`
flag is that of the shadow bucket its name path resolves to, or `false`
(collapsed) when the name path names no bucket of the shadow. -/
theorem syncOpenBuckets_by_name_path (fresh shadow : BoltDB) (hs : shadow.namesUnique = true)
    (hc : fresh.allCollapsed = true) (q : List Nat) (b : BoltBucket) (P : List String)
    (hb : bucketAt q (fresh.syncOpenBuckets shadow).buckets = some b)
    (hP : namePathAt q fresh.buckets = some P) :
    (bucketAt q fresh.buckets).map BoltBucket.label = some b.label ∧
    match shadow.getBucketFromPath shadow P with
    | .ok sp => b.expanded = sp.target.expanded
    | .error _ => b.expanded = false := by
  have h := syncWithEach_at q fresh.buckets shadow.buckets hs hc
  have hb2 : bucketAt q (fresh.buckets.map (fun c => syncWithEach c shadow.buckets)) = some b := hb
  constructor
  · rw [← h.1, hb2]; rfl
  · have he := h.2 b P hb2 hP
    have hsh : (⟨shadow.buckets⟩ : BoltDB) = shadow := by cases shadow; rfl
    rw [hsh] at he
    unfold shadowExpanded at he
    cases hr : shadow.getBucketFromPath shadow P with
    | ok sp => simpa [hr] using he
    | error e => simpa [hr] using he

/-- Witness for C9, the resync scenario: the shadow has `A` expanded with child
`B` collapsed; after the resync of the all-collapsed fresh mirror `A` is
expanded, `B` is collapsed, and the new bucket `C` is collapsed. -/
theorem syncOpenBuckets_by_name_path_witness :
    freshMirror.syncOpenBuckets shadowMirror =
      ⟨[⟨"A", [], [⟨"B", [], [], .ref "A" .null, false, false⟩], .null, true, false⟩,
        ⟨"C", [], [], .null, false, false⟩]⟩ ∧
    ((bucketAt [0] freshMirror.buckets).map BoltBucket.label
        = some (BoltBucket.mk "A" [] [⟨"B", [], [], .ref "A" .null, false, false⟩] .null
            true false).label ∧
      match shadowMirror.getBucketFromPath shadowMirror ["A"] with
      | .ok sp =>
        (BoltBucket.mk "A" [] [⟨"B", [], [], .ref "A" .null, false, false⟩] .null
            true false).expanded = sp.target.expanded
      | .error _ =>
        (BoltBucket.mk "A" [] [⟨"B", [], [], .ref "A" .null, false, false⟩] .null
            true false).expanded = false) :=
  ⟨rfl, syncOpenBuckets_by_name_path freshMirror shadowMirror (by decide) (by decide) [0]
    ⟨"A", [], [⟨"B", [], [], .ref "A" .null, false, false⟩], .null, true, false⟩ ["A"] rfl rfl⟩

/-! ## Mirrors read from the store -/

mutual
theorem readItem_parentsOk (self : BucketRef) (it : Item) :
    match readItem self it with
    | .inl tp => tp.parent = self
    | .inr tb => tb.parent = self ∧ tb.parentsOk = true := by
  match it with
  | .pair k v => simp [readItem]
  | .bucket k sub =>
    have h := readItems_parentsOk (.ref k self) sub
    simp only [readItem, BoltBucket.parentsOk, Bool.and_eq_true, true_and]
    exact h
theorem readItems_parentsOk (self : BucketRef) (items : List Item) :
    (readItems self items).1.all (fun p => decide (p.parent = self)) = true ∧
      parentsOkAll self (readItems self items).2 = true := by
  match items with
  | [] => simp [readItems, parentsOkAll]
  | it :: rest =>
    have h1 := readItem_parentsOk self it
    have h2 := readItems_parentsOk self rest
    simp only [readItems]
    cases hr : readItem self it with
    | inl tp =>
      rw [hr] at h1
      simp only [List.all_cons, Bool.and_eq_true, decide_eq_true_eq]
      exact ⟨⟨h1, h2.1⟩, h2.2⟩
    | inr tb =>
      rw [hr] at h1
      simp only [parentsOkAll, Bool.and_eq_true, decide_eq_true_eq]
      exact ⟨h2.1, ⟨h1.1, h1.2⟩, h2.2⟩
end

theorem refreshBuckets_parentsOk (db : List Item) (bs : List BoltBucket)
    (h : refreshBuckets db = some bs) : parentsOkAll .null bs = true := by
  induction db generalizing bs with
  | nil =>
    simp only [refreshBuckets, Option.some.injEq] at h
    subst h
    rfl
  | cons it rest ih =>
    cases it with
    | pair k v => simp [refreshBuckets] at h
    | bucket nm sub =>
      simp only [refreshBuckets] at h
      cases hr : refreshBuckets rest with
      | none => simp [hr] at h
      | some cs =>
        simp only [hr, Option.some.injEq] at h
        subst h
        have h2 := readItems_parentsOk (.ref nm .null) sub
        simp only [parentsOkAll, readBucket, BoltBucket.parentsOk, Bool.and_eq_true,
          decide_eq_true_eq, true_and]
        exact ⟨h2, ih cs hr⟩

/-- Every mirror `refreshDatabase` builds has its parent references in order:
root buckets have none, every other node refers to its containing bucket. -/
theorem refreshDatabase_parentsOk (db : Store) (m : BoltDB) (h : refreshDatabase db = some m) :
    m.parentsOk = true := by
  unfold refreshDatabase at h
  cases hr : refreshBuckets db with
  | none => simp [hr] at h
  | some bs =>
    simp only [hr, Option.map_some', Option.some.injEq] at h
    subst h
    exact refreshBuckets_parentsOk db bs hr

/-! ## Renaming a bucket -/

/-- C10, at a blank new name.  In the scenario store (bucket `A` with the pair
`x` → `1` and the sub-bucket `B`) the path `["A"]` resolves to a bucket, and the
blank name differs from `A` and is used by no sibling; `renameBucket(["A"], "")`
returns nil, and the store is empty afterwards: the path `[""]` is no bucket and
the subtree is gone.  With the new name `A2` the same call leaves the bucket
`A2` with the pair `x` → `1` and the sub-bucket `B`, and no bucket `A`. -/
theorem renameBucket_blank_name_drops_subtree :
    contentsAt scenarioStore ["A"] = some [.bucket "B" [], .pair "x" "1"] ∧
    findItem "" scenarioStore = none ∧
    renameBucket scenarioStore ["A"] "" = .returned [] none ∧
    contentsAt [] [""] = none ∧
    insertBucket [] [] "" = ([], some "insertBucket: bucket name required") ∧
    renameBucket scenarioStore ["A"] "A2"
      = .returned [.bucket "A2" [.bucket "B" [], .pair "x" "1"]] none :=
  ⟨rfl, rfl, rfl, rfl, rfl, rfl⟩

/-! ## Errors and aborts of the mutation operations -/

/-- C11, at a name in use.  In the store with the root buckets `A` (holding
`B` and `x` → `1`) and `S`, `renameBucket(["A"], "S")` returns nil although the
re-insert failed on the name collision (`insertBucket([], "S")` returns the
store's error), and the store is left with `S` alone: the subtree of `A` is
gone.  The same happens when the name in use is that of a sibling pair. -/
theorem renameBucket_collision_returns_nil :
    contentsAt collisionStore ["A"] = some [.bucket "B" [], .pair "x" "1"] ∧
    findItem "S" collisionStore = some (.bucket "S" []) ∧
    insertBucket [.bucket "S" []] [] "S"
      = ([.bucket "S" []], some "insertBucket: bucket already exists") ∧
    renameBucket collisionStore ["A"] "S" = .returned [.bucket "S" []] none ∧
    renameBucket [.bucket "R" [.bucket "A" [.pair "x" "1"], .pair "z" "9"]] ["R", "A"] "z"
      = .returned [.bucket "R" [.pair "z" "9"]] none :=
  ⟨rfl, rfl, rfl, rfl, rfl⟩

/-- C13, at an unknown root segment.  When the first segment of the path names
no root bucket, `insertPair` returns nil and the store is as before: nothing
was written.  In the scenario store, `insertPair(["Q"], "k", "v")` returns nil
and `["Q", "k"]` names no entry afterwards.  On the empty path and on an unknown
later segment it does return an error. -/
theorem insertPair_unknown_root_returns_nil :
    (∀ (db : Store) (p0 : String) (rest : List String) (k v : String),
      subBucket p0 db = none → insertPair db (p0 :: rest) k v = (db, none)) ∧
    insertPair scenarioStore ["Q"] "k" "v" = (scenarioStore, none) ∧
    lookupAt scenarioStore ["Q", "k"] = none ∧
    insertPair scenarioStore [] "k" "v"
      = (scenarioStore, some "insertPair: Cannot insert pair at root") ∧
    insertPair scenarioStore ["A", "Q"] "k" "v"
      = (scenarioStore, some "insertPair: %!s(<nil>)") := by
  refine ⟨?_, rfl, rfl, rfl, rfl⟩
  intro db p0 rest k v h
  simp [insertPair, dbUpdate, h]

/-- C17, on the empty path and on a one-segment path.  `deleteKey`,
`renameBucket`, `updatePairKey` and `updatePairValue` abort on the empty path
(index out of range at `path[0]`, in `renameBucket` at `path[len(path)-1]`), and
`updatePairKey` and `updatePairValue` abort on every one-segment path that names
a root bucket (slice bounds out of range at `path[1 : len(path)-1]`). -/
theorem mutation_operations_abort :
    (∀ db : Store, deleteKey db [] = .panicked db) ∧
    (∀ (db : Store) (name : String), renameBucket db [] name = .panicked db) ∧
    (∀ (db : Store) (k : String), updatePairKey db [] k = .panicked db) ∧
    (∀ (db : Store) (v : String), updatePairValue db [] v = .panicked db) ∧
    (∀ (db : Store) (p0 k : String) (sub : List Item), subBucket p0 db = some sub →
      updatePairKey db [p0] k = .panicked db ∧ updatePairValue db [p0] k = .panicked db) ∧
    updatePairKey scenarioStore ["A"] "k" = .panicked scenarioStore ∧
    updatePairValue scenarioStore ["A"] "v" = .panicked scenarioStore := by
  refine ⟨fun _ => rfl, fun _ _ => rfl, fun _ _ => rfl, fun _ _ => rfl, ?_, rfl, rfl⟩
  intro db p0 k sub h
  simp [updatePairKey, updatePairValue, dbUpdateAbort, h]

/-- C19, with two values of `memBolt`.  The receiver `scenarioMirror` has the
root bucket `A` with the child `B`; with `memBolt` the same mirror `["A", "B"]`
resolves to it, with `memBolt` an empty mirror the same call on the same
receiver fails.  An empty
receiver resolves `["A", "B"]` to the bucket of `memBolt`, and `closeBucket` on
it writes into `memBolt`.  The result never depends on the receiver. -/
theorem getBucketFromPath_reads_memBolt :
    scenarioMirror.getBucketFromPath scenarioMirror ["A", "B"]
      = .ok ⟨[0, 0], ⟨"B", [⟨.ref "B" (.ref "A" .null), "k2", "2"⟩], [], .ref "A" .null,
          true, false⟩⟩ ∧
    scenarioMirror.getBucketFromPath ⟨[]⟩ ["A", "B"] = .error "Bucket Not Found" ∧
    (BoltDB.mk []).getBucketFromPath scenarioMirror ["A", "B"]
      = .ok ⟨[0, 0], ⟨"B", [⟨.ref "B" (.ref "A" .null), "k2", "2"⟩], [], .ref "A" .null,
          true, false⟩⟩ ∧
    ((BoltDB.mk []).closeBucket scenarioMirror ["A", "B"]).1
      = ⟨[⟨"A", [⟨.ref "A" .null, "k1", "1"⟩],
          [⟨"B", [⟨.ref "B" (.ref "A" .null), "k2", "2"⟩], [], .ref "A" .null, false, false⟩],
          .null, true, false⟩]⟩ ∧
    (∀ (bd bd1 m : BoltDB) (path : List String),
      bd.getBucketFromPath m path = bd1.getBucketFromPath m path) :=
  ⟨rfl, rfl, rfl, rfl, fun _ _ _ _ => rfl⟩

/-! ## Navigation as a step in the visible sequence -/

theorem prevLoop_skip (vis : List String) (fp : String) (rest : List String) (i : Nat)
    (h : ∀ k : Nat, rest[k]? = some fp → i + k = 0) : prevLoop vis fp rest i = none := by
  induction rest generalizing i with
  | nil => simp [prevLoop]
  | cons v rest ih =>
    have hv : ¬ (v = fp ∧ i > 0) := by
      rintro ⟨e, hi⟩
      have := h 0 (by simp [e])
      omega
    simp only [prevLoop, hv, if_false]
    apply ih
    intro k hk
    have := h (k + 1) (by simpa using hk)
    omega

theorem nextLoop_skip (vis : List String) (fp : String) (rest : List String) (i : Nat)
    (h : ∀ k : Nat, rest[k]? = some fp → ¬ i + k < vis.length - 1) :
    nextLoop vis fp rest i = none := by
  induction rest generalizing i with
  | nil => simp [nextLoop]
  | cons v rest ih =>
    have hv : ¬ (v = fp ∧ i < vis.length - 1) := by
      rintro ⟨e, hi⟩
      exact h 0 (by simp [e]) (by simpa using hi)
    simp only [nextLoop, hv, if_false]
    apply ih
    intro k hk
    have := h (k + 1) (by simpa using hk)
    intro hlt
    exact this (by omega)

/-- The loop of `getPrevVisiblePath` stops at the first offset `j` at which the
entry is `fp` and the index is not 0. -/
theorem prevLoop_first (vis : List String) (fp : String) (rest : List String) (i j : Nat)
    (hj : rest[j]? = some fp) (hpos : i + j > 0)
    (hmin : ∀ k : Nat, k < j → rest[k]? = some fp → i + k = 0) :
    prevLoop vis fp rest i = (vis[i + j - 1]?).map (fun s => stringsSplit s '/') := by
  induction rest generalizing i j with
  | nil => simp at hj
  | cons v rest ih =>
    cases j with
    | zero =>
      simp only [List.getElem?_cons_zero, Option.some.injEq] at hj
      subst hj
      have hi : i > 0 := by omega
      simp [prevLoop, hi]
    | succ j =>
      simp only [List.getElem?_cons_succ] at hj
      have hv : ¬ (v = fp ∧ i > 0) := by
        rintro ⟨e, hi⟩
        have := hmin 0 (by omega) (by simp [e])
        omega
      simp only [prevLoop, hv, if_false]
      rw [ih (i + 1) j hj (by omega)]
      · have e : i + 1 + j = i + (j + 1) := by omega
        rw [e]
      · intro k hk hkf
        have := hmin (k + 1) (by omega) (by simpa using hkf)
        omega

/-- The loop of `getNextVisiblePath` stops at the first offset `j` at which the
entry is `fp` and the index is not the last. -/
theorem nextLoop_first (vis : List String) (fp : String) (rest : List String) (i j : Nat)
    (hj : rest[j]? = some fp) (hpos : i + j < vis.length - 1)
    (hmin : ∀ k : Nat, k < j → rest[k]? ≠ some fp) :
    nextLoop vis fp rest i = (vis[i + j + 1]?).map (fun s => stringsSplit s '/') := by
  induction rest generalizing i j with
  | nil => simp at hj
  | cons v rest ih =>
    cases j with
    | zero =>
      simp only [List.getElem?_cons_zero, Option.some.injEq] at hj
      subst hj
      have hi : i < vis.length - 1 := by omega
      simp [nextLoop, hi]
    | succ j =>
      simp only [List.getElem?_cons_succ] at hj
      have hv : ¬ v = fp := by
        intro e
        exact hmin 0 (by omega) (by simp [e])
      simp only [nextLoop, hv, false_and, if_false]
      rw [ih (i + 1) j hj (by omega)]
      · have e : i + 1 + j = i + (j + 1) := by omega
        rw [e]
      · intro k hk hkf
        exact hmin (k + 1) (by omega) (by simpa using hkf)

/-- C18, as stated, fails on a repeated entry.  In `repeatMirror` the visible
sequence is `["A", "A/B", "A/B", "Z"]`; the root bucket named `A/B` has the path
`["A/B"]` and its entry stands at index 2, neither first nor last.  The entry
right after it is `Z` and the entry right before it is that of the bucket `B` of
`A`, yet `getNextVisiblePath(["A/B"])` is `["A", "B"]` and
`getPrevVisiblePath(["A/B"])` is `["A"]`: both loops stop at index 1, the first
entry equal to the join.  In `slashMirror` the entry after `P` is that of the
root bucket with the path `["A/B"]`, and `getNextVisiblePath(["P"])` is its
split `["A", "B"]`, which resolves to nothing. -/
theorem navigation_stops_at_first_equal_entry :
    repeatMirror.visiblePaths = ["A", "A/B", "A/B", "Z"] ∧
    repeatMirror.getBucketFromPath repeatMirror ["A/B"]
      = .ok ⟨[1], ⟨"A/B", [], [], .null, false, false⟩⟩ ∧
    (BoltBucket.mk "A/B" [] [] .null false false).GetPath = ["A/B"] ∧
    repeatMirror.visiblePaths[2]? = some (stringsJoin ["A/B"] "/") ∧
    repeatMirror.visiblePaths[3]? = some "Z" ∧
    repeatMirror.getNextVisiblePath (some ["A/B"]) = some ["A", "B"] ∧
    repeatMirror.getNextVisiblePath (some ["A/B"])
      ≠ (repeatMirror.visiblePaths[3]?).map (fun s => stringsSplit s '/') ∧
    repeatMirror.visiblePaths[1]? = some "A/B" ∧
    repeatMirror.getPrevVisiblePath (some ["A/B"]) = some ["A"] ∧
    repeatMirror.getPrevVisiblePath (some ["A/B"])
      ≠ (repeatMirror.visiblePaths[1]?).map (fun s => stringsSplit s '/') ∧
    slashMirror.visiblePaths = ["P", "A/B", "Q"] ∧
    slashMirror.getBucketFromPath slashMirror ["A/B"]
      = .ok ⟨[1], ⟨"A/B", [], [], .null, false, false⟩⟩ ∧
    slashMirror.getNextVisiblePath (some ["P"]) = some ["A", "B"] ∧
    slashMirror.getGenericFromPath slashMirror ["A", "B"] = (none, none, some "Invalid Path") :=
  ⟨by decide, rfl, by decide, by decide, by decide, by decide, by decide, by decide,
    by decide, by decide, by decide, rfl, by decide, rfl⟩

/-- C18, amended: navigation is a step of one from the first entry equal to the
`/`-join of the path, and its result is the `/`-split of the neighbour entry.
For every mirror and every non-nil path `X` with join `J`: when `J` stands in
the visible sequence at a position that is not the last,
`getNextVisiblePath` is the split of the entry right after the first position
of `J`, and it is nil when `J` stands at no position but possibly the last;
when `J` stands at a position that is not the first, `getPrevVisiblePath` is
the split of the entry right before the first such position, and it is nil when
`J` stands at no position but possibly the first.  When the visible sequence
has no repeated entry and `J` stands at position `i`, next is the split of the
entry at `i + 1`, nil when `i` is the last position, and previous is the split
of the entry at `i - 1`, nil when `i` is 0.  With a nil current path next is
the split of the first entry and previous that of the last entry, nil when the
sequence is empty. -/
theorem navigation_is_a_step (bd : BoltDB) (X : List String) :
    (∀ i : Nat, i + 1 < bd.visiblePaths.length →
      bd.visiblePaths[i]? = some (stringsJoin X "/") →
      (∀ j : Nat, j < i → bd.visiblePaths[j]? ≠ some (stringsJoin X "/")) →
      bd.getNextVisiblePath (some X)
        = (bd.visiblePaths[i + 1]?).map (fun s => stringsSplit s '/')) ∧
    ((∀ i : Nat, i + 1 < bd.visiblePaths.length →
        bd.visiblePaths[i]? ≠ some (stringsJoin X "/")) →
      bd.getNextVisiblePath (some X) = none) ∧
    (∀ i : Nat, 0 < i → bd.visiblePaths[i]? = some (stringsJoin X "/") →
      (∀ j : Nat, 0 < j → j < i → bd.visiblePaths[j]? ≠ some (stringsJoin X "/")) →
      bd.getPrevVisiblePath (some X)
        = (bd.visiblePaths[i - 1]?).map (fun s => stringsSplit s '/')) ∧
    ((∀ i : Nat, 0 < i → bd.visiblePaths[i]? ≠ some (stringsJoin X "/")) →
      bd.getPrevVisiblePath (some X) = none) ∧
    bd.getNextVisiblePath none = (bd.visiblePaths[0]?).map (fun s => stringsSplit s '/') ∧
    bd.getPrevVisiblePath none
      = (bd.visiblePaths[bd.visiblePaths.length - 1]?).map (fun s => stringsSplit s '/') ∧
    (bd.visiblePaths = [] →
      bd.getNextVisiblePath none = none ∧ bd.getPrevVisiblePath none = none) ∧
    (bd.visiblePaths.Nodup → ∀ i : Nat, bd.visiblePaths[i]? = some (stringsJoin X "/") →
      bd.getNextVisiblePath (some X)
        = (if i + 1 < bd.visiblePaths.length then
            (bd.visiblePaths[i + 1]?).map (fun s => stringsSplit s '/')
          else none) ∧
      bd.getPrevVisiblePath (some X)
        = (if 0 < i then (bd.visiblePaths[i - 1]?).map (fun s => stringsSplit s '/')
          else none)) ∧
    (scenarioMirror.getNextVisiblePath (some ["A", "B"]) = some ["A", "B", "k2"] ∧
      repeatMirror.getNextVisiblePath (some ["A", "B"]) = some ["A", "B"] ∧
      scenarioMirror.getPrevVisiblePath (some ["A", "B"]) = some ["A"] ∧
      scenarioMirror.getNextVisiblePath (some ["A", "k1"]) = none ∧
      scenarioMirror.getPrevVisiblePath (some ["A"]) = none ∧
      scenarioMirror.getNextVisiblePath (some ["gone"]) = none ∧
      scenarioMirror.getNextVisiblePath none = some ["A"] ∧
      scenarioMirror.getPrevVisiblePath none = some ["A", "k1"]) := by
  have hnext : bd.getNextVisiblePath (some X)
      = nextLoop bd.visiblePaths (stringsJoin X "/") bd.visiblePaths 0 := by
    simp only [BoltDB.getNextVisiblePath, visiblePaths_err, if_true]
    rfl
  have hprev : bd.getPrevVisiblePath (some X)
      = prevLoop bd.visiblePaths (stringsJoin X "/") bd.visiblePaths 0 := by
    simp only [BoltDB.getPrevVisiblePath, visiblePaths_err, if_true]
    rfl
  refine ⟨?_, ?_, ?_, ?_, ?_, ?_, ?_, ?_, by decide⟩
  · intro i hi hat hmin
    rw [hnext]
    have := nextLoop_first bd.visiblePaths (stringsJoin X "/") bd.visiblePaths 0 i hat
      (by omega) hmin
    simpa using this
  · intro h
    rw [hnext]
    apply nextLoop_skip
    intro k hk hlt
    exact h k (by omega) hk
  · intro i hi hat hmin
    rw [hprev]
    have := prevLoop_first bd.visiblePaths (stringsJoin X "/") bd.visiblePaths 0 i hat
      (by omega) (fun k hk hkf => by
        by_contra hne
        exact hmin k (by omega) hk hkf)
    simpa using this
  · intro h
    rw [hprev]
    apply prevLoop_skip
    intro k hk
    by_contra hne
    exact h k (by omega) hk
  · simp only [BoltDB.getNextVisiblePath]
    split
    · rfl
    · next hlen =>
      have : bd.visiblePaths = [] := by
        apply List.eq_nil_of_length_eq_zero
        unfold BoltDB.visiblePaths
        omega
      unfold BoltDB.visiblePaths at this
      simp [BoltDB.visiblePaths, this]
  · simp only [BoltDB.getPrevVisiblePath]
    split
    · rfl
    · next hlen =>
      have : bd.visiblePaths = [] := by
        apply List.eq_nil_of_length_eq_zero
        unfold BoltDB.visiblePaths
        omega
      unfold BoltDB.visiblePaths at this
      simp [BoltDB.visiblePaths, this]
  · intro he
    unfold BoltDB.visiblePaths at he
    simp [BoltDB.getNextVisiblePath, BoltDB.getPrevVisiblePath, he]
  · intro hnd i hi
    refine ⟨?_, ?_⟩
    · rw [getNextVisiblePath_at bd X i hnd hi]
      have e : (i < bd.visiblePaths.length - 1) ↔ (i + 1 < bd.visiblePaths.length) := by
        omega
      simp only [e]
    · exact getPrevVisiblePath_at bd X i hnd hi

/-! ## The contents of one bucket of the store -/

theorem findItem_some {k : String} {xs : List Item} {it : Item}
    (h : findItem k xs = some it) : it.key = k ∧ it ∈ xs := by
  induction xs with
  | nil => simp [findItem] at h
  | cons x xs ih =>
    simp only [findItem] at h
    split at h
    · next hk =>
      simp only [Option.some.injEq] at h
      subst h
      exact ⟨hk, by simp⟩
    · exact ⟨(ih h).1, List.mem_cons_of_mem _ (ih h).2⟩

theorem findItem_none {k : String} {xs : List Item} :
    findItem k xs = none ↔ ∀ x ∈ xs, x.key ≠ k := by
  induction xs with
  | nil => simp [findItem]
  | cons x xs ih =>
    simp only [findItem]
    split
    · next hk => simp [hk]
    · next hk => simp [ih, hk]

theorem subBucket_some {k : String} {xs sub : List Item} :
    subBucket k xs = some sub ↔ findItem k xs = some (.bucket k sub) := by
  unfold subBucket
  cases h : findItem k xs with
  | none => simp
  | some it =>
    have hk := (findItem_some h).1
    cases it with
    | pair a v => simp
    | bucket m s =>
      simp only [Item.key] at hk
      subst hk
      simp

theorem findItem_insertItem_ne {k : String} (it : Item) (xs : List Item) (h : it.key ≠ k) :
    findItem k (insertItem it xs) = findItem k xs := by
  induction xs with
  | nil => simp [insertItem, findItem, h]
  | cons x xs ih =>
    simp only [insertItem]
    split
    · simp [findItem, h]
    · simp only [findItem, ih]

theorem findItem_insertItem_self (it : Item) (xs : List Item)
    (h : findItem it.key xs = none) : findItem it.key (insertItem it xs) = some it := by
  induction xs with
  | nil => simp [insertItem, findItem]
  | cons x xs ih =>
    have hx : ¬ x.key = it.key := by
      intro e
      simp [findItem, e] at h
    have hxs : findItem it.key xs = none := by
      simpa [findItem, hx] using h
    simp only [insertItem]
    split
    · simp [findItem]
    · simp [findItem, hx, ih hxs]

theorem removeItem_insertItem (it : Item) (xs : List Item)
    (h : findItem it.key xs = none) : removeItem it.key (insertItem it xs) = xs := by
  induction xs with
  | nil => simp [insertItem, removeItem]
  | cons x xs ih =>
    have hx : ¬ x.key = it.key := by
      intro e
      simp [findItem, e] at h
    have hxs : findItem it.key xs = none := by
      simpa [findItem, hx] using h
    simp only [insertItem]
    split
    · simp [removeItem]
    · simp [removeItem, hx, ih hxs]

theorem findItem_removeItem_ne {k n : String} (xs : List Item) (h : k ≠ n) :
    findItem k (removeItem n xs) = findItem k xs := by
  induction xs with
  | nil => simp [removeItem]
  | cons x xs ih =>
    simp only [removeItem]
    split
    · next hx =>
      have : ¬ x.key = k := fun e => h (e ▸ hx)
      simp [findItem, this]
    · simp only [findItem, ih]

theorem findItem_removeItem_self {n : String} (xs : List Item)
    (hu : (xs.map Item.key).Nodup) : findItem n (removeItem n xs) = none := by
  induction xs with
  | nil => simp [removeItem, findItem]
  | cons x xs ih =>
    simp only [List.map_cons, List.nodup_cons, List.mem_map, not_exists, not_and] at hu
    simp only [removeItem]
    split
    · next hx =>
      rw [findItem_none]
      intro y hy e
      exact hu.1 y hy (e.trans hx.symm)
    · next hx => simp [findItem, hx, ih hu.2]

theorem findItem_replaceItem {k n : String} (it : Item) (xs : List Item) (hit : it.key = n) :
    findItem k (replaceItem n it xs) =
      if k = n then (findItem n xs).map (fun _ => it) else findItem k xs := by
  induction xs with
  | nil => simp [replaceItem, findItem]
  | cons x xs ih =>
    simp only [replaceItem]
    by_cases hx : x.key = n
    · by_cases hk : k = n
      · simp [findItem, hx, hk, hit]
      · have h1 : ¬ it.key = k := fun e => hk (e.symm.trans hit)
        have h2 : ¬ x.key = k := fun e => hk (e.symm.trans hx)
        have h3 : ¬ n = k := fun e => hk e.symm
        simp [findItem, hx, hk, h1, h3]
    · by_cases hk : k = n
      · subst hk
        simp [findItem, hx, ih]
      · simp only [hx, if_false, findItem, ih, hk]

theorem replaceItem_self {n : String} {it : Item} (xs : List Item)
    (h : findItem n xs = some it) : replaceItem n it xs = xs := by
  induction xs with
  | nil => simp [replaceItem]
  | cons x xs ih =>
    simp only [findItem] at h
    simp only [replaceItem]
    split at h
    · next hx =>
      simp only [Option.some.injEq] at h
      subst h
      simp [hx]
    · next hx => simp [hx, ih h]

theorem replaceItem_replaceItem {n : String} (it it2 : Item) (xs : List Item)
    (hit : it.key = n) : replaceItem n it2 (replaceItem n it xs) = replaceItem n it2 xs := by
  induction xs with
  | nil => simp [replaceItem]
  | cons x xs ih =>
    simp only [replaceItem]
    by_cases hx : x.key = n
    · simp [hx, replaceItem, hit]
    · simp [hx, replaceItem, ih]

theorem keys_insertItem (it : Item) (xs : List Item) :
    ((insertItem it xs).map Item.key).Perm (it.key :: xs.map Item.key) := by
  induction xs with
  | nil => simp [insertItem]
  | cons x xs ih =>
    simp only [insertItem]
    split
    · simp
    · simp only [List.map_cons]
      exact (List.Perm.cons _ ih).trans (List.Perm.swap _ _ _)

theorem keys_replaceItem {n : String} (it : Item) (xs : List Item) (hit : it.key = n) :
    (replaceItem n it xs).map Item.key = xs.map Item.key := by
  induction xs with
  | nil => simp [replaceItem]
  | cons x xs ih =>
    simp only [replaceItem]
    split
    · next hx => simp [hit, hx]
    · simp [ih]

theorem keys_removeItem_sublist (n : String) (xs : List Item) :
    ((removeItem n xs).map Item.key).Sublist (xs.map Item.key) := by
  induction xs with
  | nil => simp [removeItem]
  | cons x xs ih =>
    simp only [removeItem]
    split
    · simp
    · simpa using ih

theorem keysUniqueAll_nodup {xs : List Item} (h : keysUniqueAll xs = true) :
    (xs.map Item.key).Nodup := by
  induction xs with
  | nil => simp
  | cons x xs ih =>
    simp only [keysUniqueAll, Bool.and_eq_true, List.all_eq_true, decide_eq_true_eq] at h
    simp only [List.map_cons, List.nodup_cons, List.mem_map, not_exists, not_and]
    exact ⟨fun y hy e => h.1.1 y hy e, ih h.2⟩

theorem keysUniqueAll_sub {xs : List Item} (h : keysUniqueAll xs = true) {k : String}
    {sub : List Item} (hs : subBucket k xs = some sub) : keysUniqueAll sub = true := by
  induction xs with
  | nil => simp [subBucket, findItem] at hs
  | cons x xs ih =>
    simp only [keysUniqueAll, Bool.and_eq_true] at h
    rw [subBucket_some] at hs
    simp only [findItem] at hs
    split at hs
    · simp only [Option.some.injEq] at hs
      subst hs
      simpa [Item.keysUnique] using h.1.2
    · exact ih h.2 (subBucket_some.2 hs)

theorem modifySub_eq {n : String} (g : List Item → Except String (List Item))
    {xs sub : List Item} (hs : subBucket n xs = some sub) :
    modifySub n g xs =
      match g sub with
      | .error e => .error e
      | .ok sub1 => .ok (replaceItem n (.bucket n sub1) xs) := by
  induction xs with
  | nil => simp [subBucket, findItem] at hs
  | cons x xs ih =>
    rw [subBucket_some] at hs
    simp only [findItem] at hs
    cases x with
    | pair k v =>
      simp only [Item.key] at hs
      split at hs
      · simp at hs
      · next hk =>
        have := ih (subBucket_some.2 hs)
        simp only [modifySub, hk, if_false, this, replaceItem, Item.key]
        cases g sub <;> simp
    | bucket m s =>
      simp only [Item.key] at hs
      split at hs
      · next hk =>
        simp only [Option.some.injEq, Item.bucket.injEq] at hs
        obtain ⟨_, rfl⟩ := hs
        simp only [modifySub, hk, if_true, replaceItem, Item.key]
      · next hk =>
        have := ih (subBucket_some.2 hs)
        simp only [modifySub, hk, if_false, this, replaceItem, Item.key]
        cases g sub <;> simp

/-! ## Handles and writes through them -/

theorem contentsAt_append (root : List Item) (a b : List String) :
    contentsAt root (a ++ b) =
      match contentsAt root a with
      | none => none
      | some items => contentsAt items b := by
  induction a generalizing root with
  | nil => simp [contentsAt]
  | cons n rest ih =>
    simp only [List.cons_append, contentsAt]
    cases subBucket n root with
    | none => rfl
    | some sub => exact ih sub

theorem contentsAt_snoc (root : List Item) (b : List String) (s : String) :
    contentsAt root (b ++ [s]) = (contentsAt root b).bind (subBucket s) := by
  rw [contentsAt_append]
  cases contentsAt root b with
  | none => rfl
  | some items =>
    simp only [contentsAt, Option.some_bind]
    cases subBucket s items <;> rfl

theorem contentsAt_none_append (root : List Item) (a b : List String)
    (h : contentsAt root a = none) : contentsAt root (a ++ b) = none := by
  rw [contentsAt_append, h]

theorem contentsAt_cons_append (root : List Item) (b : List String) (s : String)
    (rest : List String) : contentsAt root (b ++ s :: rest) = contentsAt root (b ++ [s] ++ rest) := by
  simp

/-- The strict walk over bucket names ends on the full handle exactly when the
full path resolves. -/
theorem walkHandles_eq (root : List Item) (b rest : List String)
    (hb : contentsAt root b ≠ none) :
    walkHandles root b rest = (contentsAt root (b ++ rest)).map (fun _ => b ++ rest) := by
  induction rest generalizing b with
  | nil =>
    simp only [walkHandles, List.append_nil]
    cases h : contentsAt root b with
    | none => exact absurd h hb
    | some items => rfl
  | cons s rest ih =>
    simp only [walkHandles, ← contentsAt_snoc]
    cases h : contentsAt root (b ++ [s]) with
    | none =>
      rw [contentsAt_cons_append, contentsAt_none_append _ _ _ h]
      rfl
    | some items =>
      simp only []
      rw [ih (b ++ [s]) (by rw [h]; simp)]
      simp

theorem insertBucketWalk_full (root : List Item) (b rest : List String)
    (h : contentsAt root (b ++ rest) ≠ none) : insertBucketWalk root b rest = .ok (b ++ rest) := by
  induction rest generalizing b with
  | nil => simp [insertBucketWalk]
  | cons s rest ih =>
    simp only [insertBucketWalk, ← contentsAt_snoc]
    cases hc : contentsAt root (b ++ [s]) with
    | none =>
      exfalso
      apply h
      rw [contentsAt_cons_append, contentsAt_none_append _ _ _ hc]
    | some items =>
      simp only []
      rw [ih (b ++ [s]) (by simpa using h)]
      simp

theorem insertBucketWalk_parent (root : List Item) (b rest : List String) (hne : rest ≠ [])
    (h : contentsAt root (b ++ rest) = none) (hp : contentsAt root (b ++ rest.dropLast) ≠ none) :
    insertBucketWalk root b rest = .ok (b ++ rest.dropLast) := by
  induction rest generalizing b with
  | nil => exact absurd rfl hne
  | cons s rest ih =>
    simp only [insertBucketWalk, ← contentsAt_snoc]
    cases rest with
    | nil =>
      simp only [List.dropLast_single, List.append_nil] at hp ⊢
      rw [h]
      simp [insertBucketWalk]
    | cons t u =>
      simp only [List.dropLast_cons₂] at hp ⊢
      cases hc : contentsAt root (b ++ [s]) with
      | none =>
        exfalso
        apply hp
        rw [contentsAt_cons_append, contentsAt_none_append _ _ _ hc]
      | some items =>
        simp only []
        rw [ih (b ++ [s]) (by simp) (by simpa using h) (by simpa using hp)]
        simp

theorem insertBucketWalk_broken (root : List Item) (b rest : List String) (hne : rest ≠ [])
    (hb : contentsAt root b ≠ none) (hp : contentsAt root (b ++ rest.dropLast) = none) :
    insertBucketWalk root b rest = .error "insertBucket: Invalid Path 1" := by
  induction rest generalizing b with
  | nil => exact absurd rfl hne
  | cons s rest ih =>
    simp only [insertBucketWalk, ← contentsAt_snoc]
    cases rest with
    | nil =>
      simp only [List.dropLast_single, List.append_nil] at hp
      exact absurd hp hb
    | cons t u =>
      simp only [List.dropLast_cons₂] at hp
      cases hc : contentsAt root (b ++ [s]) with
      | none => simp
      | some items =>
        simp only []
        exact ih (b ++ [s]) (by simp) (by rw [hc]; simp) (by simpa using hp)

theorem subBucket_replaceItem {k n : String} {root sub : List Item} (new : List Item)
    (hs : subBucket n root = some sub) :
    subBucket k (replaceItem n (.bucket n new) root) =
      if k = n then some new else subBucket k root := by
  unfold subBucket
  rw [@findItem_replaceItem k n (Item.bucket n new) root rfl]
  by_cases hk : k = n
  · subst hk
    rw [subBucket_some.1 hs]
    simp
  · simp [hk]

/-- A write through a handle that resolves: the function is applied to the
contents of that bucket, and its result put in their place. -/
theorem modifyAt_eq (f : List Item → Except String (List Item)) (h : List String)
    (root items : List Item) (hc : contentsAt root h = some items) :
    modifyAt f h root =
      match f items with
      | .error e => .error e
      | .ok new => .ok (writeAt h new root) := by
  induction h generalizing root with
  | nil =>
    simp only [contentsAt, Option.some.injEq] at hc
    subst hc
    simp only [modifyAt, writeAt]
    cases f root <;> rfl
  | cons n rest ih =>
    simp only [contentsAt] at hc
    cases hs : subBucket n root with
    | none => simp [hs] at hc
    | some sub =>
      simp only [hs] at hc
      simp only [modifyAt, modifySub_eq _ hs, ih sub hc, writeAt, hs]
      cases f items <;> rfl

theorem contentsAt_writeAt (h : List String) (root items new : List Item)
    (hc : contentsAt root h = some items) : contentsAt (writeAt h new root) h = some new := by
  induction h generalizing root with
  | nil => simp [contentsAt, writeAt]
  | cons n rest ih =>
    simp only [contentsAt] at hc
    cases hs : subBucket n root with
    | none => simp [hs] at hc
    | some sub =>
      simp only [hs] at hc
      simp only [writeAt, hs, contentsAt, subBucket_replaceItem _ hs, if_true]
      exact ih sub hc

theorem writeAt_self (h : List String) (root items : List Item)
    (hc : contentsAt root h = some items) : writeAt h items root = root := by
  induction h generalizing root with
  | nil =>
    simp only [contentsAt, Option.some.injEq] at hc
    simp [writeAt, hc]
  | cons n rest ih =>
    simp only [contentsAt] at hc
    cases hs : subBucket n root with
    | none => simp [hs] at hc
    | some sub =>
      simp only [hs] at hc
      simp only [writeAt, hs, ih sub hc]
      exact replaceItem_self _ (subBucket_some.1 hs)

theorem writeAt_writeAt (h : List String) (root items new new2 : List Item)
    (hc : contentsAt root h = some items) :
    writeAt h new2 (writeAt h new root) = writeAt h new2 root := by
  induction h generalizing root with
  | nil => simp [writeAt]
  | cons n rest ih =>
    simp only [contentsAt] at hc
    cases hs : subBucket n root with
    | none => simp [hs] at hc
    | some sub =>
      simp only [hs] at hc
      simp only [writeAt, hs, subBucket_replaceItem _ hs, if_true, ih sub hc]
      exact replaceItem_replaceItem _ _ _ rfl

theorem lookupAt_append (root : List Item) (h r : List String) (hr : r ≠ []) :
    lookupAt root (h ++ r) =
      match contentsAt root h with
      | none => none
      | some items => lookupAt items r := by
  induction h generalizing root with
  | nil => simp [contentsAt]
  | cons n rest ih =>
    cases hrr : rest ++ r with
    | nil => simp [hr] at hrr
    | cons k t =>
      simp only [List.cons_append, hrr, lookupAt, contentsAt]
      cases subBucket n root with
      | none => rfl
      | some sub =>
        simp only []
        rw [← hrr]
        exact ih sub

/-- A write through a handle leaves what the store holds at every path that
does not go through that bucket as it was. -/
theorem lookupAt_writeAt (h : List String) (root items new : List Item)
    (hc : contentsAt root h = some items) (q : List String) (hq : ¬ h <+: q) :
    lookupAt (writeAt h new root) q = lookupAt root q := by
  induction h generalizing root q with
  | nil => exact absurd (List.nil_prefix) hq
  | cons n rest ih =>
    simp only [contentsAt] at hc
    cases hs : subBucket n root with
    | none => simp [hs] at hc
    | some sub =>
      simp only [hs] at hc
      simp only [writeAt, hs]
      match q with
      | [] => simp [lookupAt]
      | [k] =>
        simp only [lookupAt]
        rw [@findItem_replaceItem k n (Item.bucket n (writeAt rest new sub)) root rfl]
        by_cases hk : k = n
        · subst hk
          rw [subBucket_some.1 hs]
          simp [entryKind]
        · simp [hk]
      | k :: k2 :: r =>
        simp only [lookupAt, subBucket_replaceItem _ hs]
        by_cases hk : k = n
        · subst hk
          simp only [if_true, hs]
          apply ih sub hc
          intro hp
          exact hq (List.cons_prefix_cons.2 ⟨rfl, hp⟩)
        · simp [hk]

theorem keysUniqueAll_contentsAt {root : List Item} (hu : keysUniqueAll root = true)
    {h : List String} {items : List Item} (hc : contentsAt root h = some items) :
    keysUniqueAll items = true := by
  induction h generalizing root with
  | nil =>
    simp only [contentsAt, Option.some.injEq] at hc
    subst hc
    exact hu
  | cons n rest ih =>
    simp only [contentsAt] at hc
    cases hs : subBucket n root with
    | none => simp [hs] at hc
    | some sub =>
      simp only [hs] at hc
      exact ih (keysUniqueAll_sub hu hs) hc

/-! ## `insertBucket` -/

theorem subBucket_of_contentsAt {db items : List Item} {p0 : String} {rest : List String}
    (hc : contentsAt db (p0 :: rest) = some items) : ∃ sub, subBucket p0 db = some sub := by
  simp only [contentsAt] at hc
  cases hs : subBucket p0 db with
  | none => simp [hs] at hc
  | some sub => exact ⟨sub, rfl⟩

theorem contentsAt_single (db : List Item) (p0 : String) :
    contentsAt db [p0] = subBucket p0 db := by
  simp only [contentsAt]
  cases subBucket p0 db <;> rfl

/-- With a path that resolves to a bucket, `insertBucket` runs `CreateBucket` on
that bucket. -/
theorem insertBucket_resolved (db : Store) (p0 : String) (rest : List String) (n : String)
    (items : List Item) (hc : contentsAt db (p0 :: rest) = some items) :
    insertBucket db (p0 :: rest) n =
      match createBucket n items with
      | .error e => (db, some e)
      | .ok new => (writeAt (p0 :: rest) new db, none) := by
  obtain ⟨sub, hs⟩ := subBucket_of_contentsAt hc
  have hw : insertBucketWalk db [p0] rest = .ok (p0 :: rest) := by
    have := insertBucketWalk_full db [p0] rest (by simp [hc])
    simpa using this
  simp only [insertBucket, dbUpdate, hs, hw, modifyAt_eq _ _ _ _ hc]
  cases createBucket n items <;> rfl

/-- With a path of which only the last segment names no bucket, `insertBucket`
runs `CreateBucket` on the bucket the path without its last segment resolves to. -/
theorem insertBucket_parent (db : Store) (p0 : String) (rest : List String) (n : String)
    (items : List Item) (hne : rest ≠ []) (hnone : contentsAt db (p0 :: rest) = none)
    (hc : contentsAt db (p0 :: rest.dropLast) = some items) :
    insertBucket db (p0 :: rest) n =
      match createBucket n items with
      | .error e => (db, some e)
      | .ok new => (writeAt (p0 :: rest.dropLast) new db, none) := by
  obtain ⟨sub, hs⟩ := subBucket_of_contentsAt hc
  have hw : insertBucketWalk db [p0] rest = .ok (p0 :: rest.dropLast) := by
    have := insertBucketWalk_parent db [p0] rest hne (by simpa using hnone) (by simp [hc])
    simpa using this
  simp only [insertBucket, dbUpdate, hs, hw, modifyAt_eq _ _ _ _ hc]
  cases createBucket n items <;> rfl

theorem insertBucket_unknown_root (db : Store) (p0 : String) (rest : List String) (n : String)
    (h : subBucket p0 db = none) :
    insertBucket db (p0 :: rest) n = (db, some ("insertBucket: Invalid Path " ++ p0)) := by
  simp [insertBucket, dbUpdate, h]

theorem insertBucket_broken (db : Store) (p0 : String) (rest : List String) (n : String)
    (sub : List Item) (hs : subBucket p0 db = some sub) (hne : rest ≠ [])
    (hp : contentsAt db (p0 :: rest.dropLast) = none) :
    insertBucket db (p0 :: rest) n = (db, some "insertBucket: Invalid Path 1") := by
  have hw : insertBucketWalk db [p0] rest = .error "insertBucket: Invalid Path 1" :=
    insertBucketWalk_broken db [p0] rest hne (by simp [contentsAt_single, hs])
      (by simpa using hp)
  simp [insertBucket, dbUpdate, hs, hw]

theorem createBucket_ok {n : String} {items : List Item} (hn : n ≠ "")
    (hfree : findItem n items = none) :
    createBucket n items = .ok (insertItem (.bucket n []) items) := by
  simp [createBucket, hn, hfree]

theorem createBucket_error {n : String} {items : List Item}
    (h : n = "" ∨ findItem n items ≠ none) : ∃ e, createBucket n items = .error e := by
  unfold createBucket
  by_cases hn : n = ""
  · exact ⟨"bucket name required", by simp [hn]⟩
  · rcases h with h | h
    · exact absurd h hn
    · cases hf : findItem n items with
      | none => exact absurd hf h
      | some it =>
        cases it with
        | pair a v => exact ⟨"incompatible value", by simp [hn]⟩
        | bucket a s => exact ⟨"bucket already exists", by simp [hn]⟩

theorem contentsAt_new_child {db items : List Item} {h : List String} {n : String}
    (hc : contentsAt db h = some items) (hfree : findItem n items = none) :
    contentsAt (writeAt h (insertItem (.bucket n []) items) db) (h ++ [n]) = some [] := by
  rw [contentsAt_snoc, contentsAt_writeAt h db items _ hc]
  simp only [Option.some_bind]
  rw [subBucket_some]
  exact findItem_insertItem_self (.bucket n []) items hfree

/-- C12, as stated, fails: in the scenario store the last segment of
`["A", "x"]` names a pair and that of `["A", "zz"]` names nothing, so neither
path resolves to a bucket; `insertBucket` returns nil on both and creates the
new bucket `n` in the bucket `A`. -/
theorem insertBucket_skips_last_segment :
    contentsAt scenarioStore ["A", "x"] = none ∧
    contentsAt scenarioStore ["A", "zz"] = none ∧
    insertBucket scenarioStore ["A", "x"] "n"
      = ([.bucket "A" [.bucket "B" [], .bucket "n" [], .pair "x" "1"]], none) ∧
    insertBucket scenarioStore ["A", "zz"] "n"
      = ([.bucket "A" [.bucket "B" [], .bucket "n" [], .pair "x" "1"]], none) :=
  ⟨rfl, rfl, rfl, rfl⟩

/-- C12, amended: for every store and every non-empty path, `insertBucket`
creates the new, empty bucket as a child of the bucket the full path resolves
to, or, when only the last segment names no bucket (it is missing or names a
pair), as a child of the bucket the path without its last segment resolves to;
what the store holds at paths that do not go through that bucket is unchanged.
When the name is blank or in use in that bucket it returns an error and the
store is unchanged.  When the first segment or a segment before the last names
no bucket it returns an invalid-path error and the store is unchanged. -/
theorem insertBucket_nonempty_path (db : Store) (p0 : String) (rest : List String)
    (n : String) :
    (∀ items : List Item, contentsAt db (p0 :: rest) = some items →
      (n ≠ "" → findItem n items = none →
        ∃ db1, insertBucket db (p0 :: rest) n = (db1, none) ∧
          contentsAt db1 (p0 :: rest) = some (insertItem (.bucket n []) items) ∧
          contentsAt db1 (p0 :: rest ++ [n]) = some [] ∧
          ∀ q, ¬ (p0 :: rest) <+: q → lookupAt db1 q = lookupAt db q) ∧
      (n = "" ∨ findItem n items ≠ none →
        ∃ e, insertBucket db (p0 :: rest) n = (db, some e))) ∧
    (∀ items : List Item, rest ≠ [] → contentsAt db (p0 :: rest) = none →
      contentsAt db (p0 :: rest.dropLast) = some items →
      (n ≠ "" → findItem n items = none →
        ∃ db1, insertBucket db (p0 :: rest) n = (db1, none) ∧
          contentsAt db1 (p0 :: rest.dropLast) = some (insertItem (.bucket n []) items) ∧
          contentsAt db1 (p0 :: rest.dropLast ++ [n]) = some [] ∧
          ∀ q, ¬ (p0 :: rest.dropLast) <+: q → lookupAt db1 q = lookupAt db q) ∧
      (n = "" ∨ findItem n items ≠ none →
        ∃ e, insertBucket db (p0 :: rest) n = (db, some e))) ∧
    (contentsAt db [p0] = none →
      insertBucket db (p0 :: rest) n = (db, some ("insertBucket: Invalid Path " ++ p0))) ∧
    (rest ≠ [] → contentsAt db [p0] ≠ none → contentsAt db (p0 :: rest.dropLast) = none →
      insertBucket db (p0 :: rest) n = (db, some "insertBucket: Invalid Path 1")) := by
  refine ⟨?_, ?_, ?_, ?_⟩
  · intro items hc
    constructor
    · intro hn hfree
      refine ⟨writeAt (p0 :: rest) (insertItem (.bucket n []) items) db, ?_, ?_, ?_, ?_⟩
      · rw [insertBucket_resolved db p0 rest n items hc, createBucket_ok hn hfree]
      · exact contentsAt_writeAt _ _ _ _ hc
      · exact contentsAt_new_child hc hfree
      · intro q hq
        exact lookupAt_writeAt _ _ _ _ hc q hq
    · intro h
      obtain ⟨e, he⟩ := createBucket_error h
      exact ⟨e, by rw [insertBucket_resolved db p0 rest n items hc, he]⟩
  · intro items hne hnone hc
    constructor
    · intro hn hfree
      refine ⟨writeAt (p0 :: rest.dropLast) (insertItem (.bucket n []) items) db, ?_, ?_, ?_, ?_⟩
      · rw [insertBucket_parent db p0 rest n items hne hnone hc, createBucket_ok hn hfree]
      · exact contentsAt_writeAt _ _ _ _ hc
      · exact contentsAt_new_child hc hfree
      · intro q hq
        exact lookupAt_writeAt _ _ _ _ hc q hq
    · intro h
      obtain ⟨e, he⟩ := createBucket_error h
      exact ⟨e, by rw [insertBucket_parent db p0 rest n items hne hnone hc, he]⟩
  · intro h
    rw [contentsAt_single] at h
    exact insertBucket_unknown_root db p0 rest n h
  · intro hne h0 hp
    rw [contentsAt_single] at h0
    cases hs : subBucket p0 db with
    | none => exact absurd hs h0
    | some sub => exact insertBucket_broken db p0 rest n sub hs hne hp

/-! ## `deleteKey` -/

theorem removeItem_absent {k : String} (xs : List Item) (h : findItem k xs = none) :
    removeItem k xs = xs := by
  induction xs with
  | nil => rfl
  | cons x xs ih =>
    have hx : ¬ x.key = k := by
      intro e
      simp [findItem, e] at h
    have hxs : findItem k xs = none := by
      simpa [findItem, hx] using h
    simp [removeItem, hx, ih hxs]

theorem lookupAt_head_congr {k : String} (xs ys : List Item) (r : List String)
    (h : findItem k xs = findItem k ys) : lookupAt xs (k :: r) = lookupAt ys (k :: r) := by
  cases r with
  | nil => simp [lookupAt, h]
  | cons k2 r => simp [lookupAt, subBucket, h]

theorem lookupAt_head_none {k : String} (xs : List Item) (r : List String)
    (h : findItem k xs = none) : lookupAt xs (k :: r) = none := by
  cases r with
  | nil => simp [lookupAt, h]
  | cons k2 r => simp [lookupAt, subBucket, h]

theorem lookupAt_writeAt_self (h : List String) (root items new : List Item)
    (hc : contentsAt root h = some items) :
    lookupAt (writeAt h new root) h = lookupAt root h := by
  induction h generalizing root with
  | nil => simp [lookupAt]
  | cons n rest ih =>
    simp only [contentsAt] at hc
    cases hs : subBucket n root with
    | none => simp [hs] at hc
    | some sub =>
      simp only [hs] at hc
      simp only [writeAt, hs]
      cases rest with
      | nil =>
        simp only [lookupAt]
        rw [@findItem_replaceItem n n (Item.bucket n (writeAt [] new sub)) root rfl,
          subBucket_some.1 hs]
        simp [entryKind]
      | cons k2 r =>
        simp only [lookupAt, subBucket_replaceItem _ hs, if_true, hs]
        exact ih sub hc

theorem deleteKey_snoc (db : Store) (p0 : String) (rest : List String) (last : String) :
    deleteKey db (p0 :: rest ++ [last]) =
      .returned
        (dbUpdate db fun root =>
          match subBucket p0 root with
          | some _ =>
            match walkHandles root [p0] rest with
            | none => .error "deleteKey: Invalid Path"
            | some b =>
              match (contentsAt root b).bind (subBucket last) with
              | none => modifyAt (deletePair last) b root
              | some _ => modifyAt (deleteBucket last) b root
          | none => .error "deleteKey: Invalid Path").1
        (dbUpdate db fun root =>
          match subBucket p0 root with
          | some _ =>
            match walkHandles root [p0] rest with
            | none => .error "deleteKey: Invalid Path"
            | some b =>
              match (contentsAt root b).bind (subBucket last) with
              | none => modifyAt (deletePair last) b root
              | some _ => modifyAt (deleteBucket last) b root
          | none => .error "deleteKey: Invalid Path").2 := by
  cases rest with
  | nil => simp [deleteKey]
  | cons t u =>
    have e : (t :: (u ++ [last])).dropLast = t :: u := by
      rw [← List.cons_append, List.dropLast_concat]
    simp [deleteKey, e]

/-- With a parent path that resolves to a bucket, `deleteKey` removes the entry
of the last segment from that bucket and returns nil. -/
theorem deleteKey_resolved (db : Store) (p0 : String) (rest : List String) (last : String)
    (items : List Item) (hc : contentsAt db (p0 :: rest) = some items) :
    deleteKey db (p0 :: rest ++ [last])
      = .returned (writeAt (p0 :: rest) (removeItem last items) db) none := by
  obtain ⟨sub, hs⟩ := subBucket_of_contentsAt hc
  have hw : walkHandles db [p0] rest = some (p0 :: rest) := by
    rw [walkHandles_eq db [p0] rest (by simp [contentsAt_single, hs])]
    simp [hc]
  rw [deleteKey_snoc]
  simp only [dbUpdate, hs, hw, hc, Option.some_bind]
  cases hb : subBucket last items with
  | some s =>
    have hf := subBucket_some.1 hb
    simp [modifyAt_eq _ _ _ _ hc, deleteBucket, hf]
  | none =>
    simp only [modifyAt_eq _ _ _ _ hc, deletePair]
    cases hf : findItem last items with
    | none => simp
    | some it =>
      cases it with
      | pair a v => simp
      | bucket a s =>
        have := (findItem_some hf).1
        simp only [Item.key] at this
        subst this
        rw [subBucket_some.2 hf] at hb
        simp at hb

theorem deleteKey_unresolved (db : Store) (p0 : String) (rest : List String) (last : String)
    (hc : contentsAt db (p0 :: rest) = none) :
    deleteKey db (p0 :: rest ++ [last]) = .returned db (some "deleteKey: Invalid Path") := by
  rw [deleteKey_snoc]
  cases hs : subBucket p0 db with
  | none => simp [dbUpdate, hs]
  | some sub =>
    have hw : walkHandles db [p0] rest = none := by
      rw [walkHandles_eq db [p0] rest (by simp [contentsAt_single, hs])]
      simp [hc]
    simp [dbUpdate, hs, hw]

/-- What the store holds after the contents of the bucket at `h` lost the entry
`last`: nothing at and below `h ++ [last]`, everything else as before. -/
theorem lookupAt_removed (db items : List Item) (h : List String) (last : String)
    (hc : contentsAt db h = some items) (hu : (items.map Item.key).Nodup) :
    (∀ q, (h ++ [last]) <+: q → lookupAt (writeAt h (removeItem last items) db) q = none) ∧
    (∀ q, ¬ (h ++ [last]) <+: q →
      lookupAt (writeAt h (removeItem last items) db) q = lookupAt db q) := by
  have hc1 := contentsAt_writeAt h db items (removeItem last items) hc
  constructor
  · rintro q ⟨r, rfl⟩
    rw [List.append_assoc, lookupAt_append _ _ _ (by simp), hc1]
    exact lookupAt_head_none _ _ (findItem_removeItem_self items hu)
  · intro q hq
    by_cases hp : h <+: q
    · obtain ⟨r, rfl⟩ := hp
      cases r with
      | nil =>
        rw [List.append_nil]
        exact lookupAt_writeAt_self h db items _ hc
      | cons k r =>
        have hk : k ≠ last := by
          rintro rfl
          apply hq
          exact ⟨r, by simp⟩
        rw [lookupAt_append _ _ _ (by simp), lookupAt_append _ _ _ (by simp), hc1, hc]
        exact lookupAt_head_congr _ _ _ (findItem_removeItem_ne items hk)
    · exact lookupAt_writeAt h db items _ hc q hp

/-- C14: in a store whose buckets hold every key once, `deleteKey` on a
one-segment path that names a root bucket returns nil and removes that bucket
with everything in it, and on a one-segment path that names no root bucket it
returns an error and changes nothing.  On a longer path whose parent path
resolves to a bucket it removes the entry the last segment names in that bucket
(a sub-bucket with everything in it, or a pair) and returns nil; when the last
segment names no entry there it returns and the store is unchanged.  In both
cases what the store holds at every path outside the removed entry is as
before.  When the parent path does not resolve it returns an invalid-path error
and the store is unchanged. -/
theorem deleteKey_removes_entry (db : Store) (hu : keysUniqueAll db = true) :
    (∀ (p0 : String) (sub : List Item), subBucket p0 db = some sub →
      ∃ db1, deleteKey db [p0] = .returned db1 none ∧ db1 = removeItem p0 db ∧
        (∀ q, [p0] <+: q → lookupAt db1 q = none) ∧
        (∀ q, ¬ [p0] <+: q → lookupAt db1 q = lookupAt db q)) ∧
    (∀ p0 : String, subBucket p0 db = none →
      ∃ e, deleteKey db [p0] = .returned db (some e)) ∧
    (∀ (p0 : String) (rest : List String) (last : String) (items : List Item),
      contentsAt db (p0 :: rest) = some items →
      ∃ db1 e, deleteKey db (p0 :: rest ++ [last]) = .returned db1 e ∧
        (findItem last items ≠ none → e = none) ∧
        contentsAt db1 (p0 :: rest) = some (removeItem last items) ∧
        (∀ q, (p0 :: rest ++ [last]) <+: q → lookupAt db1 q = none) ∧
        (∀ q, ¬ (p0 :: rest ++ [last]) <+: q → lookupAt db1 q = lookupAt db q) ∧
        (findItem last items = none → db1 = db)) ∧
    (∀ (p0 : String) (rest : List String) (last : String),
      contentsAt db (p0 :: rest) = none →
      deleteKey db (p0 :: rest ++ [last]) = .returned db (some "deleteKey: Invalid Path")) := by
  refine ⟨?_, ?_, ?_, ?_⟩
  · intro p0 sub hs
    have hf := subBucket_some.1 hs
    have h := lookupAt_removed db db [] p0 rfl (keysUniqueAll_nodup hu)
    simp only [writeAt, List.nil_append] at h
    exact ⟨removeItem p0 db, by simp [deleteKey, dbUpdate, deleteBucket, hf], rfl, h.1, h.2⟩
  · intro p0 hs
    cases hf : findItem p0 db with
    | none => exact ⟨"bucket not found", by simp [deleteKey, dbUpdate, deleteBucket, hf]⟩
    | some it =>
      cases it with
      | pair a v => exact ⟨"incompatible value", by simp [deleteKey, dbUpdate, deleteBucket, hf]⟩
      | bucket a s =>
        have := (findItem_some hf).1
        simp only [Item.key] at this
        subst this
        rw [subBucket_some.2 hf] at hs
        simp at hs
  · intro p0 rest last items hc
    have h := lookupAt_removed db items (p0 :: rest) last hc
      (keysUniqueAll_nodup (keysUniqueAll_contentsAt hu hc))
    refine ⟨_, none, deleteKey_resolved db p0 rest last items hc, fun _ => rfl,
      contentsAt_writeAt _ _ _ _ hc, h.1, h.2, ?_⟩
    intro hf
    rw [removeItem_absent items hf]
    exact writeAt_self _ _ _ hc
  · intro p0 rest last hc
    exact deleteKey_unresolved db p0 rest last hc

/-- Witness for C14: the scenario store, whose buckets hold every key once. -/
theorem deleteKey_removes_entry_witness :
    keysUniqueAll scenarioStore = true ∧
    deleteKey scenarioStore ["A", "x"] = .returned [.bucket "A" [.bucket "B" []]] none ∧
    deleteKey scenarioStore ["A", "B"] = .returned [.bucket "A" [.pair "x" "1"]] none ∧
    deleteKey scenarioStore ["A"] = .returned [] none ∧
    deleteKey scenarioStore ["Q", "x"]
      = .returned scenarioStore (some "deleteKey: Invalid Path") ∧
    (∃ db1 e, deleteKey scenarioStore (["A"] ++ ["x"]) = .returned db1 e ∧
      (findItem "x" [.bucket "B" [], .pair "x" "1"] ≠ none → e = none) ∧
      contentsAt db1 ["A"] = some (removeItem "x" [.bucket "B" [], .pair "x" "1"]) ∧
      (∀ q, (["A"] ++ ["x"]) <+: q → lookupAt db1 q = none) ∧
      (∀ q, ¬ (["A"] ++ ["x"]) <+: q → lookupAt db1 q = lookupAt scenarioStore q) ∧
      (findItem "x" [.bucket "B" [], .pair "x" "1"] = none → db1 = scenarioStore)) :=
  ⟨by decide, rfl, rfl, rfl, rfl,
    (deleteKey_removes_entry scenarioStore (by decide)).2.2.1 "A" [] "x"
      [.bucket "B" [], .pair "x" "1"] rfl⟩

/-! ## Insert, then delete -/

/-- C15, as stated, fails at the blank name: it is not in use, at the root or
in the bucket `A` of the scenario store, and `insertBucket` does not succeed
with it; the store rejects a blank bucket name. -/
theorem insertBucket_blank_name_fails :
    findItem "" ([] : List Item) = none ∧
    insertBucket [] [] "" = ([], some "insertBucket: bucket name required") ∧
    contentsAt scenarioStore ["A"] = some [.bucket "B" [], .pair "x" "1"] ∧
    findItem "" [.bucket "B" [], .pair "x" "1"] = none ∧
    insertBucket scenarioStore ["A"] "" = (scenarioStore, some "bucket name required") :=
  ⟨rfl, rfl, rfl, rfl, rfl⟩

/-- C15, amended: for every store, every path that is empty or resolves to a
bucket, and every name that is not blank and not in use in that bucket,
`insertBucket(path, name)` returns nil, and `deleteKey(path + [name])` on the
store it leaves returns nil and leaves the store equal to the one before the
insert. -/
theorem insertBucket_then_deleteKey (db : Store) (path : List String) (n : String)
    (items : List Item) (hn : n ≠ "") (hc : contentsAt db path = some items)
    (hfree : findItem n items = none) :
    ∃ db1, insertBucket db path n = (db1, none) ∧
      deleteKey db1 (path ++ [n]) = .returned db none := by
  cases path with
  | nil =>
    simp only [contentsAt, Option.some.injEq] at hc
    subst hc
    refine ⟨insertItem (.bucket n []) db, ?_, ?_⟩
    · simp [insertBucket, dbUpdate, createBucket_ok hn hfree]
    · have hf := findItem_insertItem_self (.bucket n []) db hfree
      simp only [Item.key] at hf
      have hr := removeItem_insertItem (.bucket n []) db hfree
      simp only [Item.key] at hr
      simp [deleteKey, dbUpdate, deleteBucket, hf, hr]
  | cons p0 rest =>
    refine ⟨writeAt (p0 :: rest) (insertItem (.bucket n []) items) db, ?_, ?_⟩
    · rw [insertBucket_resolved db p0 rest n items hc, createBucket_ok hn hfree]
    · have hc1 := contentsAt_writeAt (p0 :: rest) db items (insertItem (.bucket n []) items) hc
      have hr := removeItem_insertItem (.bucket n []) items hfree
      simp only [Item.key] at hr
      rw [deleteKey_resolved _ p0 rest n _ hc1, hr,
        writeAt_writeAt _ _ _ _ _ hc, writeAt_self _ _ _ hc]

/-- Witness for C15: inserting `t` at the root of the scenario store, then
deleting `["t"]`; and inserting `t` into the bucket `A`, then deleting
`["A", "t"]`. -/
theorem insertBucket_then_deleteKey_witness :
    (∃ db1, insertBucket scenarioStore [] "t" = (db1, none) ∧
      deleteKey db1 ([] ++ ["t"]) = .returned scenarioStore none) ∧
    insertBucket scenarioStore [] "t"
      = ([.bucket "A" [.bucket "B" [], .pair "x" "1"], .bucket "t" []], none) ∧
    deleteKey [.bucket "A" [.bucket "B" [], .pair "x" "1"], .bucket "t" []] ["t"]
      = .returned scenarioStore none ∧
    insertBucket scenarioStore ["A"] "t"
      = ([.bucket "A" [.bucket "B" [], .bucket "t" [], .pair "x" "1"]], none) ∧
    deleteKey [.bucket "A" [.bucket "B" [], .bucket "t" [], .pair "x" "1"]] ["A", "t"]
      = .returned scenarioStore none :=
  ⟨insertBucket_then_deleteKey scenarioStore [] "t" scenarioStore (by decide) rfl rfl,
    rfl, rfl, rfl, rfl⟩

/-! ## Writing pairs -/

theorem putPair_ok {k v : String} {items : List Item} (hk : k ≠ "")
    (hks : k.utf8ByteSize ≤ 32768) (hvs : v.utf8ByteSize ≤ 2147483646)
    (hb : subBucket k items = none) :
    ∃ new, putPair k v items = .ok new ∧ findItem k new = some (.pair k v) ∧
      (∀ x, x ≠ k → findItem x new = findItem x items) ∧
      ((items.map Item.key).Nodup → (new.map Item.key).Nodup) := by
  have h1 : ¬ k.utf8ByteSize > 32768 := by omega
  have h2 : ¬ v.utf8ByteSize > 2147483646 := by omega
  unfold putPair
  simp only [hk, h1, h2, if_false]
  cases hf : findItem k items with
  | none =>
    refine ⟨_, rfl, ?_, ?_, ?_⟩
    · exact findItem_insertItem_self (.pair k v) items hf
    · intro x hx
      exact findItem_insertItem_ne (.pair k v) items (fun e => hx e.symm)
    · intro hnd
      refine (keys_insertItem (.pair k v) items).nodup_iff.2 ?_
      simp only [Item.key, List.nodup_cons, List.mem_map, not_exists, not_and]
      exact ⟨fun y hy => findItem_none.1 hf y hy, hnd⟩
  | some it =>
    cases it with
    | bucket a s =>
      have := (findItem_some hf).1
      simp only [Item.key] at this
      subst this
      rw [subBucket_some.2 hf] at hb
      simp at hb
    | pair a w =>
      refine ⟨_, rfl, ?_, ?_, ?_⟩
      · rw [@findItem_replaceItem k k (Item.pair k v) items rfl, hf]
        simp
      · intro x hx
        rw [@findItem_replaceItem x k (Item.pair k v) items rfl]
        simp [hx]
      · intro hnd
        rw [@keys_replaceItem k (Item.pair k v) items rfl]
        exact hnd

theorem insertPair_resolved (db : Store) (p0 : String) (rest : List String) (k v : String)
    (items : List Item) (hc : contentsAt db (p0 :: rest) = some items) :
    insertPair db (p0 :: rest) k v =
      match putPair k v items with
      | .error e => (db, some ("insertPair: " ++ e))
      | .ok new => (writeAt (p0 :: rest) new db, none) := by
  obtain ⟨sub, hs⟩ := subBucket_of_contentsAt hc
  have hw : walkHandles db [p0] rest = some (p0 :: rest) := by
    rw [walkHandles_eq db [p0] rest (by simp [contentsAt_single, hs])]
    simp [hc]
  simp only [insertPair, dbUpdate, hs, hw, modifyAt_eq _ _ _ _ hc]
  cases putPair k v items <;> rfl

theorem updatePairValue_resolved (db : Store) (p0 : String) (rest : List String)
    (k v : String) (items : List Item) (hc : contentsAt db (p0 :: rest) = some items) :
    updatePairValue db (p0 :: rest ++ [k]) v =
      match putPair k v items with
      | .error e => .returned db (some e)
      | .ok new => .returned (writeAt (p0 :: rest) new db) none := by
  obtain ⟨sub, hs⟩ := subBucket_of_contentsAt hc
  have hw : walkHandles db [p0] rest = some (p0 :: rest) := by
    rw [walkHandles_eq db [p0] rest (by simp [contentsAt_single, hs])]
    simp [hc]
  cases rest with
  | nil =>
    simp only [List.cons_append, List.nil_append, updatePairValue, dbUpdateAbort, hs,
      List.dropLast_single, List.getLast_singleton, walkHandles, modifyAt_eq _ _ _ _ hc]
    cases putPair k v items <;> rfl
  | cons t u =>
    have e : (t :: (u ++ [k])).dropLast = t :: u := by
      rw [← List.cons_append, List.dropLast_concat]
    have e2 : (t :: (u ++ [k])).getLast (by simp) = k := by
      rw [List.getLast_cons (by simp)]
      simp
    simp only [List.cons_append, updatePairValue, dbUpdateAbort, hs, e, e2, hw,
      modifyAt_eq _ _ _ _ hc]
    cases putPair k v items <;> rfl

theorem updatePairKey_resolved (db : Store) (p0 : String) (rest : List String)
    (bk k : String) (items : List Item) (hc : contentsAt db (p0 :: rest) = some items) :
    updatePairKey db (p0 :: rest ++ [bk]) k =
      match deletePair bk items with
      | .error e => .returned db (some e)
      | .ok items1 =>
        match putPair k ((getValue bk items).getD "") items1 with
        | .error e => .returned db (some e)
        | .ok new => .returned (writeAt (p0 :: rest) new db) none := by
  obtain ⟨sub, hs⟩ := subBucket_of_contentsAt hc
  have hw : walkHandles db [p0] rest = some (p0 :: rest) := by
    rw [walkHandles_eq db [p0] rest (by simp [contentsAt_single, hs])]
    simp [hc]
  have hmain : (match modifyAt (deletePair bk) (p0 :: rest) db with
      | Except.error e => some (Except.error e)
      | Except.ok root1 =>
        some (modifyAt (putPair k (((contentsAt db (p0 :: rest)).bind (getValue bk)).getD ""))
          (p0 :: rest) root1)) =
      (match deletePair bk items with
      | Except.error e => (some (Except.error e) : Option (Except String (List Item)))
      | Except.ok items1 =>
        match putPair k ((getValue bk items).getD "") items1 with
        | Except.error e => some (Except.error e)
        | Except.ok new => some (Except.ok (writeAt (p0 :: rest) new db))) := by
    rw [modifyAt_eq _ _ _ _ hc, hc]
    cases hd : deletePair bk items with
    | error e => rfl
    | ok items1 =>
      simp only [Option.some_bind]
      rw [modifyAt_eq _ _ _ items1 (contentsAt_writeAt _ _ _ _ hc)]
      cases putPair k ((getValue bk items).getD "") items1 with
      | error e => rfl
      | ok new => simp only [writeAt_writeAt _ _ _ _ _ hc]
  cases rest with
  | nil =>
    simp only [List.cons_append, List.nil_append, updatePairKey, dbUpdateAbort, hs,
      List.dropLast_single, List.getLast_singleton, walkHandles]
    rw [hmain]
    cases deletePair bk items with
    | error e => rfl
    | ok items1 =>
      dsimp only
      cases putPair k ((getValue bk items).getD "") items1 <;> rfl
  | cons t u =>
    have e : (t :: (u ++ [bk])).dropLast = t :: u := by
      rw [← List.cons_append, List.dropLast_concat]
    have e2 : (t :: (u ++ [bk])).getLast (by simp) = bk := by
      rw [List.getLast_cons (by simp)]
      simp
    simp only [List.cons_append, updatePairKey, dbUpdateAbort, hs, e, e2, hw]
    rw [hmain]
    cases deletePair bk items with
    | error e => rfl
    | ok items1 =>
      dsimp only
      cases putPair k ((getValue bk items).getD "") items1 <;> rfl

theorem subBucket_of_pair {k a b : String} {xs : List Item}
    (h : findItem k xs = some (.pair a b)) : subBucket k xs = none := by
  simp [subBucket, h]

theorem subBucket_congr {k : String} {xs ys : List Item} (h : findItem k xs = findItem k ys) :
    subBucket k xs = subBucket k ys := by
  simp [subBucket, h]

theorem lookupAt_below_no_bucket {x : String} (xs : List Item) (y : String) (r : List String)
    (h : subBucket x xs = none) : lookupAt xs (x :: y :: r) = none := by
  simp [lookupAt, h]

/-- C16, amended: in a store whose buckets hold every key once, let the
non-empty path `P` resolve to a bucket, let `k` and `k2` be different, non-blank
keys of at most 32768 bytes that name no sub-bucket of it, and let `v` and `v2`
be values of at most 2147483646 bytes.  Then `insertPair(P, k, v)` and
`updatePairValue(P + [k], v2)` return nil and the store holds `v2` at `P + [k]`;
a further `updatePairKey(P + [k], k2)` returns nil, after it the store holds
`v2` at `P + [k2]` and nothing at `P + [k]`, and what it holds at every other
path is unchanged. -/
theorem pair_value_then_key (db : Store) (p0 : String) (rest : List String)
    (k k2 v v2 : String) (items : List Item) (hu : keysUniqueAll db = true)
    (hc : contentsAt db (p0 :: rest) = some items) (hk : k ≠ "") (hk2 : k2 ≠ "")
    (hne : k ≠ k2) (hkb : subBucket k items = none) (hk2b : subBucket k2 items = none)
    (hks : k.utf8ByteSize ≤ 32768) (hk2s : k2.utf8ByteSize ≤ 32768)
    (hvs : v.utf8ByteSize ≤ 2147483646) (hv2s : v2.utf8ByteSize ≤ 2147483646) :
    ∃ db1 db2 db3,
      insertPair db (p0 :: rest) k v = (db1, none) ∧
      updatePairValue db1 (p0 :: rest ++ [k]) v2 = .returned db2 none ∧
      lookupAt db2 (p0 :: rest ++ [k]) = some (some v2) ∧
      updatePairKey db2 (p0 :: rest ++ [k]) k2 = .returned db3 none ∧
      lookupAt db3 (p0 :: rest ++ [k2]) = some (some v2) ∧
      lookupAt db3 (p0 :: rest ++ [k]) = none ∧
      ∀ q, q ≠ p0 :: rest ++ [k] → q ≠ p0 :: rest ++ [k2] →
        lookupAt db3 q = lookupAt db2 q := by
  have hnd : (items.map Item.key).Nodup :=
    keysUniqueAll_nodup (keysUniqueAll_contentsAt hu hc)
  obtain ⟨i1, hp1, hf1, hne1, hnd1⟩ := putPair_ok hk hks hvs hkb
  have hc1 := contentsAt_writeAt (p0 :: rest) db items i1 hc
  obtain ⟨i2, hp2, hf2, hne2, hnd2⟩ := putPair_ok hk hks hv2s (subBucket_of_pair hf1)
  have hc2 := contentsAt_writeAt (p0 :: rest) _ i1 i2 hc1
  have hk2k : k2 ≠ k := fun e => hne e.symm
  have hfk2 : findItem k2 (removeItem k i2) = findItem k2 items := by
    rw [findItem_removeItem_ne i2 hk2k, hne2 k2 hk2k, hne1 k2 hk2k]
  obtain ⟨i3, hp3, hf3, hne3, _⟩ := putPair_ok hk2 hk2s hv2s
    ((subBucket_congr hfk2).trans hk2b)
  have hgone : findItem k i3 = none := by
    rw [hne3 k hne]
    exact findItem_removeItem_self i2 (hnd2 (hnd1 hnd))
  have hdel : deletePair k i2 = .ok (removeItem k i2) := by
    simp [deletePair, hf2]
  have hget : (getValue k i2).getD "" = v2 := by
    simp [getValue, hf2]
  have hc3 := contentsAt_writeAt (p0 :: rest) _ i2 i3 hc2
  refine ⟨writeAt (p0 :: rest) i1 db, writeAt (p0 :: rest) i2 (writeAt (p0 :: rest) i1 db),
    writeAt (p0 :: rest) i3 (writeAt (p0 :: rest) i2 (writeAt (p0 :: rest) i1 db)),
    ?_, ?_, ?_, ?_, ?_, ?_, ?_⟩
  · rw [insertPair_resolved db p0 rest k v items hc, hp1]
  · rw [updatePairValue_resolved _ p0 rest k v2 i1 hc1, hp2]
  · rw [lookupAt_append _ _ _ (by simp), hc2]
    simp [lookupAt, hf2, entryKind]
  · rw [updatePairKey_resolved _ p0 rest k k2 i2 hc2, hdel]
    simp only [hget, hp3]
  · rw [lookupAt_append _ _ _ (by simp), hc3]
    simp [lookupAt, hf3, entryKind]
  · rw [lookupAt_append _ _ _ (by simp), hc3]
    simp [lookupAt, hgone]
  · intro q hq1 hq2
    by_cases hp : (p0 :: rest) <+: q
    · obtain ⟨r, rfl⟩ := hp
      cases r with
      | nil =>
        rw [List.append_nil]
        exact lookupAt_writeAt_self _ _ i2 i3 hc2
      | cons x r =>
        rw [lookupAt_append _ _ _ (by simp), lookupAt_append _ _ _ (by simp), hc3, hc2]
        dsimp only
        by_cases hxk : x = k
        · subst hxk
          cases r with
          | nil => exact absurd rfl hq1
          | cons y r =>
            rw [lookupAt_below_no_bucket i3 y r (by simp [subBucket, hgone]),
              lookupAt_below_no_bucket i2 y r (subBucket_of_pair hf2)]
        · by_cases hxk2 : x = k2
          · subst hxk2
            cases r with
            | nil => exact absurd rfl hq2
            | cons y r =>
              have hb2 : subBucket x i2 = none := by
                rw [subBucket_congr ((hne2 x hk2k).trans (hne1 x hk2k))]
                exact hk2b
              rw [lookupAt_below_no_bucket i3 y r (subBucket_of_pair hf3),
                lookupAt_below_no_bucket i2 y r hb2]
          · apply lookupAt_head_congr
            rw [hne3 x hxk2, findItem_removeItem_ne i2 hxk]
    · exact lookupAt_writeAt _ _ i2 i3 hc2 q hp

/-- Witness for C16: in the scenario store, `insertPair(["A"], "k", "v")`, then
`updatePairValue(["A", "k"], "v2")`, then `updatePairKey(["A", "k"], "k2")`. -/
theorem pair_value_then_key_witness :
    insertPair scenarioStore ["A"] "k" "v"
      = ([.bucket "A" [.bucket "B" [], .pair "k" "v", .pair "x" "1"]], none) ∧
    updatePairValue [.bucket "A" [.bucket "B" [], .pair "k" "v", .pair "x" "1"]] ["A", "k"] "v2"
      = .returned [.bucket "A" [.bucket "B" [], .pair "k" "v2", .pair "x" "1"]] none ∧
    updatePairKey [.bucket "A" [.bucket "B" [], .pair "k" "v2", .pair "x" "1"]] ["A", "k"] "k2"
      = .returned [.bucket "A" [.bucket "B" [], .pair "k2" "v2", .pair "x" "1"]] none ∧
    (∃ db1 db2 db3,
      insertPair scenarioStore (["A"]) "k" "v" = (db1, none) ∧
      updatePairValue db1 (["A"] ++ ["k"]) "v2" = .returned db2 none ∧
      lookupAt db2 (["A"] ++ ["k"]) = some (some "v2") ∧
      updatePairKey db2 (["A"] ++ ["k"]) "k2" = .returned db3 none ∧
      lookupAt db3 (["A"] ++ ["k2"]) = some (some "v2") ∧
      lookupAt db3 (["A"] ++ ["k"]) = none ∧
      ∀ q, q ≠ ["A"] ++ ["k"] → q ≠ ["A"] ++ ["k2"] → lookupAt db3 q = lookupAt db2 q) :=
  ⟨rfl, rfl, rfl,
    pair_value_then_key scenarioStore "A" [] "k" "k2" "v" "v2" [.bucket "B" [], .pair "x" "1"]
      (by decide) rfl (by decide) (by decide) (by decide) rfl rfl (by decide) (by decide)
      (by decide) (by decide)⟩

theorem utf8ByteSize_go_replicate (n : Nat) :
    String.utf8ByteSize.go (List.replicate n 'a') = n := by
  induction n with
  | zero => rfl
  | succ n ih =>
    have h1 : ('a').utf8Size = 1 := by decide
    rw [List.replicate_succ]
    show String.utf8ByteSize.go (List.replicate n 'a') + ('a').utf8Size = n + 1
    rw [ih, h1]

theorem longKey_utf8ByteSize : longKey.utf8ByteSize = 32769 :=
  utf8ByteSize_go_replicate 32769

theorem longKey_length : longKey.length = 32769 :=
  List.length_replicate 32769 'a'

theorem longKey_ne (s : String) (h : s.length < 32769) : longKey ≠ s := by
  intro e
  rw [← e, longKey_length] at h
  exact absurd h (lt_irrefl _)

theorem putPair_key_too_large {k : String} (v : String) (items : List Item) (hk : k ≠ "")
    (hks : 32768 < k.utf8ByteSize) : putPair k v items = .error "key too large" := by
  simp [putPair, hk, hks]

/-- C16, counterexample: in the scenario store the path `["A"]` resolves to a
bucket, and the key of 32769 bytes `longKey` is non-empty, differs from `"k2"`
and names no sub-bucket of it; yet `insertPair(["A"], longKey, "v")` fails with
"insertPair: key too large", `updatePairValue(["A", longKey], "v2")` fails with
"key too large", both leave the store as it was, and nothing is stored at
`["A", longKey]`. -/
theorem insertPair_rejects_long_key :
    contentsAt scenarioStore ["A"] = some [.bucket "B" [], .pair "x" "1"] ∧
    longKey ≠ "" ∧ longKey ≠ "k2" ∧
    subBucket longKey [.bucket "B" [], .pair "x" "1"] = none ∧
    subBucket "k2" [.bucket "B" [], .pair "x" "1"] = none ∧
    insertPair scenarioStore ["A"] longKey "v"
      = (scenarioStore, some "insertPair: key too large") ∧
    updatePairValue scenarioStore ["A", longKey] "v2"
      = .returned scenarioStore (some "key too large") ∧
    lookupAt scenarioStore ["A", longKey] = none := by
  have h0 : longKey ≠ "" := longKey_ne "" (by decide)
  have hB : longKey ≠ "B" := longKey_ne "B" (by decide)
  have hx : longKey ≠ "x" := longKey_ne "x" (by decide)
  have hc : contentsAt scenarioStore ["A"] = some [.bucket "B" [], .pair "x" "1"] := rfl
  have hbig : 32768 < longKey.utf8ByteSize := by
    rw [longKey_utf8ByteSize]
    exact Nat.lt_succ_self _
  have hf : findItem longKey [.bucket "B" [], .pair "x" "1"] = none := by
    simp [findItem, Item.key, hB.symm, hx.symm]
  refine ⟨hc, h0, longKey_ne "k2" (by decide), ?_, rfl, ?_, ?_, ?_⟩
  · simp [subBucket, hf]
  · rw [insertPair_resolved scenarioStore "A" [] longKey "v" _ hc,
      putPair_key_too_large "v" _ h0 hbig]
    rfl
  · rw [show (["A", longKey] : List String) = "A" :: [] ++ [longKey] from rfl,
      updatePairValue_resolved scenarioStore "A" [] longKey "v2" _ hc,
      putPair_key_too_large "v2" _ h0 hbig]
  · rw [show (["A", longKey] : List String) = "A" :: [] ++ [longKey] from rfl,
      lookupAt_append _ _ _ (by simp), hc]
    simp [lookupAt, hf]

/-! ## Every visible entry is addressable -/

theorem lookupBucket_of_nodup {bs : List BoltBucket} (h : (bs.map BoltBucket.name).Nodup)
    {c : BoltBucket} (hc : c ∈ bs) : ∃ i, lookupBucket c.name bs = some (i, c) := by
  induction bs with
  | nil => cases hc
  | cons b rest ih =>
    rw [List.map_cons, List.nodup_cons] at h
    rcases List.mem_cons.1 hc with rfl | hc
    · exact ⟨0, by simp [lookupBucket]⟩
    · obtain ⟨i, hi⟩ := ih h.2 hc
      refine ⟨i + 1, ?_⟩
      have hne : ¬ b.name = c.name := fun e => h.1 (e ▸ List.mem_map_of_mem _ hc)
      simp [lookupBucket, hne, hi]

theorem lookupPair_of_mem {ps : List BoltPair} {p : BoltPair} (hp : p ∈ ps) :
    ∃ i q, lookupPair p.key ps = some (i, q) ∧ q ∈ ps ∧ q.key = p.key := by
  induction ps with
  | nil => cases hp
  | cons a rest ih =>
    by_cases ha : a.key = p.key
    · exact ⟨0, a, by simp [lookupPair, ha], by simp, ha⟩
    · rcases List.mem_cons.1 hp with rfl | hp
      · exact absurd rfl ha
      · obtain ⟨i, q, hl, hq, hk⟩ := ih hp
        exact ⟨i + 1, q, by simp [lookupPair, ha, hl], List.mem_cons_of_mem _ hq, hk⟩

theorem lookupPair_none {k : String} {ps : List BoltPair} (h : k ∉ ps.map BoltPair.key) :
    lookupPair k ps = none := by
  induction ps with
  | nil => simp [lookupPair]
  | cons a rest ih =>
    rw [List.map_cons, List.mem_cons, not_or] at h
    have ha : ¬ a.key = k := fun e => h.1 e.symm
    simp [lookupPair, ha, ih h.2]

theorem namesDistinct_parts {b : BoltBucket} (h : b.namesDistinct = true) :
    '/' ∉ b.name.data ∧ (∀ p ∈ b.pairs, '/' ∉ p.key.data) ∧
      (b.buckets.map BoltBucket.name ++ b.pairs.map BoltPair.key).Nodup ∧
      namesDistinctAll b.buckets = true := by
  cases b
  simp only [BoltBucket.namesDistinct, Bool.and_eq_true, decide_eq_true_eq,
    List.all_eq_true] at h
  exact ⟨h.1.1.1, h.1.1.2, h.1.2, h.2⟩

theorem namesDistinctAll_mem {bs : List BoltBucket} (h : namesDistinctAll bs = true)
    {c : BoltBucket} (hc : c ∈ bs) : c.namesDistinct = true := by
  induction bs with
  | nil => cases hc
  | cons b rest ih =>
    simp only [namesDistinctAll, Bool.and_eq_true] at h
    rcases List.mem_cons.1 hc with rfl | hc
    · exact h.1
    · exact ih h.2 hc

theorem pair_GetPath {b : BoltBucket} {p : BoltPair} (hb : b.parentsOk = true)
    (hp : p ∈ b.pairs) : p.GetPath = some (b.GetPath ++ [p.key]) := by
  have hpar : p.parent = .ref b.name b.parent := by
    cases b
    simp only [BoltBucket.parentsOk, Bool.and_eq_true, List.all_eq_true,
      decide_eq_true_eq] at hb
    exact hb.1 p hp
  unfold BoltPair.GetPath
  rw [hpar]
  simp only [BucketRef.GetPath_ref, ← BoltBucket.GetPath_eq]

theorem resolvesTo_bucket {m : BoltDB} {X : List String} {a : List Nat} {b : BoltBucket}
    (hp : m.parentsOk = true) (hr : m.getBucketFromPath m X = .ok ⟨a, b⟩)
    (hnp : ∃ e, m.getPairFromPath m X = .error e) : ResolvesTo m X := by
  obtain ⟨e, he⟩ := hnp
  exact Or.inl ⟨⟨a, b⟩, by simp [BoltDB.getGenericFromPath, he, hr],
    (resolved_bucket_GetPath hp hr).1⟩

theorem resolvesTo_pair {m : BoltDB} {X : List String} {a : List Nat} {b : BoltBucket}
    {p : BoltPair} (hp : m.parentsOk = true) (hr : m.getBucketFromPath m X = .ok ⟨a, b⟩)
    (hm : p ∈ b.pairs) : ResolvesTo m (X ++ [p.key]) := by
  obtain ⟨i, q, hl, hq, hk⟩ := lookupPair_of_mem hm
  obtain ⟨hpath, hok⟩ := resolved_bucket_GetPath hp hr
  refine Or.inr ⟨⟨a, i, q⟩, ?_, ?_⟩
  · apply getGenericFromPath_of_pair
    rw [getPairFromPath_snoc, hr]
    simp [BucketPtr.getPair, hl]
  · show q.GetPath = some (X ++ [p.key])
    rw [pair_GetPath hok hq, hk]
    exact congrArg (fun t => some (t ++ [p.key])) hpath

theorem child_resolves {m : BoltDB} {X : List String} {a : List Nat} {b c : BoltBucket}
    (hX : X ≠ []) (hr : m.getBucketFromPath m X = .ok ⟨a, b⟩)
    (hb : b.namesDistinct = true) (hc : c ∈ b.buckets) :
    (∃ a1, m.getBucketFromPath m (X ++ [c.name]) = .ok ⟨a1, c⟩) ∧
      ∃ e, m.getPairFromPath m (X ++ [c.name]) = .error e := by
  obtain ⟨_, _, hnd, _⟩ := namesDistinct_parts hb
  obtain ⟨i, hi⟩ := lookupBucket_of_nodup (List.Nodup.of_append_left hnd) hc
  have hk : c.name ∉ b.pairs.map BoltPair.key :=
    fun h => (List.nodup_append.1 hnd).2.2 (List.mem_map_of_mem _ hc) h
  refine ⟨⟨a ++ [i], ?_⟩, ⟨"Pair Not Found", ?_⟩⟩
  · rw [getBucketFromPath_snoc m m X c.name hX, hr]
    simp [BucketPtr.getBucket, hi]
  · rw [getPairFromPath_snoc, hr]
    simp [BucketPtr.getPair, lookupPair_none hk]

mutual
theorem visibleSegs_resolve (m : BoltDB) (hp : m.parentsOk = true) (b : BoltBucket)
    (pre : List String) (a : List Nat) (hb : b.namesDistinct = true)
    (hr : m.getBucketFromPath m (pre ++ [b.name]) = .ok ⟨a, b⟩)
    (hnp : ∃ e, m.getPairFromPath m (pre ++ [b.name]) = .error e) :
    ∀ X ∈ visibleSegs pre b, ResolvesTo m X := by
  match b with
  | ⟨name, pairs, buckets, parent, expanded, errorFlag⟩ =>
    intro X hX
    simp only [visibleSegs, List.mem_cons] at hX
    rcases hX with rfl | hX
    · exact resolvesTo_bucket hp hr hnp
    · cases expanded with
      | false => simp at hX
      | true =>
        simp only [if_true, List.mem_append] at hX
        rcases hX with hX | hX
        · exact visibleSegsAll_resolve m hp buckets (pre ++ [name])
            (namesDistinct_parts hb).2.2.2
            (fun c hc => child_resolves (by simp) hr hb hc) X hX
        · obtain ⟨p, hpm, rfl⟩ := List.mem_map.1 hX
          exact resolvesTo_pair hp hr hpm
theorem visibleSegsAll_resolve (m : BoltDB) (hp : m.parentsOk = true) (bs : List BoltBucket)
    (pre : List String) (hbs : namesDistinctAll bs = true)
    (hall : ∀ c ∈ bs, (∃ a, m.getBucketFromPath m (pre ++ [c.name]) = .ok ⟨a, c⟩) ∧
      ∃ e, m.getPairFromPath m (pre ++ [c.name]) = .error e) :
    ∀ X ∈ visibleSegsAll pre bs, ResolvesTo m X := by
  match bs with
  | [] => intro X hX; simp [visibleSegsAll] at hX
  | b :: rest =>
    intro X hX
    simp only [visibleSegsAll, List.mem_append] at hX
    simp only [namesDistinctAll, Bool.and_eq_true] at hbs
    rcases hX with hX | hX
    · obtain ⟨⟨a, hr⟩, hnp⟩ := hall b (by simp)
      exact visibleSegs_resolve m hp b pre a hbs.1 hr hnp X hX
    · exact visibleSegsAll_resolve m hp rest pre hbs.2
        (fun c hc => hall c (List.mem_cons_of_mem _ hc)) X hX
end

mutual
theorem visibleOrder_eq_segs (pre : List String) (b : BoltBucket) :
    visibleOrder pre b = (visibleSegs pre b).map (fun X => stringsJoin X "/") := by
  match b with
  | ⟨name, pairs, buckets, parent, expanded, errorFlag⟩ =>
    cases expanded with
    | false => simp [visibleOrder, visibleSegs]
    | true =>
      simp [visibleOrder, visibleSegs, visibleOrderAll_eq_segs (pre ++ [name]) buckets]
theorem visibleOrderAll_eq_segs (pre : List String) (bs : List BoltBucket) :
    visibleOrderAll pre bs = (visibleSegsAll pre bs).map (fun X => stringsJoin X "/") := by
  match bs with
  | [] => simp [visibleOrderAll, visibleSegsAll]
  | b :: rest =>
    simp [visibleOrderAll, visibleSegsAll, visibleOrder_eq_segs pre b,
      visibleOrderAll_eq_segs pre rest]
end

mutual
theorem visibleSegs_form (pre : List String) (b : BoltBucket) (hb : b.namesDistinct = true) :
    ∀ X ∈ visibleSegs pre b, ∃ r, X = pre ++ b.name :: r ∧ ∀ s ∈ r, '/' ∉ s.data := by
  match b with
  | ⟨name, pairs, buckets, parent, expanded, errorFlag⟩ =>
    intro X hX
    obtain ⟨_, hpk, _, hsub⟩ := namesDistinct_parts hb
    simp only [visibleSegs, List.mem_cons] at hX
    rcases hX with rfl | hX
    · exact ⟨[], by simp, by simp⟩
    · cases expanded with
      | false => simp at hX
      | true =>
        simp only [if_true, List.mem_append] at hX
        rcases hX with hX | hX
        · obtain ⟨c, hc, r, rfl, hr⟩ := visibleSegsAll_form (pre ++ [name]) buckets hsub X hX
          refine ⟨c.name :: r, by simp, ?_⟩
          intro s hs
          rcases List.mem_cons.1 hs with rfl | hs
          · exact (namesDistinct_parts (namesDistinctAll_mem hsub hc)).1
          · exact hr s hs
        · obtain ⟨p, hpm, rfl⟩ := List.mem_map.1 hX
          refine ⟨[p.key], by simp, ?_⟩
          intro s hs
          rw [List.mem_singleton] at hs
          subst hs
          exact hpk p hpm
theorem visibleSegsAll_form (pre : List String) (bs : List BoltBucket)
    (hbs : namesDistinctAll bs = true) :
    ∀ X ∈ visibleSegsAll pre bs,
      ∃ c ∈ bs, ∃ r, X = pre ++ c.name :: r ∧ ∀ s ∈ r, '/' ∉ s.data := by
  match bs with
  | [] => intro X hX; simp [visibleSegsAll] at hX
  | b :: rest =>
    intro X hX
    simp only [visibleSegsAll, List.mem_append] at hX
    simp only [namesDistinctAll, Bool.and_eq_true] at hbs
    rcases hX with hX | hX
    · obtain ⟨r, h1, h2⟩ := visibleSegs_form pre b hbs.1 X hX
      exact ⟨b, by simp, r, h1, h2⟩
    · obtain ⟨c, hc, r, h1, h2⟩ := visibleSegsAll_form pre rest hbs.2 X hX
      exact ⟨c, List.mem_cons_of_mem _ hc, r, h1, h2⟩
end

mutual
theorem visibleSegs_nodup (pre : List String) (b : BoltBucket) (hb : b.namesDistinct = true) :
    (visibleSegs pre b).Nodup := by
  match b with
  | ⟨name, pairs, buckets, parent, expanded, errorFlag⟩ =>
    obtain ⟨_, _, hnd, hsub⟩ := namesDistinct_parts hb
    cases expanded with
    | false => simp [visibleSegs]
    | true =>
      simp only [visibleSegs, if_true]
      rw [List.nodup_cons]
      constructor
      · intro hmem
        rcases List.mem_append.1 hmem with hX | hX
        · obtain ⟨c, _, r, h1, _⟩ := visibleSegsAll_form (pre ++ [name]) buckets hsub _ hX
          have := congrArg List.length h1
          simp at this
        · obtain ⟨p, _, h1⟩ := List.mem_map.1 hX
          have := congrArg List.length h1
          simp at this
      · rw [List.nodup_append]
        refine ⟨visibleSegsAll_nodup (pre ++ [name]) buckets hsub
          (List.Nodup.of_append_left hnd), ?_, ?_⟩
        · have hk : (pairs.map BoltPair.key).Nodup := List.Nodup.of_append_right hnd
          have hmap : pairs.map (fun p => pre ++ [name] ++ [p.key])
              = (pairs.map BoltPair.key).map (fun k => pre ++ [name] ++ [k]) := by
            simp
          rw [hmap]
          exact hk.map (fun x y h => by simpa using h)
        · intro X hX hY
          obtain ⟨c, hc, r, h1, _⟩ := visibleSegsAll_form (pre ++ [name]) buckets hsub X hX
          obtain ⟨p, hpm, h2⟩ := List.mem_map.1 hY
          rw [h1] at h2
          have h3 := List.append_cancel_left h2
          simp only [List.cons.injEq] at h3
          have hcn : c.name ∈ buckets.map BoltBucket.name := List.mem_map_of_mem _ hc
          have hpn : p.key ∈ pairs.map BoltPair.key := List.mem_map_of_mem _ hpm
          rw [h3.1] at hpn
          exact (List.nodup_append.1 hnd).2.2 hcn hpn
theorem visibleSegsAll_nodup (pre : List String) (bs : List BoltBucket)
    (hbs : namesDistinctAll bs = true) (hnd : (bs.map BoltBucket.name).Nodup) :
    (visibleSegsAll pre bs).Nodup := by
  match bs with
  | [] => simp [visibleSegsAll]
  | b :: rest =>
    simp only [namesDistinctAll, Bool.and_eq_true] at hbs
    rw [List.map_cons, List.nodup_cons] at hnd
    simp only [visibleSegsAll]
    rw [List.nodup_append]
    refine ⟨visibleSegs_nodup pre b hbs.1, visibleSegsAll_nodup pre rest hbs.2 hnd.2, ?_⟩
    intro X hX hY
    obtain ⟨r, h1, _⟩ := visibleSegs_form pre b hbs.1 X hX
    obtain ⟨c, hc, r2, h2, _⟩ := visibleSegsAll_form pre rest hbs.2 X hY
    rw [h1] at h2
    have h3 := List.append_cancel_left h2
    simp only [List.cons.injEq] at h3
    exact hnd.1 (h3.1 ▸ List.mem_map_of_mem _ hc)
end

theorem visiblePaths_eq_segs (m : BoltDB) :
    m.visiblePaths = (visibleSegsAll [] m.buckets).map (fun X => stringsJoin X "/") := by
  simp [BoltDB.visiblePaths, BoltDB.buildVisiblePathSlice, visibleSubBuckets_eq,
    visibleOrderAll_eq_segs]

theorem root_resolves {m : BoltDB} (hnd : (m.buckets.map BoltBucket.name).Nodup)
    {c : BoltBucket} (hc : c ∈ m.buckets) :
    (∃ a, m.getBucketFromPath m ([] ++ [c.name]) = .ok ⟨a, c⟩) ∧
      ∃ e, m.getPairFromPath m ([] ++ [c.name]) = .error e := by
  obtain ⟨i, hi⟩ := lookupBucket_of_nodup hnd hc
  exact ⟨⟨[i], by simp [BoltDB.getBucketFromPath, BoltDB.getBucket, hi, walkBuckets]⟩,
    ⟨"Invalid Path", by simp [BoltDB.getPairFromPath, BoltDB.getBucketFromPath]⟩⟩

theorem visibleSegs_split {m : BoltDB} (hbs : namesDistinctAll m.buckets = true)
    {X : List String} (hX : X ∈ visibleSegsAll [] m.buckets) :
    stringsSplit (stringsJoin X "/") '/' = X := by
  obtain ⟨c, hc, r, rfl, hr⟩ := visibleSegsAll_form [] m.buckets hbs X hX
  apply stringsSplit_stringsJoin _ (by simp)
  intro s hs
  rcases List.mem_cons.1 (by simpa using hs) with rfl | hs
  · exact (namesDistinct_parts (namesDistinctAll_mem hbs hc)).1
  · exact hr s hs

/-- C20: every visible entry is addressable.  In a mirror whose sibling names
are unique across buckets and pairs and hold no `/`, and whose parent references
are in order (roots have none, every other node refers to its containing bucket),
each string `s` of the visible sequence, split on `/`, is resolved by
`getGenericFromPath` without error to a bucket or to a pair whose `GetPath`
joined with `/` is `s` again, and the entries of the visible sequence are
pairwise distinct. -/
theorem visible_entries_addressable (m : BoltDB) (hn : m.namesDistinct = true)
    (hp : m.parentsOk = true) :
    (∀ s ∈ m.visiblePaths,
      (∃ b, m.getGenericFromPath m (stringsSplit s '/') = (some b, none, none) ∧
        stringsJoin b.target.GetPath "/" = s) ∨
      (∃ p q, m.getGenericFromPath m (stringsSplit s '/') = (none, some p, none) ∧
        p.target.GetPath = some q ∧ stringsJoin q "/" = s)) ∧
    m.visiblePaths.Nodup := by
  simp only [BoltDB.namesDistinct, Bool.and_eq_true, decide_eq_true_eq] at hn
  obtain ⟨hnd, hbs⟩ := hn
  have hres := visibleSegsAll_resolve m hp m.buckets [] hbs (fun c hc => root_resolves hnd hc)
  rw [visiblePaths_eq_segs]
  constructor
  · intro s hs
    obtain ⟨X, hX, rfl⟩ := List.mem_map.1 hs
    rw [visibleSegs_split hbs hX]
    rcases hres X hX with ⟨b, h1, h2⟩ | ⟨p, h1, h2⟩
    · exact Or.inl ⟨b, h1, by rw [h2]⟩
    · exact Or.inr ⟨p, X, h1, h2, rfl⟩
  · apply List.Nodup.map_on _ (visibleSegsAll_nodup [] m.buckets hbs hnd)
    intro x hx y hy h
    have h2 := congrArg (fun s => stringsSplit s '/') h
    simp only [visibleSegs_split hbs hx, visibleSegs_split hbs hy] at h2
    exact h2

/-- Witness for C20: the scenario mirror has unique sibling names without `/`
and parent references in order; its visible sequence is
`["A", "A/B", "A/B/k2", "A/k1"]`, and `"A/B/k2"` resolves to the pair `k2` of
the bucket `B`. -/
theorem visible_entries_addressable_witness :
    scenarioMirror.visiblePaths = ["A", "A/B", "A/B/k2", "A/k1"] ∧
    scenarioMirror.getGenericFromPath scenarioMirror (stringsSplit "A/B/k2" '/')
      = (none, some ⟨[0, 0], 0, ⟨.ref "B" (.ref "A" .null), "k2", "2"⟩⟩, none) ∧
    ((∀ s ∈ scenarioMirror.visiblePaths,
      (∃ b, scenarioMirror.getGenericFromPath scenarioMirror (stringsSplit s '/')
          = (some b, none, none) ∧ stringsJoin b.target.GetPath "/" = s) ∨
      (∃ p q, scenarioMirror.getGenericFromPath scenarioMirror (stringsSplit s '/')
          = (none, some p, none) ∧ p.target.GetPath = some q ∧ stringsJoin q "/" = s)) ∧
    scenarioMirror.visiblePaths.Nodup) :=
  ⟨by decide, rfl, visible_entries_addressable scenarioMirror (by decide) (by decide)⟩

end BoltBrowser
